import Mathlib

/-! # Liveness analysis pass (`llvm/lib/Analysis/LivenessAnalysis.cpp`)

A shallow embedding of `LivenessAnalysisPass`: the def/use extractor
(`analyzeInstruction`), the per-function initialisation (`analyzeFunction`),
the pass loop and histogram update (`livenessAnalysis`), `increment` and the
module driver `run`.

Program model.  The pass consumes LLVM IR through a handful of queries
(`isa<...>`, `getName`, `isTerminator`, `getSuccessor(i)->front()`,
`getNextNonDebugInstruction`).  The IR is embedded as plain data that answers
exactly these queries:

* a `Value` is an operand: its class (`ValueKind`), its name and an address
  that stands for the identity of the `Value*`;
* an `Instruction` carries the class the pass dispatches on (`InstKind`), its
  own name, its operand list and, for terminators, the indices of its
  successor blocks;
* a `BasicBlock` is the list of its instructions, a `Function` the list of its
  blocks, a `Module` the list of its functions.

The three `std::map<Instruction *, std::set<StringRef>>` members are keyed by
the address of the instruction.  An instruction is a distinct object for each
position of each function, so its address is embedded as that position
(`InstPtr`).  A `std::set<StringRef>` is a `Finset String`.
-/

namespace LivenessAnalysis

/-! ## Program model -/

/-- The classes of `Value` the extractor distinguishes with `isa<>`. -/
inductive ValueKind where
  | instruction
  | argument
  | constant
  | basicBlock
  | other
  deriving DecidableEq, Repr

/-- An operand: `addr` is the identity of the `Value *`, `name` is `getName()`. -/
structure Value where
  addr : Nat
  kind : ValueKind
  name : String
  deriving DecidableEq, Repr

/-- The classes of instruction the pass dispatches on.  `br true` is a
conditional `BranchInst`, `br false` an unconditional one; `otherTerminator`
is any terminator that is neither `ret` nor `br`; `debug` is a debug
intrinsic (a generic call that `getNextNonDebugInstruction` skips);
`generic` is every other instruction. -/
inductive InstKind where
  | alloca
  | ret
  | br (conditional : Bool)
  | store
  | otherTerminator
  | debug
  | generic
  deriving DecidableEq, Repr

/-- An instruction: its class, `getName()`, its operands in order and, for a
terminator, the blocks `getSuccessor(i)` as indices into the function. -/
structure Instruction where
  kind : InstKind
  name : String
  operands : List Value
  successors : List Nat
  deriving DecidableEq, Repr

abbrev BasicBlock := List Instruction
abbrev Function := List BasicBlock
abbrev Module := List Function

/-- The address of an instruction: function, block and position in the block. -/
structure InstPtr where
  fn : Nat
  bb : Nat
  idx : Nat
  deriving DecidableEq, Repr

/-- The test `isa<AllocaInst>(&instr)`. -/
def Instruction.isAlloca (i : Instruction) : Bool :=
  match i.kind with
  | .alloca => true
  | _ => false

/-- The test `isa<ReturnInst>(&instr)`, also `instr.getOpcode() == Instruction::Ret`. -/
def Instruction.isRet (i : Instruction) : Bool :=
  match i.kind with
  | .ret => true
  | _ => false

/-- The test `isa<BranchInst>(&instr)`. -/
def Instruction.isBranch (i : Instruction) : Bool :=
  match i.kind with
  | .br _ => true
  | _ => false

/-- The query `cast<BranchInst>(&instr)->isConditional()`. -/
def Instruction.isConditional (i : Instruction) : Bool :=
  match i.kind with
  | .br c => c
  | _ => false

/-- The test `isa<StoreInst>(instr)`. -/
def Instruction.isStore (i : Instruction) : Bool :=
  match i.kind with
  | .store => true
  | _ => false

/-- The query `instr.isTerminator()`. -/
def Instruction.isTerminator (i : Instruction) : Bool :=
  match i.kind with
  | .ret => true
  | .br _ => true
  | .otherTerminator => true
  | _ => false

/-- The test `isa<DbgInfoIntrinsic>(&instr)`. -/
def Instruction.isDebug (i : Instruction) : Bool :=
  match i.kind with
  | .debug => true
  | _ => false

/-- The test `isa<Instruction>(val) || isa<Argument>(val)`. -/
def Value.isInstOrArg (v : Value) : Bool :=
  match v.kind with
  | .instruction => true
  | .argument => true
  | _ => false

/-- The test `isa<Constant>(val)`. -/
def Value.isConstant (v : Value) : Bool :=
  match v.kind with
  | .constant => true
  | _ => false

/-! ## `std::map<Instruction *, std::set<StringRef>>` -/

/-- The map as the list of its entries, at most one per key. -/
abbrev PtrMap := List (InstPtr × Finset String)

/-- The lookup `m.find(p)`: the mapped set, `none` for `m.end()`. -/
def PtrMap.find : PtrMap → InstPtr → Option (Finset String)
  | [], _ => none
  | (q, s) :: m, p => if q = p then some s else PtrMap.find m p

/-- The assignment `m[p] = s`: overwrite the entry of `p`, creating it when absent. -/
def PtrMap.set : PtrMap → InstPtr → Finset String → PtrMap
  | [], p, s => [(p, s)]
  | (q, t) :: m, p, s => if q = p then (q, s) :: m else (q, t) :: PtrMap.set m p s

/-- The set read by `m[p]`, which is empty when the entry is created by the read;
also the value of `m.find(p) != m.end() ? m[p] : std::set<StringRef>()`. -/
def PtrMap.getD (m : PtrMap) (p : InstPtr) : Finset String :=
  (m.find p).getD ∅

/-- The effect of evaluating `m[p]` on the map: a missing entry is created empty. -/
def PtrMap.touch (m : PtrMap) (p : InstPtr) : PtrMap :=
  match m.find p with
  | some _ => m
  | none => m.set p ∅

/-! ## Pass state -/

/-- The data members of `LivenessAnalysisPass` (`liveValues` is never used). -/
structure PassState where
  counts : List Nat
  live : PtrMap
  defs : PtrMap
  uses : PtrMap
  deriving DecidableEq

/-- A freshly constructed pass object. -/
def PassState.fresh : PassState :=
  { counts := [], live := [], defs := [], uses := [] }

/-! ## `analyzeInstruction` -/

/-- The operand loop of `analyzeInstruction`, from operand `OI` on; `rest` holds
the operands not yet visited.  Falling out of the loop records
`def[&instr] = {instr.getName()}`. -/
def analyzeOperands (p : InstPtr) (instr : Instruction) :
    List Value → PassState → PassState
  | [], st => { st with defs := st.defs.set p {instr.name} }
  | val :: rest, st =>
    if val.isInstOrArg then
      if instr.isBranch then
        if instr.isConditional then
          { st with uses := st.uses.set p {val.name} }
        else st
      else if instr.isStore && (instr.operands.get? 1).any (fun t => val.addr = t.addr) then
        { st with defs := st.defs.set p {val.name} }
      else if !val.isConstant then
        match st.uses.find p with
        | none => analyzeOperands p instr rest { st with uses := st.uses.set p {val.name} }
        | some s => analyzeOperands p instr rest { st with uses := st.uses.set p (insert val.name s) }
      else analyzeOperands p instr rest st
    else analyzeOperands p instr rest st

/-- The method `LivenessAnalysisPass::analyzeInstruction` for the instruction `instr` at `p`. -/
def analyzeInstruction (p : InstPtr) (instr : Instruction) (st : PassState) : PassState :=
  if instr.isAlloca || instr.isRet then st
  else analyzeOperands p instr instr.operands st

/-- The method `LivenessAnalysisPass::analyzeFunction`, the inner loop over the instructions
of block `bi` of function `fn`; `k` is the position of the head of the list. -/
def analyzeBlock (fn bi : Nat) : Nat → List Instruction → PassState → PassState
  | _, [], st => st
  | k, instr :: rest, st =>
    analyzeBlock fn bi (k + 1) rest
      (analyzeInstruction ⟨fn, bi, k⟩ instr { st with live := st.live.set ⟨fn, bi, k⟩ ∅ })

/-- The method `LivenessAnalysisPass::analyzeFunction`, the outer loop over the blocks;
`b` is the index of the head of the list. -/
def analyzeBlocks (fn : Nat) : Nat → List BasicBlock → PassState → PassState
  | _, [], st => st
  | b, bb :: rest, st => analyzeBlocks fn (b + 1) rest (analyzeBlock fn b 0 bb st)

/-- The method `LivenessAnalysisPass::analyzeFunction` on the function with index `fn`. -/
def analyzeFunction (fn : Nat) (F : Function) (st : PassState) : PassState :=
  analyzeBlocks fn 0 F st

/-! ## `livenessAnalysis` -/

/-- The first instruction of a list that is not a debug intrinsic; `k` is the
position of the head of the list. -/
def firstNonDebug : Nat → List Instruction → Option Nat
  | _, [] => none
  | k, instr :: rest => if instr.isDebug then firstNonDebug (k + 1) rest else some k

/-- The query `instr.getNextNonDebugInstruction()` for the instruction at position `idx` of
block `bb`: the position of the result, `none` for `nullptr`. -/
def getNextNonDebugInstruction (bb : BasicBlock) (idx : Nat) : Option Nat :=
  firstNonDebug (idx + 1) (bb.drop (idx + 1))

/-- The address `&(instr.getSuccessor(i)->front())` for the successor block with index `s`. -/
def successorFront (p : InstPtr) (s : Nat) : InstPtr :=
  ⟨p.fn, s, 0⟩

/-- The loop over the successors of a terminator (lines 105-113): every name of
`live[searchedInstr]` is inserted into `liveAfterCurrentInstruction`.  Reading
`live[searchedInstr]` creates the entry when it is missing. -/
def successorLoop (p : InstPtr) : List Nat → PtrMap → Finset String → PtrMap × Finset String
  | [], live, acc => (live, acc)
  | s :: rest, live, acc =>
    successorLoop p rest (live.touch (successorFront p s)) (acc ∪ live.getD (successorFront p s))

/-- The computation of `liveAfterCurrentInstruction` (lines 100-122) for the
instruction `instr` at `p` in block `bb`, with its effect on the `live` map. -/
def liveAfterCurrentInstruction (p : InstPtr) (bb : BasicBlock) (instr : Instruction)
    (live : PtrMap) : PtrMap × Finset String :=
  if !instr.isRet then
    if instr.isTerminator then
      successorLoop p instr.successors live ∅
    else
      match getNextNonDebugInstruction bb p.idx with
      | some j =>
        match live.find ⟨p.fn, p.bb, j⟩ with
        | some s => (live, s)
        | none => (live, ∅)
      | none => (live, ∅)
  else (live, ∅)

/-- The two loops building `liveTemp` (lines 124-134): the names of
`liveAfterCurrentInstruction` that are not in `defAtCurrentInstr`, then the
names of `useAtCurrentInstr`. -/
def liveTemp (after defAtCurrentInstr useAtCurrentInstr : Finset String) : Finset String :=
  (after \ defAtCurrentInstr) ∪ useAtCurrentInstr

/-- The loop storing `liveTemp` into `live[&instr]` (lines 136-142).  The names of
`liveTemp` are distinct, so a name is found in `live[&instr]` exactly when it
was there before the loop: the loop adds the new names and clears
`liveSetChanged` when some name of `liveTemp` was already stored.  An empty
`liveTemp` leaves the map and the flag alone. -/
def storeLoop (p : InstPtr) (temp : Finset String) (live : PtrMap) (liveSetChanged : Bool) :
    PtrMap × Bool :=
  if temp = ∅ then (live, liveSetChanged)
  else
    (live.set p (live.getD p ∪ temp),
      if temp ∩ live.getD p = ∅ then liveSetChanged else false)

/-- The loop of lines 136-142 taken name by name, over the names of `liveTemp` in
the order the set is walked: a name missing from `live[&instr]` is inserted,
a name found there clears `liveSetChanged`.  `storeLoop` is its closed form
(`storeNames_eq_storeLoop`). -/
def storeNames (p : InstPtr) : List String → PtrMap × Bool → PtrMap × Bool
  | [], x => x
  | name :: rest, x =>
    if name ∈ x.1.getD p then storeNames p rest (x.1.touch p, false)
    else storeNames p rest (x.1.set p (insert name (x.1.getD p)), x.2)

/-- The body of the two nested loops (lines 91-142): one visit of the instruction
`instr` at `p` in block `bb`.  The state is the pass state and the local
`liveSetChanged`.  As in the source, `defAtCurrentInstr` is read from `use`
and `useAtCurrentInstr` from `def`. -/
def visit (p : InstPtr) (bb : BasicBlock) (instr : Instruction) (x : PassState × Bool) :
    PassState × Bool :=
  let st := x.1
  let defAtCurrentInstr : Finset String :=
    match st.uses.find p with
    | some s => s
    | none => ∅
  let useAtCurrentInstr : Finset String :=
    match st.defs.find p with
    | some s => s
    | none => ∅
  let after := liveAfterCurrentInstruction p bb instr st.live
  let stored := storeLoop p (liveTemp after.2 defAtCurrentInstr useAtCurrentInstr) after.1 x.2
  ({ st with live := stored.1 }, stored.2)

/-- The inner loop (lines 88-89) over the instructions of block `bb` in reverse
order; `k` is the position of the head of the list, whose tail is visited
first. -/
def passInstrs (fn bi : Nat) (bb : BasicBlock) :
    Nat → List Instruction → PassState × Bool → PassState × Bool
  | _, [], x => x
  | k, instr :: rest, x => visit ⟨fn, bi, k⟩ bb instr (passInstrs fn bi bb (k + 1) rest x)

/-- The outer loop (line 87) over the blocks in reverse order, from `--F.end()`
down to the first block; `b` is the index of the head of the list, whose tail
is visited first.  A function without blocks is not visited at all. -/
def passBlocks (fn : Nat) : Nat → List BasicBlock → PassState × Bool → PassState × Bool
  | _, [], x => x
  | b, bb :: rest, x => passInstrs fn b bb 0 bb (passBlocks fn (b + 1) rest x)

/-- One full pass: one execution of the body of `while (liveSetChanged)`. -/
def fullPass (fn : Nat) (F : Function) (x : PassState × Bool) : PassState × Bool :=
  passBlocks fn 0 F x

/-- The loop `while (liveSetChanged)`.  `fuel` bounds the number of passes;
`none` means the loop was still running when the fuel ran out. -/
def passLoop (fn : Nat) (F : Function) : Nat → PassState × Bool → Option PassState
  | _, (st, false) => some st
  | 0, (_, true) => none
  | fuel + 1, (st, true) => passLoop fn F fuel (fullPass fn F (st, true))

/-! ## Histogram -/

/-- Arithmetic on `unsigned` is modulo `2 ^ 32`. -/
def wrapUnsigned (n : Nat) : Nat :=
  n % 4294967296

/-- The call `counts.resize(n, 0)`. -/
def resize (counts : List Nat) (n : Nat) : List Nat :=
  counts.take n ++ List.replicate (n - counts.length) 0

/-- The method `LivenessAnalysisPass::increment`.  `counts[c]++` past the end of the vector
(possible only when `c + 1` wraps to 0) is left without effect. -/
def increment (counts : List Nat) (c : Nat) : List Nat :=
  let counts1 := if counts.length ≤ c then resize counts (wrapUnsigned (c + 1)) else counts
  counts1.set c (wrapUnsigned (counts1.getD c 0 + 1))

/-- The loop over `live` (lines 147-149): one `increment` per entry of the map,
with the size of its set converted to `unsigned`. -/
def countLive (live : PtrMap) (counts : List Nat) : List Nat :=
  live.foldl (fun cs item => increment cs (wrapUnsigned item.2.card)) counts

/-- The method `LivenessAnalysisPass::livenessAnalysis` on the function with index `fn`:
the pass loop, then the histogram update over the whole `live` map. -/
def livenessAnalysis (fuel : Nat) (fn : Nat) (F : Function) (st : PassState) :
    Option PassState :=
  (passLoop fn F fuel (st, true)).map
    (fun st1 => { st1 with counts := countLive st1.live st1.counts })

/-- The loop of `LivenessAnalysisPass::run` over the functions of the module;
`fn` is the index of the head of the list. -/
def runFunctions (fuel : Nat) : Nat → List Function → PassState → Option PassState
  | _, [], st => some st
  | fn, F :: rest, st =>
    match livenessAnalysis fuel fn F (analyzeFunction fn F st) with
    | some st1 => runFunctions fuel (fn + 1) rest st1
    | none => none

/-- The method `LivenessAnalysisPass::run` (the assertion on the analysis manager
is about the host): the state of the pass after the module has been
processed (`printHistogram` only reads it). -/
def run (fuel : Nat) (M : Module) (st : PassState) : Option PassState :=
  runFunctions fuel 0 M st

/-! ## Stored sets, as the claims name them -/

/-- The live set stored for the instruction at `p` (empty when unrecorded). -/
def PassState.liveAt (st : PassState) (p : InstPtr) : Finset String :=
  st.live.getD p

/-- The def set recorded by `analyzeInstruction` at `p` (empty when unrecorded). -/
def PassState.defAt (st : PassState) (p : InstPtr) : Finset String :=
  st.defs.getD p

/-- The use set recorded by `analyzeInstruction` at `p` (empty when unrecorded). -/
def PassState.useAt (st : PassState) (p : InstPtr) : Finset String :=
  st.uses.getD p

/-- The instruction at `p` in the function `F` with index `fn`. -/
def instrAt (fn : Nat) (F : Function) (p : InstPtr) : Option Instruction :=
  if p.fn = fn then (F.get? p.bb).bind (fun bb => bb.get? p.idx) else none

/-- The set `after(i)` the solver computes for the instruction `instr` at `p` in
block `bb` from the stored live sets: empty for a return, the union of the
stored sets of the first instruction of each successor block for any other
terminator, the stored set of the following instruction otherwise. -/
def PassState.afterAt (st : PassState) (p : InstPtr) (bb : BasicBlock) (instr : Instruction) :
    Finset String :=
  (liveAfterCurrentInstruction p bb instr st.live).2

/-- The liveness equation `live(i) = (after(i) \ def(i)) ∪ use(i)` at every
instruction of the function `F` with index `fn`. -/
def FixpointLaw (fn : Nat) (F : Function) (st : PassState) : Prop :=
  ∀ b bb k instr, F.get? b = some bb → bb.get? k = some instr →
    st.liveAt ⟨fn, b, k⟩ =
      (st.afterAt ⟨fn, b, k⟩ bb instr \ st.defAt ⟨fn, b, k⟩) ∪ st.useAt ⟨fn, b, k⟩

/-- The well-formedness the pass assumes of a function: at least one block, every
block non-empty, ended by a terminator and with no terminator before its end,
every successor a block of the function. -/
def wellFormed (F : Function) : Bool :=
  !F.isEmpty && F.all (fun bb =>
    match bb.getLast? with
    | some t =>
      t.isTerminator && bb.dropLast.all (fun i => !i.isTerminator) &&
        bb.all (fun i => i.successors.all (fun s => s < F.length))
    | none => false)

/-- The number of instructions of a function. -/
def instrCount (F : Function) : Nat :=
  (F.map List.length).sum

/-- The number of instructions of all functions of a module. -/
def moduleInstrCount (M : Module) : Nat :=
  (M.map instrCount).sum

/-! ## Summaries used in the proofs -/

/-- The set `liveTemp` the visit of `instr` at `p` computes in the state `st`. -/
def PassState.tempAt (st : PassState) (p : InstPtr) (bb : BasicBlock) (instr : Instruction) :
    Finset String :=
  liveTemp (st.afterAt p bb instr) (st.useAt p) (st.defAt p)

/-- The effect of the operand loop of `analyzeInstruction` on the use set of the
instruction: the set it leaves in `use[&instr]` when `u` was there before
(`u = ∅` when there was no entry). -/
def useEffect (instr : Instruction) : List Value → Finset String → Finset String
  | [], u => u
  | val :: rest, u =>
    if val.isInstOrArg then
      if instr.isBranch then
        if instr.isConditional then {val.name} else u
      else if instr.isStore && (instr.operands.get? 1).any (fun t => val.addr = t.addr) then u
      else if !val.isConstant then useEffect instr rest (insert val.name u)
      else useEffect instr rest u
    else useEffect instr rest u

/-- The effect of the operand loop of `analyzeInstruction` on the def set of the
instruction. -/
def defEffect (instr : Instruction) : List Value → Finset String → Finset String
  | [], _ => {instr.name}
  | val :: rest, d =>
    if val.isInstOrArg then
      if instr.isBranch then d
      else if instr.isStore && (instr.operands.get? 1).any (fun t => val.addr = t.addr) then
        {val.name}
      else defEffect instr rest d
    else defEffect instr rest d

/-- The use set `analyzeInstruction` leaves for `instr` when `u` was recorded. -/
def instrUseEffect (instr : Instruction) (u : Finset String) : Finset String :=
  if instr.isAlloca || instr.isRet then u else useEffect instr instr.operands u

/-- The def set `analyzeInstruction` leaves for `instr` when `d` was recorded. -/
def instrDefEffect (instr : Instruction) (d : Finset String) : Finset String :=
  if instr.isAlloca || instr.isRet then d else defEffect instr instr.operands d

/-- The three sets stored for the instruction at `q`: live, def, use. -/
def PassState.setsAt (st : PassState) (q : InstPtr) :
    Finset String × Finset String × Finset String :=
  (st.liveAt q, st.defAt q, st.useAt q)

/-- The sets `analyzeFunction` leaves for an instruction `instr` whose def and use
sets were `d` and `u`: an empty live set and the effect of `analyzeInstruction`. -/
def analyzedSets (instr : Instruction) (old : Finset String × Finset String × Finset String) :
    Finset String × Finset String × Finset String :=
  (∅, instrDefEffect instr old.2.1, instrUseEffect instr old.2.2)

/-- Two pass states store the same live, def and use set for every instruction. -/
def SameSets (s t : PassState) : Prop :=
  ∀ q, s.setsAt q = t.setsAt q

/-! ## Concrete functions -/

/-- One block: `%x = add 1, 2`, `%y = add %x, 1`, `ret %y`. -/
def straightLine : Function :=
  [[⟨.generic, "x", [⟨100, .constant, ""⟩, ⟨101, .constant, ""⟩], []⟩,
    ⟨.generic, "y", [⟨1, .instruction, "x"⟩, ⟨100, .constant, ""⟩], []⟩,
    ⟨.ret, "", [⟨2, .instruction, "y"⟩], []⟩]]

/-- Four blocks with two back edges in a row:
`b0: br b3`, `b1: %x = add 1, 2; br b3`, `b2: br b1`, `b3: br b2`. -/
def backEdges : Function :=
  [[⟨.br false, "", [⟨13, .basicBlock, "b3"⟩], [3]⟩],
   [⟨.generic, "x", [⟨100, .constant, ""⟩, ⟨101, .constant, ""⟩], []⟩,
    ⟨.br false, "", [⟨13, .basicBlock, "b3"⟩], [3]⟩],
   [⟨.br false, "", [⟨11, .basicBlock, "b1"⟩], [1]⟩],
   [⟨.br false, "", [⟨12, .basicBlock, "b2"⟩], [2]⟩]]

/-- The function `define void @f() { ret void }`. -/
def retOnly : Function :=
  [[⟨.ret, "", [], []⟩]]

/-- One block: `%x = add 1, 2`, `ret %x`. -/
def defThenRet : Function :=
  [[⟨.generic, "x", [⟨100, .constant, ""⟩, ⟨101, .constant, ""⟩], []⟩,
    ⟨.ret, "", [⟨1, .instruction, "x"⟩], []⟩]]

/-- A module of two functions, each `%x = add 1, 2; ret %x`. -/
def twoFunctions : Module :=
  [defThenRet, defThenRet]

/-- The conditional branch `br %c, label %then, label %else`, with successor
blocks 1 and 2. -/
def condBranch : Instruction :=
  ⟨.br true, "", [⟨1, .instruction, "c"⟩, ⟨12, .basicBlock, "else"⟩, ⟨11, .basicBlock, "then"⟩],
    [1, 2]⟩

/-- A state in which the first instructions of blocks 1 and 2 have the stored
live sets `{a}` and `{b}`, the branch at block 0 has the empty one, and
`analyzeInstruction` has run on the branch. -/
def condBranchState : PassState :=
  analyzeInstruction ⟨0, 0, 0⟩ condBranch
    { counts := [], live := [(⟨0, 0, 0⟩, ∅), (⟨0, 1, 0⟩, {"a"}), (⟨0, 2, 0⟩, {"b"})],
      defs := [], uses := [] }

/-- The unconditional branch `br label %b3`. -/
def uncondBranch : Instruction :=
  ⟨.br false, "", [⟨13, .basicBlock, "b3"⟩], [3]⟩

/-- The conditional branch on a constant `br i1 true, label %then, label %else`. -/
def brOnConstant : Instruction :=
  ⟨.br true, "", [⟨100, .constant, ""⟩, ⟨12, .basicBlock, "else"⟩, ⟨11, .basicBlock, "then"⟩],
    [1, 2]⟩

/-- The terminator `unreachable`, which has no operand. -/
def unreachableInstr : Instruction :=
  ⟨.otherTerminator, "", [], []⟩

/-- The call `call void @f()`: no result name, its only operand the callee. -/
def callVoid : Instruction :=
  ⟨.generic, "", [⟨200, .constant, "f"⟩], []⟩

/-- The addition `%y = add %x, 1` of an instruction result and a constant. -/
def addXOne : Instruction :=
  ⟨.generic, "y", [⟨1, .instruction, "x"⟩, ⟨100, .constant, ""⟩], []⟩

/-- The store `store %v, %p` of an instruction result to an argument. -/
def storeVP : Instruction :=
  ⟨.store, "", [⟨1, .instruction, "v"⟩, ⟨2, .argument, "p"⟩], []⟩

/-- The allocation `%a = alloca i32`, whose operand is the constant array size. -/
def allocaA : Instruction :=
  ⟨.alloca, "a", [⟨100, .constant, ""⟩], []⟩

/-- The names of the operands of an instruction that are instruction results or
function arguments. -/
def trackedNames (ops : List Value) : Finset String :=
  ((ops.filter Value.isInstOrArg).map Value.name).toFinset

end LivenessAnalysis

/-! # Machine-register liveness pass (`llvm/lib/Target/X86/X86LivenessAnalysis.cpp`)

The pass object has the same data members as the symbolic one, so its state is
a `PassState`, its maps are keyed by the position of the machine instruction
(`InstPtr`), and the three loops building and storing `liveTemp` are the
`liveTemp` and `storeLoop` of the symbolic pass, which they repeat word for
word.  The text written to `errs()` is not part of the state.
-/

namespace X86LivenessAnalysis

open LivenessAnalysis (InstPtr PtrMap PassState liveTemp storeLoop increment wrapUnsigned)

/-- A machine operand, as the answers to the queries `analyzeInstruction` makes:
`isReg()`, `Register::isPhysicalRegister(getReg())`, `isDef()` and
`tri->getRegAsmName(getReg().asMCReg())`. -/
structure MachineOperand where
  isReg : Bool
  isPhysicalRegister : Bool
  isDef : Bool
  regAsmName : String
  deriving DecidableEq, Repr

/-- The query `operand.isUse()`: a register operand is a use when it is not a def. -/
def MachineOperand.isUse (operand : MachineOperand) : Bool :=
  !operand.isDef

/-- A machine instruction: `isReturn()` and its operands in order. -/
structure MachineInstr where
  isReturn : Bool
  operands : List MachineOperand
  deriving DecidableEq, Repr

abbrev MachineBasicBlock := List MachineInstr
abbrev MachineFunction := List MachineBasicBlock

/-- The body of the operand loop of `X86LivenessAnalysis::analyzeInstruction`
(lines 71-86) for one operand of the instruction at `p`. -/
def analyzeOperand (p : InstPtr) (st : PassState) (operand : MachineOperand) : PassState :=
  if operand.isReg then
    if operand.isPhysicalRegister then
      if operand.isDef then
        { st with defs := st.defs.set p (insert operand.regAsmName (st.defs.getD p)) }
      else if operand.isUse then
        { st with uses := st.uses.set p (insert operand.regAsmName (st.uses.getD p)) }
      else st
    else st
  else st

/-- The method `X86LivenessAnalysis::analyzeInstruction` for the instruction `instr`
at `p`. -/
def analyzeInstruction (p : InstPtr) (instr : MachineInstr) (st : PassState) : PassState :=
  if instr.isReturn then st
  else instr.operands.foldl (analyzeOperand p) st

/-- The inner loop of `X86LivenessAnalysis::analyzeFunction` over the instructions
of block `bi` of function `fn`; `k` is the position of the head of the list.
The three sets of the instruction are emptied before it is analysed. -/
def analyzeBlock (fn bi : Nat) : Nat → List MachineInstr → PassState → PassState
  | _, [], st => st
  | k, instr :: rest, st =>
    analyzeBlock fn bi (k + 1) rest
      (analyzeInstruction ⟨fn, bi, k⟩ instr
        { st with
          live := st.live.set ⟨fn, bi, k⟩ ∅
          uses := st.uses.set ⟨fn, bi, k⟩ ∅
          defs := st.defs.set ⟨fn, bi, k⟩ ∅ })

/-- The outer loop of `X86LivenessAnalysis::analyzeFunction` over the blocks; `b`
is the index of the head of the list. -/
def analyzeBlocks (fn : Nat) : Nat → List MachineBasicBlock → PassState → PassState
  | _, [], st => st
  | b, bb :: rest, st => analyzeBlocks fn (b + 1) rest (analyzeBlock fn b 0 bb st)

/-- The method `X86LivenessAnalysis::analyzeFunction` on the machine function with
index `fn`. -/
def analyzeFunction (fn : Nat) (MF : MachineFunction) (st : PassState) : PassState :=
  analyzeBlocks fn 0 MF st

/-- The instructions of block `bi` with their addresses, in order; `k` is the
position of the head of the list. -/
def blockWorklist (fn bi : Nat) : Nat → List MachineInstr → List (InstPtr × MachineInstr)
  | _, [] => []
  | k, instr :: rest => (⟨fn, bi, k⟩, instr) :: blockWorklist fn bi (k + 1) rest

/-- The instructions of the blocks with their addresses, in order; `b` is the
index of the head of the list. -/
def blocksWorklist (fn : Nat) : Nat → List MachineBasicBlock → List (InstPtr × MachineInstr)
  | _, [] => []
  | b, bb :: rest => blockWorklist fn b 0 bb ++ blocksWorklist fn (b + 1) rest

/-- The vector `worklist` of `livenessAnalysis` (lines 95-101): every instruction of
the function, in layout order. -/
def worklist (fn : Nat) (MF : MachineFunction) : List (InstPtr × MachineInstr) :=
  blocksWorklist fn 0 MF

/-- The value of `lines`: `worklist.size() - 1` as an `unsigned int`, which wraps to
`2 ^ 32 - 1` for an empty worklist. -/
def lines (wl : List (InstPtr × MachineInstr)) : Nat :=
  match wl.length with
  | 0 => 4294967295
  | n + 1 => wrapUnsigned n

/-- The body of the loop over the worklist (lines 116-154): one visit of the
instruction `instr` at `p`, whose successor in the worklist is at `next`.
The state is the pass state and the local `liveSetChanged`.  As in the
source, `defAtCurrentInstr` is read from `use` and `useAtCurrentInstr` from
`def`; reading `live[nextInstr]` creates the entry when it is missing. -/
def visit (p : InstPtr) (instr : MachineInstr) (next : InstPtr) (x : PassState × Bool) :
    PassState × Bool :=
  let st := x.1
  let defAtCurrentInstr : Finset String :=
    match st.uses.find p with
    | some s => s
    | none => ∅
  let useAtCurrentInstr : Finset String :=
    match st.defs.find p with
    | some s => s
    | none => ∅
  let liveAtNextInstruction : PtrMap × Finset String :=
    if !instr.isReturn then (st.live.touch next, st.live.getD next) else (st.live, ∅)
  let stored := storeLoop p
    (liveTemp liveAtNextInstruction.2 defAtCurrentInstr useAtCurrentInstr)
    liveAtNextInstruction.1 x.2
  ({ st with live := stored.1 }, stored.2)

/-- The loop `for (unsigned int i = lines; i >= 1; --i)` from the index `i` down
to 1: `nextInstr = worklist[i]`, `instr = worklist[i - 1]`.  The instruction
at the last index of the worklist is never `instr`.  An index outside the
worklist, which the source reaches only for a function without instructions
(there `lines` wraps), ends the pass. -/
def passFrom (wl : List (InstPtr × MachineInstr)) : Nat → PassState × Bool → PassState × Bool
  | 0, x => x
  | i + 1, x =>
    match wl.get? (i + 1), wl.get? i with
    | some nextInstr, some instr => passFrom wl i (visit instr.1 instr.2 nextInstr.1 x)
    | _, _ => x

/-- One full pass: one execution of the body of `while (liveSetChanged)`. -/
def fullPass (wl : List (InstPtr × MachineInstr)) (x : PassState × Bool) : PassState × Bool :=
  passFrom wl (lines wl) x

/-- The loop `while (liveSetChanged)`.  `fuel` bounds the number of passes;
`none` means the loop was still running when the fuel ran out. -/
def passLoop (wl : List (InstPtr × MachineInstr)) : Nat → PassState × Bool → Option PassState
  | _, (st, false) => some st
  | 0, (_, true) => none
  | fuel + 1, (st, true) => passLoop wl fuel (fullPass wl (st, true))

/-- The loop over the worklist after the passes (lines 160-169): one `increment`
per instruction with the size of `live[instr]`, which is created when missing. -/
def countWorklist : List (InstPtr × MachineInstr) → PassState → PassState
  | [], st => st
  | item :: rest, st =>
    countWorklist rest
      { st with
        live := st.live.touch item.1
        counts := increment st.counts (wrapUnsigned (st.live.getD item.1).card) }

/-- The method `X86LivenessAnalysis::livenessAnalysis` on the machine function with
index `fn`: the pass loop, then the histogram update over the worklist. -/
def livenessAnalysis (fuel : Nat) (fn : Nat) (MF : MachineFunction) (st : PassState) :
    Option PassState :=
  (passLoop (worklist fn MF) fuel (st, true)).map (countWorklist (worklist fn MF))

/-- The method `X86LivenessAnalysis::runOnMachineFunction`: the state of the pass
after the function has been processed (`printHistogram` only reads it). -/
def runOnMachineFunction (fuel : Nat) (fn : Nat) (MF : MachineFunction) (st : PassState) :
    Option PassState :=
  livenessAnalysis fuel fn MF (analyzeFunction fn MF st)

/-- The names of the operands that are physical registers tagged def-role. -/
def defRegNames (ops : List MachineOperand) : Finset String :=
  ((ops.filter (fun o => o.isReg && o.isPhysicalRegister && o.isDef)).map
    MachineOperand.regAsmName).toFinset

/-- The names of the operands that are physical registers tagged use-role. -/
def useRegNames (ops : List MachineOperand) : Finset String :=
  ((ops.filter (fun o => o.isReg && o.isPhysicalRegister && o.isUse)).map
    MachineOperand.regAsmName).toFinset

/-- Three symbolic blocks: `b0: br b2`, `b1: %c = add 1, 2; ret`, `b2: ret`. -/
def branchOver : LivenessAnalysis.Function :=
  [[⟨.br false, "", [⟨12, .basicBlock, "b2"⟩], [2]⟩],
   [⟨.generic, "c", [⟨100, .constant, ""⟩, ⟨101, .constant, ""⟩], []⟩, ⟨.ret, "", [], []⟩],
   [⟨.ret, "", [], []⟩]]

/-- Three machine blocks of the same shape: a jump, a def of `c` and a return, a
return. -/
def branchOverMF : MachineFunction :=
  [[⟨false, []⟩], [⟨false, [⟨true, true, true, "c"⟩]⟩, ⟨true, []⟩], [⟨true, []⟩]]

/-- A pass state for the four instructions of `branchOver` and `branchOverMF`:
every live set empty, the def set `{c}` for the first instruction of block 1,
every other def and use set empty. -/
def branchOverState : PassState :=
  { counts := [],
    live := [(⟨0, 0, 0⟩, ∅), (⟨0, 1, 0⟩, ∅), (⟨0, 1, 1⟩, ∅), (⟨0, 2, 0⟩, ∅)],
    defs := [(⟨0, 0, 0⟩, ∅), (⟨0, 1, 0⟩, {"c"}), (⟨0, 1, 1⟩, ∅), (⟨0, 2, 0⟩, ∅)],
    uses := [(⟨0, 0, 0⟩, ∅), (⟨0, 1, 0⟩, ∅), (⟨0, 1, 1⟩, ∅), (⟨0, 2, 0⟩, ∅)] }

/-- A machine block of the shape of the symbolic `straightLine`: two instructions
and a return. -/
def straightLineMF : MachineFunction :=
  [[⟨false, [⟨true, true, true, "x"⟩]⟩,
    ⟨false, [⟨true, true, true, "y"⟩, ⟨true, true, false, "x"⟩]⟩,
    ⟨true, []⟩]]

/-- The number of machine instructions of a machine function. -/
def machineInstrCount (MF : MachineFunction) : Nat :=
  (MF.map List.length).sum

/-- The number of machine instructions of a list of machine functions. -/
def totalMachineInstrCount (MFs : List MachineFunction) : Nat :=
  (MFs.map machineInstrCount).sum

/-- The calls of `runOnMachineFunction` one pass instance receives, one per machine
function, in order; `fn` is the index of the head of the list. -/
def runOnMachineFunctions (fuel : Nat) : Nat → List MachineFunction → PassState → Option PassState
  | _, [], st => some st
  | fn, MF :: rest, st =>
    match runOnMachineFunction fuel fn MF st with
    | some st1 => runOnMachineFunctions fuel (fn + 1) rest st1
    | none => none

/-- The machine function of `void f() {}`: one block holding one return. -/
def retOnlyMF : MachineFunction :=
  [[⟨true, []⟩]]

/-- The instruction `$eax = ADD32ri $eax, 1` with its implicit def of `$eflags`, a
virtual-register operand added: a def of `eax`, a use of `eax`, an immediate,
a def of `eflags`, a virtual register. -/
def addEax : MachineInstr :=
  ⟨false, [⟨true, true, true, "eax"⟩, ⟨true, true, false, "eax"⟩, ⟨false, false, false, ""⟩,
    ⟨true, true, true, "eflags"⟩, ⟨true, false, false, "vreg"⟩]⟩

end X86LivenessAnalysis

/-! # MMA operand-type inference (`mlir/lib/Dialect/LLVMIR/IR/NVVMDialect.cpp`)

The part of `MmaOp` that decides the PTX type attributes of the multiplicands:
`inferOperandMMAType` and its calls in `MmaOp::build` and `MmaOp::parse`.  An
MLIR type is embedded as the answers to the queries `inferOperandMMAType`
makes of it.
-/

namespace NVVM

/-- The enumeration `NVVM::MMATypes`. -/
inductive MMATypes where
  | f16
  | f32
  | tf32
  | bf16
  | s8
  | u8
  | s32
  | s4
  | u4
  | b1
  | f64
  deriving DecidableEq, Repr

/-- An MLIR type, as far as `inferOperandMMAType` tells types apart: `f64`, `f16`,
`f32`, an `IntegerType` of some width, a fixed vector type of an element type
and a length (`vector<2xf16>` is `fixedVector f16 2`), an `LLVMStructType`
with its body, and any other type. -/
inductive MlirType where
  | f64
  | f16
  | f32
  | integer (width : Nat)
  | fixedVector (elem : MlirType) (n : Nat)
  | struct (body : List MlirType)
  | other

/-- The method `MmaOp::inferOperandMMAType` (lines 94-119): the PTX type of an operand
from its element type and whether it is an accumulator; `none` is
`std::nullopt`.  The cases are those of the source in its order: `isF64`,
`isF16` or equal to `vector<2xf16>`, `isF32` as accumulator, `isF32` as
multiplicand, `IntegerType`, a struct (empty body, else its first member),
anything else. -/
def MmaOp.inferOperandMMAType : MlirType → Bool → Option MMATypes
  | .f64, _ => some .f64
  | .f16, _ => some .f16
  | .fixedVector .f16 2, _ => some .f16
  | .f32, true => some .f32
  | .f32, false => some .tf32
  | .integer _, true => some .s32
  | .integer _, false => none
  | .struct [], _ => none
  | .struct (t :: _), isAccumulator => MmaOp.inferOperandMMAType t isAccumulator
  | _, _ => none

/-- The value `MmaOp::build` gives the attribute `multiplicandAPtxType` (and likewise
`multiplicandBPtxType`) for an operand whose first register has the type
`operandType` (lines 222-232); `none` when it adds no attribute.  The
argument `multiplicandPtxType` is the operand's entry of the optional
`multiplicandPtxTypes`. -/
def MmaOp.buildMultiplicandPtxType (operandType : MlirType)
    (multiplicandPtxType : Option MMATypes) : Option MMATypes :=
  match multiplicandPtxType with
  | some t => some t
  | none => MmaOp.inferOperandMMAType operandType false

/-- The value `frag.elemtype` that `MmaOp::parse` computes for the operand segment
with the index `index` (0 for `A`, 1 for `B`, 2 for `C`) whose registers have
the type `regType` (lines 317-318). -/
def MmaOp.parseFragElemtype (index : Nat) (regType : MlirType) : Option MMATypes :=
  MmaOp.inferOperandMMAType regType (decide (index < 2))

/-- The names of the multiplicand type attributes (lines 326-327). -/
def MmaOp.multiplicandNames : List String :=
  ["multiplicandAPtxType", "multiplicandBPtxType"]

/-- The value of the attribute `names[idx]` on the operation `MmaOp::parse` produces
(lines 328-344), for the multiplicand `idx` whose registers have the type
`regType`; `attr` is the attribute given explicitly in the attribute
dictionary, if any.  An error is the diagnostic the parser emits. -/
def MmaOp.parseMultiplicandPtxType (idx : Nat) (regType : MlirType) (attr : Option MMATypes) :
    Except String MMATypes :=
  match MmaOp.parseFragElemtype idx regType, attr with
  | none, none =>
    .error ("attribute " ++ MmaOp.multiplicandNames.getD idx "" ++
      " is not provided explicitly and cannot be inferred")
  | some t, none => .ok t
  | _, some a => .ok a

end NVVM

namespace LivenessAnalysis

/-- The histogram update without the `unsigned` wrap-around, by recursion on the
vector: bucket `c` is created with the buckets before it when it is missing
and incremented. -/
def bump : List Nat → Nat → List Nat
  | [], 0 => [1]
  | [], c + 1 => 0 :: bump [] c
  | x :: xs, 0 => (x + 1) :: xs
  | x :: xs, c + 1 => x :: bump xs c

/-- The loop of `printHistogram` (lines 159-161) from the index `i`, with `k`
iterations left; `out` is what has been written to `errs()`, one entry per
iteration: the index, `": "`, the count of the bucket and a newline. -/
def printFrom (counts : List Nat) : Nat → Nat → List String → List String
  | _, 0, out => out
  | i, k + 1, out =>
    printFrom counts (i + 1) k
      (out ++ [toString i ++ ": " ++ toString (counts.getD i 0) ++ "\n"])

/-- The method `LivenessAnalysisPass::printHistogram` (and the one of the
machine-register pass, which is the same text): what it writes to `errs()`.
The bound `n` is `counts.size()` converted to `unsigned`. -/
def printHistogram (counts : List Nat) : List String :=
  printFrom counts 0 (wrapUnsigned counts.length) []

/-- The line `printHistogram` writes for bucket `i`. -/
def histogramLine (counts : List Nat) (i : Nat) : String :=
  toString i ++ ": " ++ toString (counts.getD i 0) ++ "\n"

/-! ## The visits of one pass, as a list -/

/-- The keys of the map, in the order of its entries. -/
def PtrMap.keys (m : PtrMap) : List InstPtr :=
  m.map Prod.fst

/-- The visits of the inner loop for the instructions `rest` of block `bi`, whose
head is at position `k`: address, enclosing block and instruction, in layout
order (the loop makes them last to first). -/
def blockVisits (fn bi : Nat) (bb : BasicBlock) :
    Nat → List Instruction → List (InstPtr × BasicBlock × Instruction)
  | _, [] => []
  | k, instr :: rest => (⟨fn, bi, k⟩, bb, instr) :: blockVisits fn bi bb (k + 1) rest

/-- The visits of the outer loop for the blocks `rest`, whose head has index `b`,
in layout order. -/
def blocksVisits (fn : Nat) : Nat → List BasicBlock → List (InstPtr × BasicBlock × Instruction)
  | _, [] => []
  | b, bb :: rest => blockVisits fn b bb 0 bb ++ blocksVisits fn (b + 1) rest

/-- The instructions of the function `F` with index `fn`, each with its address
and its block, in layout order. -/
def visits (fn : Nat) (F : Function) : List (InstPtr × BasicBlock × Instruction) :=
  blocksVisits fn 0 F

/-- The addresses of the instructions of `F`, in layout order. -/
def instrPtrs (fn : Nat) (F : Function) : List InstPtr :=
  (visits fn F).map (fun e => e.1)

/-- The visits of the list `l`, made last to first. -/
def visitAll (l : List (InstPtr × BasicBlock × Instruction)) (x : PassState × Bool) :
    PassState × Bool :=
  l.foldr (fun e y => visit e.1 e.2.1 e.2.2 y) x

/-- The address `p` lies before `q` in the layout of their function. -/
def InstPtr.before (p q : InstPtr) : Bool :=
  decide (p.bb < q.bb) || (decide (p.bb = q.bb) && decide (p.idx < q.idx))

/-- The key list of a map after `m[p]` has been evaluated: a missing key is added
at the end. -/
def addKey (ks : List InstPtr) (p : InstPtr) : List InstPtr :=
  if p ∈ ks then ks else ks ++ [p]

/-- The names held by the def sets recorded for the instructions of `F`. -/
def defNames (fn : Nat) (F : Function) (st : PassState) : Finset String :=
  (instrPtrs fn F).toFinset.biUnion st.defAt

/-- The blocks `rest`, whose head has index `b`, only branch forward: every
successor of every terminator is a block with a larger index than the
terminator's own block. -/
def forwardFrom : Nat → List BasicBlock → Bool
  | _, [] => true
  | b, bb :: rest =>
    bb.all (fun i => !i.isTerminator || i.successors.all (fun s => decide (b < s))) &&
      forwardFrom (b + 1) rest

/-- Every successor of every terminator of `F` is a block strictly later in the
block order than the terminator's own block. -/
def forwardOnly (F : Function) : Bool :=
  forwardFrom 0 F

/-- Four blocks in a diamond: `b0: %c = icmp %a, 0; br %c, b1, b2`,
`b1: %x = add %a, 1; br b3`, `b2: %y = add %a, 2; br b3`, `b3: ret`. -/
def diamond : Function :=
  [[⟨.generic, "c", [⟨1, .argument, "a"⟩, ⟨100, .constant, ""⟩], []⟩,
    ⟨.br true, "", [⟨2, .instruction, "c"⟩, ⟨12, .basicBlock, "b2"⟩, ⟨11, .basicBlock, "b1"⟩],
      [1, 2]⟩],
   [⟨.generic, "x", [⟨1, .argument, "a"⟩, ⟨101, .constant, ""⟩], []⟩,
    ⟨.br false, "", [⟨13, .basicBlock, "b3"⟩], [3]⟩],
   [⟨.generic, "y", [⟨1, .argument, "a"⟩, ⟨102, .constant, ""⟩], []⟩,
    ⟨.br false, "", [⟨13, .basicBlock, "b3"⟩], [3]⟩],
   [⟨.ret, "", [], []⟩]]

/-- The number of increments `run` makes for the functions `rest` when each
instruction of a function is counted once by the `livenessAnalysis` of its
own function and once by that of every later function. -/
def expectedSum : List Function → Nat
  | [] => 0
  | F :: rest => (rest.length + 1) * instrCount F + expectedSum rest

/-- The number of those increments that go to bucket `k`: for every function, the
number of its instructions whose live set in `st` has `k` names, times the
number of functions from it to the end of the module; `fn` is the index of the
head of the list. -/
def expectedBucket (st : PassState) (k : Nat) : Nat → List Function → Nat
  | _, [] => 0
  | fn, F :: rest =>
    (rest.length + 1) * (instrPtrs fn F).countP (fun p => decide ((st.liveAt p).card = k)) +
      expectedBucket st k (fn + 1) rest

/-- The successor relation of the symbolic solver: the instructions whose stored
live sets are joined into `liveAfterCurrentInstruction` at the visit of
`instr` at `p` in block `bb` (lines 100-122).  None for a return, the first
instruction of every successor block for any other terminator, the next
instruction that is not a debug intrinsic otherwise. -/
def successorPtrs (p : InstPtr) (bb : BasicBlock) (instr : Instruction) : List InstPtr :=
  if !instr.isRet then
    if instr.isTerminator then
      instr.successors.map (successorFront p)
    else
      match getNextNonDebugInstruction bb p.idx with
      | some j => [⟨p.fn, p.bb, j⟩]
      | none => []
  else []

/-- Two blocks, the first falling through to the second:
`b0: %x = add 1, 2; br b1`, `b1: %y = add %x, 1; ret %y`. -/
def fallThrough : Function :=
  [[⟨.generic, "x", [⟨100, .constant, ""⟩, ⟨101, .constant, ""⟩], []⟩,
    ⟨.br false, "", [⟨11, .basicBlock, "b1"⟩], [1]⟩],
   [⟨.generic, "y", [⟨1, .instruction, "x"⟩, ⟨100, .constant, ""⟩], []⟩,
    ⟨.ret, "", [⟨2, .instruction, "y"⟩], []⟩]]

/-- One block that ends in `unreachable`: `%x = add 1, 2; unreachable`. -/
def unreachableEnd : Function :=
  [[⟨.generic, "x", [⟨100, .constant, ""⟩, ⟨101, .constant, ""⟩], []⟩,
    ⟨.otherTerminator, "", [], []⟩]]

end LivenessAnalysis

namespace X86LivenessAnalysis

open LivenessAnalysis (InstPtr PtrMap PassState liveTemp storeLoop increment wrapUnsigned)

/-- The successor relation of the machine-register solver: the instructions whose
stored live set is read at the visit of `instr` (lines 129-133), where `next`
is the instruction that follows it in the worklist.  None for a return,
`next` otherwise. -/
def machineSuccessorPtrs (instr : MachineInstr) (next : InstPtr) : List InstPtr :=
  if instr.isReturn then [] else [next]

/-- The two solvers are given the same task: the symbolic instructions `vs` and the
machine instructions `wl`, both in layout order, have the same addresses in
the same order, and every instruction has the same set of successors for
both solvers.  The last instruction, which the machine solver never visits,
has no successor for the symbolic solver. -/
def sameLayout :
    List (InstPtr × LivenessAnalysis.BasicBlock × LivenessAnalysis.Instruction) →
      List (InstPtr × MachineInstr) → Bool
  | [], [] => true
  | v :: vs, w :: wl =>
    decide (v.1 = w.1) &&
      (match wl.head? with
        | some next =>
          decide ((LivenessAnalysis.successorPtrs v.1 v.2.1 v.2.2).toFinset =
            (machineSuccessorPtrs w.2 next.1).toFinset)
        | none => (LivenessAnalysis.successorPtrs v.1 v.2.1 v.2.2).isEmpty) &&
      sameLayout vs wl
  | _, _ => false

/-- Two machine blocks of the shape of the symbolic `fallThrough`: a def of `x` and
a jump, a def of `y` using `x` and a return. -/
def fallThroughMF : MachineFunction :=
  [[⟨false, [⟨true, true, true, "x"⟩]⟩, ⟨false, []⟩],
   [⟨false, [⟨true, true, true, "y"⟩, ⟨true, true, false, "x"⟩]⟩, ⟨true, []⟩]]

/-- One machine block of the shape of the symbolic `unreachableEnd`: a def of `x`
and an instruction without operands that is not a return. -/
def unreachableEndMF : MachineFunction :=
  [[⟨false, [⟨true, true, true, "x"⟩]⟩, ⟨false, []⟩]]

end X86LivenessAnalysis

namespace LivenessAnalysis

/-! ## The map operations -/

theorem PtrMap.find_set (m : PtrMap) (p q : InstPtr) (s : Finset String) :
    (PtrMap.set m p s).find q = if p = q then some s else m.find q := by
  induction m with
  | nil => simp [PtrMap.set, PtrMap.find]
  | cons e m ih =>
    obtain ⟨r, t⟩ := e
    by_cases hrp : r = p
    · subst hrp
      by_cases hrq : r = q <;> simp [PtrMap.set, PtrMap.find, hrq]
    · by_cases hpq : p = q
      · subst hpq
        simp [PtrMap.set, PtrMap.find, hrp, ih]
      · by_cases hrq : r = q
        · subst hrq
          simp [PtrMap.set, PtrMap.find, hrp, hpq]
        · simp [PtrMap.set, PtrMap.find, hrp, hrq, hpq, ih]

theorem PtrMap.getD_set (m : PtrMap) (p q : InstPtr) (s : Finset String) :
    (PtrMap.set m p s).getD q = if p = q then s else m.getD q := by
  unfold PtrMap.getD
  rw [PtrMap.find_set]
  split <;> rfl

theorem PtrMap.getD_touch (m : PtrMap) (p q : InstPtr) :
    (PtrMap.touch m p).getD q = m.getD q := by
  unfold PtrMap.touch
  cases h : m.find p with
  | some s => rfl
  | none =>
    show (PtrMap.set m p ∅).getD q = m.getD q
    rw [PtrMap.getD_set]
    split
    · rename_i hpq
      subst hpq
      simp [PtrMap.getD, h]
    · rfl

theorem PtrMap.getD_eq_match (m : PtrMap) (p : InstPtr) :
    (match m.find p with
      | some s => s
      | none => ∅) = m.getD p := by
  unfold PtrMap.getD
  cases m.find p <;> rfl

theorem PtrMap.set_set (m : PtrMap) (p : InstPtr) (a b : Finset String) :
    (PtrMap.set m p a).set p b = m.set p b := by
  induction m with
  | nil => simp [PtrMap.set]
  | cons e m ih =>
    obtain ⟨r, t⟩ := e
    by_cases hrp : r = p
    · simp [PtrMap.set, hrp]
    · simp [PtrMap.set, hrp, ih]

theorem PtrMap.set_self (m : PtrMap) (p : InstPtr) (a : Finset String)
    (h : m.find p = some a) : m.set p a = m := by
  induction m with
  | nil => simp [PtrMap.find] at h
  | cons e m ih =>
    obtain ⟨r, t⟩ := e
    by_cases hrp : r = p
    · simp only [PtrMap.find, hrp, if_true, Option.some.injEq] at h
      simp [PtrMap.set, hrp, h]
    · simp only [PtrMap.find, hrp, if_false] at h
      simp [PtrMap.set, hrp, ih h]

/-- The loop of lines 136-142 run name by name over any duplicate-free
enumeration of `liveTemp` gives the map and the flag of `storeLoop`. -/
theorem storeNames_eq_storeLoop (p : InstPtr) (names : List String) (hnd : names.Nodup)
    (live : PtrMap) (c : Bool) :
    storeNames p names (live, c) = storeLoop p names.toFinset live c := by
  induction names generalizing live c with
  | nil => simp [storeNames, storeLoop]
  | cons name rest ih =>
    obtain ⟨hname, hrest⟩ := List.nodup_cons.mp hnd
    have hne : (name :: rest).toFinset ≠ ∅ := by
      intro h
      have : name ∈ (name :: rest).toFinset := by simp
      rw [h] at this
      exact absurd this (Finset.not_mem_empty _)
    rw [storeNames, storeLoop, if_neg hne]
    by_cases hmem : name ∈ live.getD p
    · have hfind : live.find p = some (live.getD p) := by
        unfold PtrMap.getD at hmem ⊢
        cases h : live.find p with
        | none => rw [h] at hmem; exact absurd hmem (Finset.not_mem_empty _)
        | some s => rfl
      have htouch : live.touch p = live := by
        unfold PtrMap.touch
        rw [hfind]
      have hunion : live.getD p ∪ (name :: rest).toFinset = live.getD p ∪ rest.toFinset := by
        ext a
        simp only [List.toFinset_cons, Finset.mem_union, Finset.mem_insert]
        constructor
        · rintro (h | h | h)
          · exact Or.inl h
          · exact Or.inl (h ▸ hmem)
          · exact Or.inr h
        · rintro (h | h)
          · exact Or.inl h
          · exact Or.inr (Or.inr h)
      have hinter : ¬ (name :: rest).toFinset ∩ live.getD p = ∅ := by
        intro h
        have : name ∈ (name :: rest).toFinset ∩ live.getD p := by
          simp [hmem]
        rw [h] at this
        exact absurd this (Finset.not_mem_empty _)
      simp only [hmem, if_true, htouch, hinter, if_false, hunion]
      rw [ih hrest, storeLoop]
      by_cases hr : rest.toFinset = ∅
      · simp [hr, PtrMap.set_self live p _ hfind]
      · simp [hr]
    · have hunion : live.getD p ∪ (name :: rest).toFinset
          = insert name (live.getD p) ∪ rest.toFinset := by
        ext a
        simp only [List.toFinset_cons, Finset.mem_union, Finset.mem_insert]
        tauto
      have hinter : (name :: rest).toFinset ∩ live.getD p = ∅ ↔
          rest.toFinset ∩ insert name (live.getD p) = ∅ := by
        simp only [Finset.eq_empty_iff_forall_not_mem, Finset.mem_inter, List.toFinset_cons,
          Finset.mem_insert, List.mem_toFinset]
        constructor
        · rintro h a ⟨ha, rfl | ha2⟩
          · exact hname ha
          · exact h a ⟨Or.inr ha, ha2⟩
        · rintro h a ⟨rfl | ha, ha2⟩
          · exact hmem ha2
          · exact h a ⟨ha, Or.inr ha2⟩
      simp only [hmem, if_false]
      rw [ih hrest, storeLoop, PtrMap.getD_set, if_pos rfl, PtrMap.set_set, hunion]
      by_cases hr : rest.toFinset = ∅
      · simp [hr, hmem]
      · simp only [hr, if_false]
        by_cases hi : rest.toFinset ∩ insert name (live.getD p) = ∅
        · rw [if_pos hi, if_pos (hinter.mpr hi)]
        · rw [if_neg hi, if_neg (fun h => hi (hinter.mp h))]

/-! ## One visit, in terms of the stored sets -/

theorem successorLoop_getD (p : InstPtr) (succs : List Nat) (live : PtrMap)
    (acc : Finset String) (q : InstPtr) :
    (successorLoop p succs live acc).1.getD q = live.getD q := by
  induction succs generalizing live acc with
  | nil => rfl
  | cons s rest ih =>
    show (successorLoop p rest (live.touch (successorFront p s)) _).1.getD q = live.getD q
    rw [ih, PtrMap.getD_touch]

theorem successorLoop_snd_congr (p : InstPtr) (succs : List Nat) (l1 l2 : PtrMap)
    (acc : Finset String) (h : ∀ q, l1.getD q = l2.getD q) :
    (successorLoop p succs l1 acc).2 = (successorLoop p succs l2 acc).2 := by
  induction succs generalizing l1 l2 acc with
  | nil => rfl
  | cons s rest ih =>
    show (successorLoop p rest (l1.touch _) (acc ∪ l1.getD _)).2
      = (successorLoop p rest (l2.touch _) (acc ∪ l2.getD _)).2
    rw [h]
    apply ih
    intro q
    rw [PtrMap.getD_touch, PtrMap.getD_touch, h]

theorem liveAfterCurrentInstruction_getD (p : InstPtr) (bb : BasicBlock) (instr : Instruction)
    (live : PtrMap) (q : InstPtr) :
    (liveAfterCurrentInstruction p bb instr live).1.getD q = live.getD q := by
  unfold liveAfterCurrentInstruction
  split
  · split
    · exact successorLoop_getD p _ live ∅ q
    · split
      · split <;> rfl
      · rfl
  · rfl

theorem liveAfterCurrentInstruction_snd_congr (p : InstPtr) (bb : BasicBlock)
    (instr : Instruction) (l1 l2 : PtrMap) (h : ∀ q, l1.getD q = l2.getD q) :
    (liveAfterCurrentInstruction p bb instr l1).2 = (liveAfterCurrentInstruction p bb instr l2).2 := by
  unfold liveAfterCurrentInstruction
  split
  · split
    · exact successorLoop_snd_congr p _ l1 l2 ∅ h
    · split
      · rename_i j _
        have hj := h ⟨p.fn, p.bb, j⟩
        rw [← PtrMap.getD_eq_match l1, ← PtrMap.getD_eq_match l2] at hj
        revert hj
        cases l1.find ⟨p.fn, p.bb, j⟩ <;> cases l2.find ⟨p.fn, p.bb, j⟩ <;> exact id
      · rfl
  · rfl

theorem liveAfterCurrentInstruction_ret (p : InstPtr) (bb : BasicBlock) (instr : Instruction)
    (live : PtrMap) (h : instr.isRet = true) :
    liveAfterCurrentInstruction p bb instr live = (live, ∅) := by
  simp [liveAfterCurrentInstruction, h]

theorem storeLoop_getD (p : InstPtr) (temp : Finset String) (live : PtrMap) (c : Bool)
    (q : InstPtr) :
    (storeLoop p temp live c).1.getD q = if p = q then live.getD p ∪ temp else live.getD q := by
  unfold storeLoop
  by_cases ht : temp = ∅
  · subst ht
    by_cases hpq : p = q
    · subst hpq
      simp
    · simp [hpq]
  · simp only [ht, if_false]
    exact PtrMap.getD_set _ _ _ _

theorem storeLoop_flag (p : InstPtr) (temp : Finset String) (live : PtrMap) (c : Bool) :
    (storeLoop p temp live c).2 = if temp ∩ live.getD p = ∅ then c else false := by
  unfold storeLoop
  by_cases ht : temp = ∅
  · subst ht
    simp
  · simp only [ht, if_false]

theorem visit_fst (p : InstPtr) (bb : BasicBlock) (instr : Instruction) (x : PassState × Bool) :
    (visit p bb instr x).1 =
      { x.1 with live := (storeLoop p (x.1.tempAt p bb instr)
          (liveAfterCurrentInstruction p bb instr x.1.live).1 x.2).1 } := by
  simp only [visit, PassState.tempAt, PassState.afterAt, PassState.useAt, PassState.defAt,
    PtrMap.getD_eq_match]

theorem visit_snd (p : InstPtr) (bb : BasicBlock) (instr : Instruction) (x : PassState × Bool) :
    (visit p bb instr x).2 =
      if x.1.tempAt p bb instr ∩ x.1.liveAt p = ∅ then x.2 else false := by
  simp only [visit, PassState.tempAt, PassState.afterAt, PassState.useAt, PassState.defAt,
    PassState.liveAt, PtrMap.getD_eq_match, storeLoop_flag, liveAfterCurrentInstruction_getD]

theorem visit_liveAt (p : InstPtr) (bb : BasicBlock) (instr : Instruction)
    (x : PassState × Bool) (q : InstPtr) :
    (visit p bb instr x).1.liveAt q =
      if p = q then x.1.liveAt p ∪ x.1.tempAt p bb instr else x.1.liveAt q := by
  rw [visit_fst]
  simp only [PassState.liveAt, storeLoop_getD, liveAfterCurrentInstruction_getD]

theorem visit_defs (p : InstPtr) (bb : BasicBlock) (instr : Instruction) (x : PassState × Bool) :
    (visit p bb instr x).1.defs = x.1.defs := by
  rw [visit_fst]

theorem visit_uses (p : InstPtr) (bb : BasicBlock) (instr : Instruction) (x : PassState × Bool) :
    (visit p bb instr x).1.uses = x.1.uses := by
  rw [visit_fst]

theorem visit_counts (p : InstPtr) (bb : BasicBlock) (instr : Instruction)
    (x : PassState × Bool) :
    (visit p bb instr x).1.counts = x.1.counts := by
  rw [visit_fst]

/-! ## `analyzeInstruction`, in terms of the recorded sets -/

theorem analyzeOperands_cons_use (p : InstPtr) (instr : Instruction) (val : Value)
    (rest : List Value) (st : PassState) (h1 : val.isInstOrArg = true)
    (h2 : instr.isBranch = false)
    (h3 : (instr.isStore && (instr.operands.get? 1).any (fun t => val.addr = t.addr)) = false)
    (h4 : val.isConstant = false) :
    analyzeOperands p instr (val :: rest) st =
      analyzeOperands p instr rest
        { st with uses := st.uses.set p (insert val.name (st.uses.getD p)) } := by
  rw [analyzeOperands]
  simp only [h1, h2, h3, h4, ↓reduceIte, Bool.not_false, Bool.false_eq_true]
  cases h : st.uses.find p with
  | none => simp [PtrMap.getD, h]
  | some s => simp [PtrMap.getD, h]

theorem analyzeOperands_cons_skip (p : InstPtr) (instr : Instruction) (val : Value)
    (rest : List Value) (st : PassState)
    (h : val.isInstOrArg = false ∨ (val.isInstOrArg = true ∧ instr.isBranch = false ∧
      (instr.isStore && (instr.operands.get? 1).any (fun t => val.addr = t.addr)) = false ∧
      val.isConstant = true)) :
    analyzeOperands p instr (val :: rest) st = analyzeOperands p instr rest st := by
  rw [analyzeOperands]
  rcases h with h | ⟨h1, h2, h3, h4⟩
  · simp only [h, ↓reduceIte, Bool.false_eq_true]
  · simp only [h1, h2, h3, h4, ↓reduceIte, Bool.false_eq_true, Bool.not_true]

theorem analyzeOperands_live (p : InstPtr) (instr : Instruction) (ops : List Value)
    (st : PassState) :
    (analyzeOperands p instr ops st).live = st.live ∧
      (analyzeOperands p instr ops st).counts = st.counts := by
  induction ops generalizing st with
  | nil => exact ⟨rfl, rfl⟩
  | cons val rest ih =>
    rw [analyzeOperands]
    split
    · split
      · split <;> exact ⟨rfl, rfl⟩
      · split
        · exact ⟨rfl, rfl⟩
        · split
          · split <;> exact ih _
          · exact ih _
    · exact ih _

theorem analyzeOperands_frame (p : InstPtr) (instr : Instruction) (ops : List Value)
    (st : PassState) (q : InstPtr) (hpq : p ≠ q) :
    (analyzeOperands p instr ops st).defAt q = st.defAt q ∧
      (analyzeOperands p instr ops st).useAt q = st.useAt q := by
  induction ops generalizing st with
  | nil => simp [analyzeOperands, PassState.defAt, PassState.useAt, PtrMap.getD_set, hpq]
  | cons val rest ih =>
    cases h1 : val.isInstOrArg with
    | false =>
      rw [analyzeOperands_cons_skip p instr val rest st (Or.inl h1)]
      exact ih st
    | true =>
      cases h2 : instr.isBranch with
      | true =>
        rw [analyzeOperands]
        simp only [h1, h2, ↓reduceIte]
        split <;> simp [PassState.defAt, PassState.useAt, PtrMap.getD_set, hpq]
      | false =>
        cases h3 : (instr.isStore && (instr.operands.get? 1).any (fun t => val.addr = t.addr)) with
        | true =>
          rw [analyzeOperands]
          simp only [h1, h2, h3, ↓reduceIte, Bool.false_eq_true]
          simp [PassState.defAt, PassState.useAt, PtrMap.getD_set, hpq]
        | false =>
          cases h4 : val.isConstant with
          | true =>
            rw [analyzeOperands_cons_skip p instr val rest st (Or.inr ⟨h1, h2, h3, h4⟩)]
            exact ih st
          | false =>
            rw [analyzeOperands_cons_use p instr val rest st h1 h2 h3 h4]
            have := ih { st with uses := st.uses.set p (insert val.name (st.uses.getD p)) }
            simp only [PassState.defAt, PassState.useAt, PtrMap.getD_set, hpq, if_false]
              at this ⊢
            exact this

theorem analyzeOperands_at (p : InstPtr) (instr : Instruction) (ops : List Value)
    (st : PassState) :
    (analyzeOperands p instr ops st).defAt p = defEffect instr ops (st.defAt p) ∧
      (analyzeOperands p instr ops st).useAt p = useEffect instr ops (st.useAt p) := by
  induction ops generalizing st with
  | nil => simp [analyzeOperands, defEffect, useEffect, PassState.defAt, PassState.useAt,
      PtrMap.getD_set]
  | cons val rest ih =>
    rw [defEffect, useEffect]
    cases h1 : val.isInstOrArg with
    | false =>
      rw [analyzeOperands_cons_skip p instr val rest st (Or.inl h1)]
      simp only [↓reduceIte, Bool.false_eq_true]
      exact ih st
    | true =>
      cases h2 : instr.isBranch with
      | true =>
        rw [analyzeOperands]
        simp only [h1, h2, ↓reduceIte]
        split <;> simp [PassState.defAt, PassState.useAt, PtrMap.getD_set]
      | false =>
        cases h3 : (instr.isStore && (instr.operands.get? 1).any (fun t => val.addr = t.addr)) with
        | true =>
          rw [analyzeOperands]
          simp only [h1, h2, h3, ↓reduceIte, Bool.false_eq_true]
          simp [PassState.defAt, PassState.useAt, PtrMap.getD_set]
        | false =>
          cases h4 : val.isConstant with
          | true =>
            rw [analyzeOperands_cons_skip p instr val rest st (Or.inr ⟨h1, h2, h3, h4⟩)]
            simp only [↓reduceIte, Bool.false_eq_true, Bool.not_true]
            exact ih st
          | false =>
            rw [analyzeOperands_cons_use p instr val rest st h1 h2 h3 h4]
            simp only [↓reduceIte, Bool.false_eq_true, Bool.not_false]
            have := ih { st with uses := st.uses.set p (insert val.name (st.uses.getD p)) }
            simp only [PassState.defAt, PassState.useAt, PtrMap.getD_set, if_true] at this ⊢
            exact this

theorem analyzeOperands_sets (p : InstPtr) (instr : Instruction) (ops : List Value)
    (st : PassState) (q : InstPtr) :
    (analyzeOperands p instr ops st).defAt q
        = (if p = q then defEffect instr ops (st.defAt p) else st.defAt q) ∧
      (analyzeOperands p instr ops st).useAt q
        = (if p = q then useEffect instr ops (st.useAt p) else st.useAt q) := by
  by_cases hpq : p = q
  · subst hpq
    simp only [if_true]
    exact analyzeOperands_at p instr ops st
  · simp only [hpq, if_false]
    exact analyzeOperands_frame p instr ops st q hpq

theorem analyzeInstruction_live (p : InstPtr) (instr : Instruction) (st : PassState) :
    (analyzeInstruction p instr st).live = st.live ∧
      (analyzeInstruction p instr st).counts = st.counts := by
  unfold analyzeInstruction
  split
  · exact ⟨rfl, rfl⟩
  · exact analyzeOperands_live p instr _ st

theorem analyzeInstruction_sets (p : InstPtr) (instr : Instruction) (st : PassState)
    (q : InstPtr) :
    (analyzeInstruction p instr st).defAt q
        = (if p = q then instrDefEffect instr (st.defAt p) else st.defAt q) ∧
      (analyzeInstruction p instr st).useAt q
        = (if p = q then instrUseEffect instr (st.useAt p) else st.useAt q) := by
  unfold analyzeInstruction instrDefEffect instrUseEffect
  by_cases h : (instr.isAlloca || instr.isRet) = true
  · simp only [h, if_true]
    by_cases hpq : p = q
    · subst hpq
      simp
    · simp [hpq]
  · simp only [h, if_false]
    exact analyzeOperands_sets p instr _ st q

/-- One step of `analyzeFunction`: the live set of the instruction is emptied and
its def and use sets are the effect of `analyzeInstruction`; the sets of the
other instructions stay. -/
theorem analyzeStep_setsAt (p : InstPtr) (instr : Instruction) (st : PassState) (q : InstPtr) :
    (analyzeInstruction p instr { st with live := st.live.set p ∅ }).setsAt q =
      if p = q then (∅, instrDefEffect instr (st.defAt p), instrUseEffect instr (st.useAt p))
      else st.setsAt q := by
  have hl := (analyzeInstruction_live p instr { st with live := st.live.set p ∅ }).1
  have hs := analyzeInstruction_sets p instr { st with live := st.live.set p ∅ } q
  simp only [PassState.setsAt, PassState.liveAt, hl, PtrMap.getD_set, hs.1, hs.2]
  split
  · rfl
  · rfl

/-! ## `analyzeFunction`, in terms of the recorded sets -/

theorem analyzeBlock_setsAt (fn bi : Nat) (rest : List Instruction) (k : Nat) (st : PassState)
    (q : InstPtr) :
    (analyzeBlock fn bi k rest st).setsAt q =
      if q.fn = fn ∧ q.bb = bi ∧ k ≤ q.idx then
        match rest.get? (q.idx - k) with
        | some instr => analyzedSets instr (st.setsAt q)
        | none => st.setsAt q
      else st.setsAt q := by
  induction rest generalizing k st with
  | nil => simp [analyzeBlock]
  | cons instr rest ih =>
    rw [analyzeBlock, ih]
    obtain ⟨qf, qb, qi⟩ := q
    simp only
    by_cases hq : (⟨fn, bi, k⟩ : InstPtr) = ⟨qf, qb, qi⟩
    · injection hq with e1 e2 e3
      subst e1 e2 e3
      have hn : ¬ (fn = fn ∧ bi = bi ∧ k + 1 ≤ k) := fun h => absurd h.2.2 (by omega)
      rw [if_neg hn, analyzeStep_setsAt, if_pos rfl]
      simp [analyzedSets, PassState.setsAt]
    · rw [analyzeStep_setsAt, if_neg hq]
      by_cases hc : qf = fn ∧ qb = bi ∧ k ≤ qi
      · obtain ⟨e1, e2, hle⟩ := hc
        subst e1 e2
        have hne : k ≠ qi := fun e => hq (by rw [e])
        have hlt : k + 1 ≤ qi := by omega
        have hidx : qi - k = (qi - (k + 1)) + 1 := by omega
        simp only [hlt, hle, and_self, if_true, hidx, List.get?_cons_succ]
      · have hc2 : ¬ (qf = fn ∧ qb = bi ∧ k + 1 ≤ qi) := by
          intro h
          exact hc ⟨h.1, h.2.1, by omega⟩
        rw [if_neg hc, if_neg hc2]

theorem analyzeBlocks_setsAt (fn : Nat) (rest : List BasicBlock) (b : Nat) (st : PassState)
    (q : InstPtr) :
    (analyzeBlocks fn b rest st).setsAt q =
      if q.fn = fn ∧ b ≤ q.bb then
        match (rest.get? (q.bb - b)).bind (fun bb => bb.get? q.idx) with
        | some instr => analyzedSets instr (st.setsAt q)
        | none => st.setsAt q
      else st.setsAt q := by
  induction rest generalizing b st with
  | nil => simp [analyzeBlocks]
  | cons bb rest ih =>
    rw [analyzeBlocks, ih]
    obtain ⟨qf, qb, qi⟩ := q
    simp only
    rw [analyzeBlock_setsAt]
    simp only
    by_cases hf : qf = fn
    · subst hf
      by_cases hb : b = qb
      · subst hb
        simp
      · by_cases hle : b ≤ qb
        · have hlt : b + 1 ≤ qb := by omega
          have hidx : qb - b = (qb - (b + 1)) + 1 := by omega
          have hb2 : ¬ qb = b := fun e => hb e.symm
          simp only [hlt, hle, hb2, true_and, false_and, and_false, if_true, if_false, hidx,
            List.get?_cons_succ]
        · have hlt : ¬ b + 1 ≤ qb := by omega
          have hb2 : ¬ qb = b := fun e => hb e.symm
          simp only [hlt, hle, hb2, true_and, false_and, and_false, if_false]
    · simp [hf]

theorem analyzeFunction_setsAt (fn : Nat) (F : Function) (st : PassState) (q : InstPtr) :
    (analyzeFunction fn F st).setsAt q =
      match instrAt fn F q with
      | some instr => analyzedSets instr (st.setsAt q)
      | none => st.setsAt q := by
  unfold analyzeFunction instrAt
  rw [analyzeBlocks_setsAt]
  by_cases hf : q.fn = fn
  · simp [hf]
  · simp [hf]

theorem instrAt_of_get (fn : Nat) (F : Function) (b k : Nat) (bb : BasicBlock)
    (instr : Instruction) (hb : F.get? b = some bb) (hk : bb.get? k = some instr) :
    instrAt fn F ⟨fn, b, k⟩ = some instr := by
  show (if fn = fn then (F.get? b).bind (fun bb => bb.get? k) else none) = some instr
  rw [if_pos rfl, hb]
  exact hk

/-! ## Invariants of the pass loop -/

theorem passInstrs_invariant (P : PassState × Bool → Prop) (fn bi : Nat) (bb : BasicBlock)
    (hv : ∀ k instr x, bb.get? k = some instr → P x → P (visit ⟨fn, bi, k⟩ bb instr x))
    (rest : List Instruction) (k : Nat) (x : PassState × Bool)
    (hrest : ∀ j instr, rest.get? j = some instr → bb.get? (k + j) = some instr)
    (hx : P x) : P (passInstrs fn bi bb k rest x) := by
  induction rest generalizing k with
  | nil => exact hx
  | cons instr rest ih =>
    rw [passInstrs]
    apply hv k instr _ (hrest 0 instr rfl)
    apply ih (k + 1)
    intro j i hj
    have := hrest (j + 1) i hj
    rwa [show k + 1 + j = k + (j + 1) by omega]

theorem passBlocks_invariant (P : PassState × Bool → Prop) (fn : Nat) (F : Function)
    (hv : ∀ b bb k instr x, F.get? b = some bb → bb.get? k = some instr →
      P x → P (visit ⟨fn, b, k⟩ bb instr x))
    (rest : List BasicBlock) (b : Nat) (x : PassState × Bool)
    (hrest : ∀ j bb, rest.get? j = some bb → F.get? (b + j) = some bb)
    (hx : P x) : P (passBlocks fn b rest x) := by
  induction rest generalizing b with
  | nil => exact hx
  | cons bb rest ih =>
    rw [passBlocks]
    have hbb : F.get? b = some bb := hrest 0 bb rfl
    apply passInstrs_invariant P fn b bb (fun k instr x hk => hv b bb k instr x hbb hk) bb 0
    · intro j i hj
      rwa [Nat.zero_add]
    · apply ih (b + 1)
      intro j bb2 hj
      have := hrest (j + 1) bb2 hj
      rwa [show b + 1 + j = b + (j + 1) by omega]

theorem fullPass_invariant (P : PassState × Bool → Prop) (fn : Nat) (F : Function)
    (hv : ∀ b bb k instr x, F.get? b = some bb → bb.get? k = some instr →
      P x → P (visit ⟨fn, b, k⟩ bb instr x))
    (x : PassState × Bool) (hx : P x) : P (fullPass fn F x) := by
  apply passBlocks_invariant P fn F hv F 0 x _ hx
  intro j bb hj
  rwa [Nat.zero_add]

theorem passLoop_invariant (Q : PassState → Prop) (fn : Nat) (F : Function)
    (hv : ∀ b bb k instr x, F.get? b = some bb → bb.get? k = some instr →
      Q x.1 → Q (visit ⟨fn, b, k⟩ bb instr x).1)
    (fuel : Nat) (x : PassState × Bool) (st : PassState)
    (hx : Q x.1) (h : passLoop fn F fuel x = some st) : Q st := by
  induction fuel generalizing x with
  | zero =>
    obtain ⟨s, c⟩ := x
    cases c with
    | false =>
      rw [passLoop] at h
      injection h with h
      rw [← h]
      exact hx
    | true => simp [passLoop] at h
  | succ n ih =>
    obtain ⟨s, c⟩ := x
    cases c with
    | false =>
      rw [passLoop] at h
      injection h with h
      rw [← h]
      exact hx
    | true =>
      rw [passLoop] at h
      exact ih _ (fullPass_invariant (fun y => Q y.1) fn F hv _ hx) h

theorem passLoop_fuel_unique (fn : Nat) (F : Function) (fuel1 fuel2 : Nat)
    (x : PassState × Bool) (a b : PassState)
    (h1 : passLoop fn F fuel1 x = some a) (h2 : passLoop fn F fuel2 x = some b) : a = b := by
  induction fuel1 generalizing fuel2 x with
  | zero =>
    obtain ⟨s, c⟩ := x
    cases c with
    | false =>
      rw [passLoop] at h1 h2
      rw [h1] at h2
      injection h2
    | true => simp [passLoop] at h1
  | succ n ih =>
    obtain ⟨s, c⟩ := x
    cases c with
    | false =>
      rw [passLoop] at h1 h2
      rw [h1] at h2
      injection h2
    | true =>
      cases fuel2 with
      | zero => simp [passLoop] at h2
      | succ m =>
        rw [passLoop] at h1 h2
        exact ih m _ h1 h2

/-! ## The solver depends on the state only through the stored sets -/

theorem SameSets.liveAt {s t : PassState} (h : SameSets s t) (q : InstPtr) :
    s.liveAt q = t.liveAt q :=
  congrArg Prod.fst (h q)

theorem SameSets.defAt {s t : PassState} (h : SameSets s t) (q : InstPtr) :
    s.defAt q = t.defAt q :=
  congrArg (fun v => v.2.1) (h q)

theorem SameSets.useAt {s t : PassState} (h : SameSets s t) (q : InstPtr) :
    s.useAt q = t.useAt q :=
  congrArg (fun v => v.2.2) (h q)

theorem SameSets.tempAt {s t : PassState} (h : SameSets s t) (p : InstPtr) (bb : BasicBlock)
    (instr : Instruction) : s.tempAt p bb instr = t.tempAt p bb instr := by
  unfold PassState.tempAt PassState.afterAt
  rw [h.useAt, h.defAt, liveAfterCurrentInstruction_snd_congr p bb instr s.live t.live h.liveAt]

theorem visit_congr (p : InstPtr) (bb : BasicBlock) (instr : Instruction)
    (x y : PassState × Bool) (h : SameSets x.1 y.1 ∧ x.2 = y.2) :
    SameSets (visit p bb instr x).1 (visit p bb instr y).1 ∧
      (visit p bb instr x).2 = (visit p bb instr y).2 := by
  obtain ⟨hs, hc⟩ := h
  refine ⟨?_, ?_⟩
  · intro q
    have hd : (visit p bb instr x).1.defAt q = (visit p bb instr y).1.defAt q := by
      unfold PassState.defAt
      rw [visit_defs, visit_defs]
      exact hs.defAt q
    have hu : (visit p bb instr x).1.useAt q = (visit p bb instr y).1.useAt q := by
      unfold PassState.useAt
      rw [visit_uses, visit_uses]
      exact hs.useAt q
    have hl : (visit p bb instr x).1.liveAt q = (visit p bb instr y).1.liveAt q := by
      rw [visit_liveAt, visit_liveAt, hs.liveAt, hs.liveAt, hs.tempAt]
    unfold PassState.setsAt
    rw [hl, hd, hu]
  · rw [visit_snd, visit_snd, hs.liveAt, hs.tempAt, hc]

theorem passInstrs_congr (fn bi : Nat) (bb : BasicBlock) (rest : List Instruction) (k : Nat)
    (x y : PassState × Bool) (h : SameSets x.1 y.1 ∧ x.2 = y.2) :
    SameSets (passInstrs fn bi bb k rest x).1 (passInstrs fn bi bb k rest y).1 ∧
      (passInstrs fn bi bb k rest x).2 = (passInstrs fn bi bb k rest y).2 := by
  induction rest generalizing k with
  | nil => exact h
  | cons instr rest ih =>
    rw [passInstrs, passInstrs]
    exact visit_congr _ bb instr _ _ (ih (k + 1))

theorem passBlocks_congr (fn : Nat) (rest : List BasicBlock) (b : Nat)
    (x y : PassState × Bool) (h : SameSets x.1 y.1 ∧ x.2 = y.2) :
    SameSets (passBlocks fn b rest x).1 (passBlocks fn b rest y).1 ∧
      (passBlocks fn b rest x).2 = (passBlocks fn b rest y).2 := by
  induction rest generalizing b with
  | nil => exact h
  | cons bb rest ih =>
    rw [passBlocks, passBlocks]
    exact passInstrs_congr fn b bb bb 0 _ _ (ih (b + 1))

theorem passLoop_congr (fn : Nat) (F : Function) (fuel : Nat) (x y : PassState × Bool)
    (h : SameSets x.1 y.1 ∧ x.2 = y.2) (s : PassState) (hs : passLoop fn F fuel x = some s) :
    ∃ t, passLoop fn F fuel y = some t ∧ SameSets s t := by
  induction fuel generalizing x y with
  | zero =>
    obtain ⟨sx, cx⟩ := x
    obtain ⟨sy, cy⟩ := y
    obtain ⟨h1, h2⟩ := h
    simp only at h1 h2
    subst h2
    cases cx with
    | false =>
      rw [passLoop] at hs
      injection hs with hs
      subst hs
      exact ⟨sy, by rw [passLoop], h1⟩
    | true => simp [passLoop] at hs
  | succ n ih =>
    obtain ⟨sx, cx⟩ := x
    obtain ⟨sy, cy⟩ := y
    obtain ⟨h1, h2⟩ := h
    simp only at h1 h2
    subst h2
    cases cx with
    | false =>
      rw [passLoop] at hs
      injection hs with hs
      subst hs
      exact ⟨sy, by rw [passLoop], h1⟩
    | true =>
      rw [passLoop] at hs
      rw [passLoop]
      exact ih (fullPass fn F (sx, true)) (fullPass fn F (sy, true))
        (passBlocks_congr fn F 0 (sx, true) (sy, true) ⟨h1, rfl⟩) hs

/-! ## Analysing twice -/

theorem useEffect_shape (instr : Instruction) (ops : List Value) :
    (∃ N, ∀ u, useEffect instr ops u = u ∪ N) ∨ (∃ c, ∀ u, useEffect instr ops u = c) := by
  induction ops with
  | nil => exact Or.inl ⟨∅, fun u => by simp [useEffect]⟩
  | cons val rest ih =>
    cases h1 : val.isInstOrArg with
    | false =>
      rcases ih with ⟨N, hN⟩ | ⟨c, hc⟩
      · exact Or.inl ⟨N, fun u => by rw [useEffect]; simp [h1, hN]⟩
      · exact Or.inr ⟨c, fun u => by rw [useEffect]; simp [h1, hc]⟩
    | true =>
      cases h2 : instr.isBranch with
      | true =>
        cases h2c : instr.isConditional with
        | true => exact Or.inr ⟨{val.name}, fun u => by rw [useEffect]; simp [h1, h2, h2c]⟩
        | false => exact Or.inl ⟨∅, fun u => by rw [useEffect]; simp [h1, h2, h2c]⟩
      | false =>
        cases h3 : (instr.isStore && (instr.operands.get? 1).any (fun t => val.addr = t.addr)) with
        | true =>
          exact Or.inl ⟨∅, fun u => by
            rw [useEffect]
            simp only [h1, h2, h3, ↓reduceIte, Bool.false_eq_true, Finset.union_empty]⟩
        | false =>
          cases h4 : val.isConstant with
          | true =>
            rcases ih with ⟨N, hN⟩ | ⟨c, hc⟩
            · exact Or.inl ⟨N, fun u => by
                rw [useEffect]
                simp only [h1, h2, h3, h4, ↓reduceIte, Bool.false_eq_true, Bool.not_true, hN]⟩
            · exact Or.inr ⟨c, fun u => by
                rw [useEffect]
                simp only [h1, h2, h3, h4, ↓reduceIte, Bool.false_eq_true, Bool.not_true, hc]⟩
          | false =>
            rcases ih with ⟨N, hN⟩ | ⟨c, hc⟩
            · refine Or.inl ⟨insert val.name N, fun u => ?_⟩
              rw [useEffect]
              simp only [h1, h2, h3, h4, ↓reduceIte, Bool.false_eq_true, Bool.not_false, hN]
              ext a
              simp only [Finset.mem_union, Finset.mem_insert]
              tauto
            · exact Or.inr ⟨c, fun u => by
                rw [useEffect]
                simp only [h1, h2, h3, h4, ↓reduceIte, Bool.false_eq_true, Bool.not_false, hc]⟩

theorem defEffect_shape (instr : Instruction) (ops : List Value) :
    (∀ d, defEffect instr ops d = d) ∨ (∃ c, ∀ d, defEffect instr ops d = c) := by
  induction ops with
  | nil => exact Or.inr ⟨{instr.name}, fun d => by simp [defEffect]⟩
  | cons val rest ih =>
    cases h1 : val.isInstOrArg with
    | false =>
      rcases ih with hN | ⟨c, hc⟩
      · exact Or.inl (fun d => by rw [defEffect]; simp [h1, hN])
      · exact Or.inr ⟨c, fun d => by rw [defEffect]; simp [h1, hc]⟩
    | true =>
      cases h2 : instr.isBranch with
      | true => exact Or.inl (fun d => by rw [defEffect]; simp [h1, h2])
      | false =>
        cases h3 : (instr.isStore && (instr.operands.get? 1).any (fun t => val.addr = t.addr)) with
        | true =>
          exact Or.inr ⟨{val.name}, fun d => by
            rw [defEffect]
            simp only [h1, h2, h3, ↓reduceIte, Bool.false_eq_true]⟩
        | false =>
          rcases ih with hN | ⟨c, hc⟩
          · exact Or.inl (fun d => by
              rw [defEffect]
              simp only [h1, h2, h3, ↓reduceIte, Bool.false_eq_true, hN])
          · exact Or.inr ⟨c, fun d => by
              rw [defEffect]
              simp only [h1, h2, h3, ↓reduceIte, Bool.false_eq_true, hc]⟩

theorem instrUseEffect_idem (instr : Instruction) (u : Finset String) :
    instrUseEffect instr (instrUseEffect instr u) = instrUseEffect instr u := by
  unfold instrUseEffect
  split
  · rfl
  · rcases useEffect_shape instr instr.operands with ⟨N, hN⟩ | ⟨c, hc⟩
    · rw [hN, hN, Finset.union_assoc, Finset.union_self]
    · rw [hc, hc]

theorem instrDefEffect_idem (instr : Instruction) (d : Finset String) :
    instrDefEffect instr (instrDefEffect instr d) = instrDefEffect instr d := by
  unfold instrDefEffect
  split
  · rfl
  · rcases defEffect_shape instr instr.operands with hN | ⟨c, hc⟩
    · rw [hN, hN]
    · rw [hc, hc]

theorem livenessAnalysis_eq_some (fuel fn : Nat) (F : Function) (st st1 : PassState)
    (h : livenessAnalysis fuel fn F st = some st1) :
    ∃ s1, passLoop fn F fuel (st, true) = some s1 ∧
      st1 = { s1 with counts := countLive s1.live s1.counts } := by
  unfold livenessAnalysis at h
  cases hloop : passLoop fn F fuel (st, true) with
  | none => simp [hloop] at h
  | some s1 =>
    rw [hloop] at h
    injection h with h
    exact ⟨s1, rfl, h.symm⟩

theorem passLoop_defs_uses (fn : Nat) (F : Function) (fuel : Nat) (x : PassState × Bool)
    (s : PassState) (h : passLoop fn F fuel x = some s) :
    s.defs = x.1.defs ∧ s.uses = x.1.uses := by
  apply passLoop_invariant (fun t => t.defs = x.1.defs ∧ t.uses = x.1.uses) fn F _ fuel x s
    ⟨rfl, rfl⟩ h
  intro b bb k instr y _ _ hy
  rw [visit_defs, visit_uses]
  exact hy

theorem passLoop_liveAt_outside (fn : Nat) (F : Function) (fuel : Nat) (x : PassState × Bool)
    (s : PassState) (h : passLoop fn F fuel x = some s) (q : InstPtr)
    (hq : instrAt fn F q = none) : s.liveAt q = x.1.liveAt q := by
  apply passLoop_invariant (fun t => t.liveAt q = x.1.liveAt q) fn F _ fuel x s rfl h
  intro b bb k instr y hb hk hy
  rw [visit_liveAt, if_neg]
  · exact hy
  · intro e
    rw [← e, instrAt_of_get fn F b k bb instr hb hk] at hq
    exact Option.noConfusion hq

/-- Analysing `F` again from the state `s1` its solver run left (whatever the
histogram) starts the solver from the same stored sets as the first time. -/
theorem analyzeFunction_again (fn : Nat) (F : Function) (fuel : Nat) (st0 s1 st1 : PassState)
    (h : passLoop fn F fuel (analyzeFunction fn F st0, true) = some s1)
    (hst1 : SameSets st1 s1) :
    SameSets (analyzeFunction fn F st0) (analyzeFunction fn F st1) := by
  intro q
  have hdu := passLoop_defs_uses fn F fuel _ s1 h
  have hA := analyzeFunction_setsAt fn F st0 q
  have hd1 : st1.defAt q = (analyzeFunction fn F st0).defAt q := by
    rw [hst1.defAt]
    unfold PassState.defAt
    rw [hdu.1]
  have hu1 : st1.useAt q = (analyzeFunction fn F st0).useAt q := by
    rw [hst1.useAt]
    unfold PassState.useAt
    rw [hdu.2]
  rw [analyzeFunction_setsAt fn F st1 q]
  cases hq : instrAt fn F q with
  | none =>
    have hl1 : st1.liveAt q = (analyzeFunction fn F st0).liveAt q := by
      rw [hst1.liveAt]
      exact passLoop_liveAt_outside fn F fuel _ s1 h q hq
    simp only [PassState.setsAt, hl1, hd1, hu1]
  | some instr =>
    rw [hq] at hA
    simp only [PassState.setsAt, analyzedSets, Prod.mk.injEq] at hA
    simp only [analyzedSets, PassState.setsAt, hd1, hu1, hA.1, hA.2.1, hA.2.2,
      instrDefEffect_idem, instrUseEffect_idem]

/-! ## The extraction rules -/

theorem Value.not_constant_of_isInstOrArg (v : Value) (h : v.isInstOrArg = true) :
    v.isConstant = false := by
  unfold Value.isInstOrArg at h
  unfold Value.isConstant
  cases hk : v.kind <;> simp [hk] at h ⊢

theorem trackedNames_cons (val : Value) (rest : List Value) :
    trackedNames (val :: rest) =
      if val.isInstOrArg then insert val.name (trackedNames rest) else trackedNames rest := by
  unfold trackedNames
  cases h : val.isInstOrArg <;> simp [List.filter, h]

theorem defEffect_generic (instr : Instruction) (hb : instr.isBranch = false)
    (hs : instr.isStore = false) (ops : List Value) (d : Finset String) :
    defEffect instr ops d = {instr.name} := by
  induction ops with
  | nil => rfl
  | cons val rest ih =>
    rw [defEffect]
    simp only [hb, hs, Bool.false_and, Bool.false_eq_true, ↓reduceIte, ih, ite_self]

theorem useEffect_generic (instr : Instruction) (hb : instr.isBranch = false)
    (hs : instr.isStore = false) (ops : List Value) (u : Finset String) :
    useEffect instr ops u = u ∪ trackedNames ops := by
  induction ops generalizing u with
  | nil => simp [useEffect, trackedNames]
  | cons val rest ih =>
    rw [useEffect, trackedNames_cons]
    cases h1 : val.isInstOrArg with
    | false => simp only [Bool.false_eq_true, ↓reduceIte, ih]
    | true =>
      have h4 := Value.not_constant_of_isInstOrArg val h1
      simp only [hb, hs, h4, Bool.false_and, Bool.false_eq_true, Bool.not_false, ↓reduceIte, ih]
      ext a
      simp only [Finset.mem_union, Finset.mem_insert]
      tauto

theorem useEffect_subset (instr : Instruction) (ops : List Value) (u : Finset String) :
    useEffect instr ops u ⊆ u ∪ trackedNames ops := by
  induction ops generalizing u with
  | nil => simp [useEffect, trackedNames]
  | cons val rest ih =>
    rw [useEffect, trackedNames_cons]
    cases h1 : val.isInstOrArg with
    | false => simpa only [Bool.false_eq_true, ↓reduceIte] using ih u
    | true =>
      simp only [↓reduceIte]
      intro a ha
      simp only [Finset.mem_union, Finset.mem_insert]
      split at ha
      · split at ha
        · rw [Finset.mem_singleton] at ha
          exact Or.inr (Or.inl ha)
        · exact Or.inl ha
      · split at ha
        · exact Or.inl ha
        · split at ha
          · have := ih _ ha
            simp only [Finset.mem_union, Finset.mem_insert] at this
            tauto
          · have := ih _ ha
            simp only [Finset.mem_union] at this
            tauto

theorem analyzeInstruction_at (p : InstPtr) (instr : Instruction) (st : PassState) :
    (analyzeInstruction p instr st).defAt p = instrDefEffect instr (st.defAt p) ∧
      (analyzeInstruction p instr st).useAt p = instrUseEffect instr (st.useAt p) := by
  have h := analyzeInstruction_sets p instr st p
  simpa only [if_true] using h

/-! ## Straight-line blocks -/

theorem Instruction.isRet_of_not_isTerminator (i : Instruction) (h : i.isTerminator = false) :
    i.isRet = false := by
  unfold Instruction.isTerminator at h
  unfold Instruction.isRet
  cases hk : i.kind <;> simp [hk] at h ⊢

theorem afterAt_of_next (st : PassState) (p : InstPtr) (bb : BasicBlock) (instr : Instruction)
    (j : Nat) (ht : instr.isTerminator = false)
    (hn : getNextNonDebugInstruction bb p.idx = some j) :
    st.afterAt p bb instr = st.liveAt ⟨p.fn, p.bb, j⟩ := by
  have hr := Instruction.isRet_of_not_isTerminator instr ht
  unfold PassState.afterAt liveAfterCurrentInstruction PassState.liveAt PtrMap.getD
  simp only [hr, ht, hn, Bool.not_false, ↓reduceIte, Bool.false_eq_true]
  cases st.live.find ⟨p.fn, p.bb, j⟩ <;> rfl

theorem visit_ret_noop (p : InstPtr) (bb : BasicBlock) (instr : Instruction)
    (x : PassState × Bool) (hr : instr.isRet = true) (hd : x.1.defAt p = ∅) :
    (∀ q, (visit p bb instr x).1.liveAt q = x.1.liveAt q) ∧ (visit p bb instr x).2 = x.2 := by
  have ht : x.1.tempAt p bb instr = ∅ := by
    simp [PassState.tempAt, PassState.afterAt, liveAfterCurrentInstruction_ret _ _ _ _ hr,
      liveTemp, hd]
  refine ⟨?_, ?_⟩
  · intro q
    rw [visit_liveAt, ht, Finset.union_empty]
    split
    · rename_i h
      rw [h]
    · rfl
  · rw [visit_snd, ht]
    simp

theorem passInstrs_append (fn bi : Nat) (bb : BasicBlock) (l : List Instruction)
    (a : Instruction) (k : Nat) (x : PassState × Bool) :
    passInstrs fn bi bb k (l ++ [a]) x =
      passInstrs fn bi bb k l (visit ⟨fn, bi, k + l.length⟩ bb a x) := by
  induction l generalizing k with
  | nil => simp [passInstrs]
  | cons b l ih =>
    rw [List.cons_append, passInstrs, passInstrs, ih (k + 1)]
    rw [show k + 1 + l.length = k + (b :: l).length by simp; omega]

/-! ## The histogram -/

theorem wrapUnsigned_of_lt (n : Nat) (h : n < 4294967296) : wrapUnsigned n = n :=
  Nat.mod_eq_of_lt h

theorem increment_cons_succ (x : Nat) (xs : List Nat) (c : Nat) (hc : c + 1 < 4294967295) :
    increment (x :: xs) (c + 1) = x :: increment xs c := by
  have h1 : wrapUnsigned (c + 1 + 1) = c + 1 + 1 := wrapUnsigned_of_lt _ (by omega)
  have h2 : wrapUnsigned (c + 1) = c + 1 := wrapUnsigned_of_lt _ (by omega)
  unfold increment resize
  rw [h1, h2]
  by_cases hl : xs.length ≤ c
  · have hl2 : (x :: xs).length ≤ c + 1 := by simp; omega
    rw [if_pos hl, if_pos hl2]
    simp only [List.take_succ_cons, List.cons_append, List.length_cons,
      List.set_cons_succ, List.getD_cons_succ, Nat.reduceSubDiff]
  · have hl2 : ¬ (x :: xs).length ≤ c + 1 := by simp; omega
    rw [if_neg hl, if_neg hl2]
    simp only [List.set_cons_succ, List.getD_cons_succ]

theorem bump_nil (c : Nat) : bump [] c = List.replicate c 0 ++ [1] := by
  induction c with
  | zero => rfl
  | succ c ih => rw [bump, ih, List.replicate_succ, List.cons_append]

theorem replicate_set_last (c v : Nat) :
    (List.replicate (c + 1) 0).set c v = List.replicate c 0 ++ [v] := by
  induction c with
  | zero => rfl
  | succ c ih =>
    rw [List.replicate_succ, List.set_cons_succ, ih, List.replicate_succ, List.cons_append]

theorem replicate_getD_last (c : Nat) : (List.replicate (c + 1) 0).getD c 0 = 0 := by
  induction c with
  | zero => rfl
  | succ c ih => rw [List.replicate_succ, List.getD_cons_succ, ih]

theorem increment_eq_bump (counts : List Nat) (c : Nat) (hc : c < 4294967295)
    (hb : counts.getD c 0 < 4294967295) : increment counts c = bump counts c := by
  induction counts generalizing c with
  | nil =>
    have h1 : wrapUnsigned (c + 1) = c + 1 := wrapUnsigned_of_lt _ (by omega)
    have h2 : wrapUnsigned (0 + 1) = 1 := rfl
    have h3 : wrapUnsigned 1 = 1 := rfl
    simp only [increment, resize, List.length_nil, Nat.zero_le, ↓reduceIte, h1, List.take_nil,
      List.nil_append, Nat.sub_zero, replicate_getD_last, h2, h3, Nat.zero_add,
      replicate_set_last, bump_nil]
  | cons x xs ih =>
    cases c with
    | zero =>
      have hx : x + 1 < 4294967296 := by
        have : x < 4294967295 := hb
        omega
      have hl : ¬ (x :: xs).length ≤ 0 := by simp
      unfold increment
      rw [if_neg hl]
      show (x :: xs).set 0 (wrapUnsigned (x + 1)) = bump (x :: xs) 0
      rw [wrapUnsigned_of_lt _ hx]
      rfl
    | succ c =>
      rw [increment_cons_succ x xs c hc, bump, ih c (by omega) hb]

theorem bump_getD (counts : List Nat) (c k : Nat) :
    (bump counts c).getD k 0 = counts.getD k 0 + if k = c then 1 else 0 := by
  induction counts generalizing c k with
  | nil =>
    induction c generalizing k with
    | zero => cases k <;> rfl
    | succ c ih =>
      cases k with
      | zero => rfl
      | succ k =>
        rw [bump, List.getD_cons_succ, ih k]
        simp only [List.getD_nil, Nat.add_right_cancel_iff]
  | cons x xs ih =>
    cases c with
    | zero =>
      cases k with
      | zero => rfl
      | succ k =>
        rw [bump, List.getD_cons_succ, List.getD_cons_succ]
        simp
    | succ c =>
      cases k with
      | zero =>
        rw [bump, List.getD_cons_zero, List.getD_cons_zero]
        simp
      | succ k =>
        rw [bump, List.getD_cons_succ, List.getD_cons_succ, ih c k]
        simp only [Nat.add_right_cancel_iff]

theorem bump_length (counts : List Nat) (c : Nat) :
    (bump counts c).length = max counts.length (c + 1) := by
  induction counts generalizing c with
  | nil =>
    induction c with
    | zero => simp [bump]
    | succ c ih => simp [bump, ih]
  | cons x xs ih =>
    cases c with
    | zero => simp [bump]
    | succ c =>
      simp only [bump, List.length_cons, ih c]
      omega

theorem bump_sum (counts : List Nat) (c : Nat) : (bump counts c).sum = counts.sum + 1 := by
  induction counts generalizing c with
  | nil =>
    induction c with
    | zero => simp [bump]
    | succ c ih => simpa [bump] using ih
  | cons x xs ih =>
    cases c with
    | zero => simp [bump]; omega
    | succ c => simp [bump, ih c]; omega

theorem getD_le_sum (counts : List Nat) (k : Nat) : counts.getD k 0 ≤ counts.sum := by
  induction counts generalizing k with
  | nil => simp
  | cons x xs ih =>
    cases k with
    | zero => simp
    | succ k =>
      have := ih k
      simp only [List.getD_cons_succ, List.sum_cons]
      omega

theorem foldl_increment_eq_bump (cs : List Nat) (counts : List Nat)
    (hcs : ∀ i ∈ cs, i < 4294967295) (hb : counts.sum + cs.length < 4294967296) :
    cs.foldl increment counts = cs.foldl bump counts := by
  induction cs generalizing counts with
  | nil => rfl
  | cons c cs ih =>
    have hc := hcs c (List.mem_cons_self _ _)
    have hbc : counts.getD c 0 < 4294967295 := by
      have := getD_le_sum counts c
      simp only [List.length_cons] at hb
      omega
    rw [List.foldl_cons, List.foldl_cons, increment_eq_bump counts c hc hbc]
    apply ih _ (fun i hi => hcs i (List.mem_cons_of_mem _ hi))
    rw [bump_sum]
    simp only [List.length_cons] at hb
    omega

theorem foldl_bump_getD (cs : List Nat) (counts : List Nat) (k : Nat) :
    (cs.foldl bump counts).getD k 0 = counts.getD k 0 + cs.count k := by
  induction cs generalizing counts with
  | nil => simp
  | cons c cs ih =>
    rw [List.foldl_cons, ih, bump_getD, List.count_cons]
    by_cases h : k = c
    · subst h
      simp
      omega
    · have h2 : ¬ (c == k) = true := by simpa using fun e => h e.symm
      simp [h, h2]

theorem foldl_bump_sum (cs : List Nat) (counts : List Nat) :
    (cs.foldl bump counts).sum = counts.sum + cs.length := by
  induction cs generalizing counts with
  | nil => simp
  | cons c cs ih =>
    rw [List.foldl_cons, ih, bump_sum, List.length_cons]
    omega

theorem foldl_bump_length (cs : List Nat) (counts : List Nat) :
    (∀ i ∈ cs, i < (cs.foldl bump counts).length) ∧
      counts.length ≤ (cs.foldl bump counts).length ∧
      ((cs.foldl bump counts).length = counts.length ∨
        ∃ i ∈ cs, (cs.foldl bump counts).length = i + 1) := by
  induction cs generalizing counts with
  | nil => simp
  | cons c cs ih =>
    rw [List.foldl_cons]
    obtain ⟨h1, h2, h3⟩ := ih (bump counts c)
    rw [bump_length] at h2 h3
    refine ⟨?_, by omega, ?_⟩
    · intro i hi
      rcases List.mem_cons.mp hi with rfl | hi
      · omega
      · exact h1 i hi
    · rcases h3 with h3 | ⟨i, hi, h3⟩
      · by_cases hlen : counts.length ≤ c
        · exact Or.inr ⟨c, List.mem_cons_self _ _, by omega⟩
        · exact Or.inl (by omega)
      · exact Or.inr ⟨i, List.mem_cons_of_mem _ hi, h3⟩

/-! ## Size of the def sets -/

theorem defEffect_card (instr : Instruction) (ops : List Value) (d : Finset String)
    (hd : d.card ≤ 1) : (defEffect instr ops d).card ≤ 1 := by
  induction ops with
  | nil => simp [defEffect]
  | cons val rest ih =>
    rw [defEffect]
    split
    · split
      · exact hd
      · split
        · simp
        · exact ih
    · exact ih

theorem instrDefEffect_card (instr : Instruction) (d : Finset String) (hd : d.card ≤ 1) :
    (instrDefEffect instr d).card ≤ 1 := by
  unfold instrDefEffect
  split
  · exact hd
  · exact defEffect_card instr _ d hd

theorem analyzeFunction_defAt (fn : Nat) (F : Function) (st : PassState) (q : InstPtr) :
    (analyzeFunction fn F st).defAt q =
      match instrAt fn F q with
      | some instr => instrDefEffect instr (st.defAt q)
      | none => st.defAt q := by
  have h := congrArg (fun v => v.2.1) (analyzeFunction_setsAt fn F st q)
  simp only [PassState.setsAt] at h
  rw [h]
  cases instrAt fn F q <;> rfl

theorem analyzeFunction_liveAt (fn : Nat) (F : Function) (st : PassState) (q : InstPtr) :
    (analyzeFunction fn F st).liveAt q =
      match instrAt fn F q with
      | some _ => ∅
      | none => st.liveAt q := by
  have h := congrArg (fun v => v.1) (analyzeFunction_setsAt fn F st q)
  simp only [PassState.setsAt] at h
  rw [h]
  cases instrAt fn F q <;> rfl

theorem analyzeFunction_defAt_card (fn : Nat) (F : Function) (st : PassState)
    (h0 : ∀ p, (st.defAt p).card ≤ 1) (q : InstPtr) :
    ((analyzeFunction fn F st).defAt q).card ≤ 1 := by
  rw [analyzeFunction_defAt]
  cases instrAt fn F q with
  | none => exact h0 q
  | some instr => exact instrDefEffect_card instr _ (h0 q)

/-! ## One pass as a list of visits -/

theorem passInstrs_eq_visitAll (fn bi : Nat) (bb : BasicBlock) (rest : List Instruction)
    (k : Nat) (x : PassState × Bool) :
    passInstrs fn bi bb k rest x = visitAll (blockVisits fn bi bb k rest) x := by
  induction rest generalizing k with
  | nil => rfl
  | cons instr rest ih =>
    rw [passInstrs, ih]
    rfl

theorem visitAll_append (l1 l2 : List (InstPtr × BasicBlock × Instruction))
    (x : PassState × Bool) : visitAll (l1 ++ l2) x = visitAll l1 (visitAll l2 x) := by
  unfold visitAll
  rw [List.foldr_append]

theorem passBlocks_eq_visitAll (fn : Nat) (rest : List BasicBlock) (b : Nat)
    (x : PassState × Bool) : passBlocks fn b rest x = visitAll (blocksVisits fn b rest) x := by
  induction rest generalizing b with
  | nil => rfl
  | cons bb rest ih =>
    rw [passBlocks, ih, passInstrs_eq_visitAll, blocksVisits, visitAll_append]

theorem fullPass_eq_visitAll (fn : Nat) (F : Function) (x : PassState × Bool) :
    fullPass fn F x = visitAll (visits fn F) x :=
  passBlocks_eq_visitAll fn F 0 x

theorem blockVisits_mem (fn bi : Nat) (bb : BasicBlock) (rest : List Instruction) (k : Nat)
    (e : InstPtr × BasicBlock × Instruction) :
    e ∈ blockVisits fn bi bb k rest ↔
      ∃ j instr, rest.get? j = some instr ∧ e = (⟨fn, bi, k + j⟩, bb, instr) := by
  induction rest generalizing k with
  | nil => simp [blockVisits]
  | cons i rest ih =>
    rw [blockVisits, List.mem_cons, ih]
    constructor
    · rintro (h | ⟨j, instr, hj, he⟩)
      · exact ⟨0, i, rfl, h⟩
      · refine ⟨j + 1, instr, hj, ?_⟩
        rw [he, show k + 1 + j = k + (j + 1) by omega]
    · rintro ⟨j, instr, hj, he⟩
      cases j with
      | zero =>
        left
        have : i = instr := by
          have hj2 : some i = some instr := hj
          injection hj2
        rw [he, this]
        rfl
      | succ j =>
        right
        refine ⟨j, instr, hj, ?_⟩
        rw [he, show k + 1 + j = k + (j + 1) by omega]

theorem blocksVisits_mem (fn : Nat) (rest : List BasicBlock) (b : Nat)
    (e : InstPtr × BasicBlock × Instruction) :
    e ∈ blocksVisits fn b rest ↔
      ∃ j bb k instr, rest.get? j = some bb ∧ bb.get? k = some instr ∧
        e = (⟨fn, b + j, k⟩, bb, instr) := by
  induction rest generalizing b with
  | nil => simp [blocksVisits]
  | cons bb0 rest ih =>
    rw [blocksVisits, List.mem_append, ih, blockVisits_mem]
    constructor
    · rintro (⟨k, instr, hk, he⟩ | ⟨j, bb, k, instr, hj, hk, he⟩)
      · refine ⟨0, bb0, k, instr, rfl, hk, ?_⟩
        rw [he, Nat.zero_add]
        rfl
      · refine ⟨j + 1, bb, k, instr, hj, hk, ?_⟩
        rw [he, show b + 1 + j = b + (j + 1) by omega]
    · rintro ⟨j, bb, k, instr, hj, hk, he⟩
      cases j with
      | zero =>
        left
        have : bb0 = bb := by
          have hj2 : some bb0 = some bb := hj
          injection hj2
        subst this
        refine ⟨k, instr, hk, ?_⟩
        rw [he, Nat.zero_add]
        rfl
      | succ j =>
        right
        refine ⟨j, bb, k, instr, hj, hk, ?_⟩
        rw [he, show b + 1 + j = b + (j + 1) by omega]

theorem visits_mem (fn : Nat) (F : Function) (e : InstPtr × BasicBlock × Instruction) :
    e ∈ visits fn F ↔
      ∃ b bb k instr, F.get? b = some bb ∧ bb.get? k = some instr ∧
        e = (⟨fn, b, k⟩, bb, instr) := by
  unfold visits
  rw [blocksVisits_mem]
  simp only [Nat.zero_add]

theorem visits_mem_instrAt (fn : Nat) (F : Function) (e : InstPtr × BasicBlock × Instruction)
    (h : e ∈ visits fn F) : instrAt fn F e.1 = some e.2.2 ∧ e.1.fn = fn := by
  obtain ⟨b, bb, k, instr, hb, hk, he⟩ := (visits_mem fn F e).mp h
  subst he
  exact ⟨instrAt_of_get fn F b k bb instr hb hk, rfl⟩

theorem instrAt_get (fn : Nat) (F : Function) (p : InstPtr) (instr : Instruction)
    (h : instrAt fn F p = some instr) :
    ∃ bb, p = ⟨fn, p.bb, p.idx⟩ ∧ F.get? p.bb = some bb ∧ bb.get? p.idx = some instr := by
  unfold instrAt at h
  by_cases hf : p.fn = fn
  · rw [if_pos hf] at h
    cases hb : F.get? p.bb with
    | none =>
      rw [hb] at h
      exact Option.noConfusion h
    | some bb =>
      rw [hb] at h
      refine ⟨bb, ?_, rfl, h⟩
      obtain ⟨pf, pb, pi⟩ := p
      simp only at hf
      rw [hf]
  · rw [if_neg hf] at h
    exact Option.noConfusion h

theorem instrAt_mem_visits (fn : Nat) (F : Function) (p : InstPtr) (instr : Instruction)
    (h : instrAt fn F p = some instr) : ∃ bb, (p, bb, instr) ∈ visits fn F := by
  obtain ⟨bb, hp, hb, hk⟩ := instrAt_get fn F p instr h
  refine ⟨bb, (visits_mem fn F _).mpr ⟨p.bb, bb, p.idx, instr, hb, hk, ?_⟩⟩
  rw [← hp]

theorem mem_instrPtrs (fn : Nat) (F : Function) (p : InstPtr) :
    p ∈ instrPtrs fn F ↔ ∃ instr, instrAt fn F p = some instr := by
  unfold instrPtrs
  rw [List.mem_map]
  constructor
  · rintro ⟨e, he, rfl⟩
    exact ⟨_, (visits_mem_instrAt fn F e he).1⟩
  · rintro ⟨instr, h⟩
    obtain ⟨bb, hbb⟩ := instrAt_mem_visits fn F p instr h
    exact ⟨_, hbb, rfl⟩

theorem blockVisits_pairwise (fn bi : Nat) (bb : BasicBlock) (rest : List Instruction) (k : Nat) :
    (blockVisits fn bi bb k rest).Pairwise (fun e1 e2 => e1.1.before e2.1 = true) := by
  induction rest generalizing k with
  | nil => exact List.Pairwise.nil
  | cons i rest ih =>
    rw [blockVisits, List.pairwise_cons]
    refine ⟨?_, ih (k + 1)⟩
    intro e he
    obtain ⟨j, instr, -, rfl⟩ := (blockVisits_mem fn bi bb rest (k + 1) e).mp he
    simp [InstPtr.before]
    omega

theorem blocksVisits_pairwise (fn : Nat) (rest : List BasicBlock) (b : Nat) :
    (blocksVisits fn b rest).Pairwise (fun e1 e2 => e1.1.before e2.1 = true) := by
  induction rest generalizing b with
  | nil => exact List.Pairwise.nil
  | cons bb rest ih =>
    rw [blocksVisits, List.pairwise_append]
    refine ⟨blockVisits_pairwise fn b bb bb 0, ih (b + 1), ?_⟩
    intro e1 h1 e2 h2
    obtain ⟨j, instr, -, rfl⟩ := (blockVisits_mem fn b bb bb 0 e1).mp h1
    obtain ⟨j2, bb2, k2, instr2, -, -, rfl⟩ := (blocksVisits_mem fn rest (b + 1) e2).mp h2
    simp [InstPtr.before]
    omega

theorem visits_pairwise (fn : Nat) (F : Function) :
    (visits fn F).Pairwise (fun e1 e2 => e1.1.before e2.1 = true) :=
  blocksVisits_pairwise fn F 0

theorem InstPtr.before_irrefl (p : InstPtr) : p.before p = false := by
  simp [InstPtr.before]

theorem InstPtr.before_asymm (p q : InstPtr) (h : p.before q = true) : q.before p = false := by
  simp only [InstPtr.before, Bool.or_eq_true, Bool.and_eq_true, decide_eq_true_eq] at h
  simp only [InstPtr.before, Bool.or_eq_false_iff, Bool.and_eq_false_iff, decide_eq_false_iff_not]
  omega

theorem InstPtr.ne_of_before (p q : InstPtr) (h : p.before q = true) : p ≠ q := by
  intro e
  rw [e, InstPtr.before_irrefl] at h
  exact Bool.noConfusion h

theorem instrPtrs_nodup (fn : Nat) (F : Function) : (instrPtrs fn F).Nodup := by
  unfold instrPtrs List.Nodup
  rw [List.pairwise_map]
  exact (visits_pairwise fn F).imp (fun h => InstPtr.ne_of_before _ _ h)

theorem blockVisits_length (fn bi : Nat) (bb : BasicBlock) (rest : List Instruction) (k : Nat) :
    (blockVisits fn bi bb k rest).length = rest.length := by
  induction rest generalizing k with
  | nil => rfl
  | cons i rest ih => rw [blockVisits, List.length_cons, ih, List.length_cons]

theorem blocksVisits_length (fn : Nat) (rest : List BasicBlock) (b : Nat) :
    (blocksVisits fn b rest).length = instrCount rest := by
  induction rest generalizing b with
  | nil => rfl
  | cons bb rest ih =>
    rw [blocksVisits, List.length_append, blockVisits_length, ih]
    simp [instrCount]

theorem instrPtrs_length (fn : Nat) (F : Function) : (instrPtrs fn F).length = instrCount F := by
  unfold instrPtrs visits
  rw [List.length_map, blocksVisits_length]

/-! ## What one pass does to the stored sets and to `liveSetChanged` -/

theorem visitAll_cons (e : InstPtr × BasicBlock × Instruction)
    (l : List (InstPtr × BasicBlock × Instruction)) (x : PassState × Bool) :
    visitAll (e :: l) x = visit e.1 e.2.1 e.2.2 (visitAll l x) :=
  rfl

theorem visitAll_defs_uses (l : List (InstPtr × BasicBlock × Instruction))
    (x : PassState × Bool) :
    (visitAll l x).1.defs = x.1.defs ∧ (visitAll l x).1.uses = x.1.uses ∧
      (visitAll l x).1.counts = x.1.counts := by
  induction l with
  | nil => exact ⟨rfl, rfl, rfl⟩
  | cons e l ih =>
    rw [visitAll_cons, visit_defs, visit_uses, visit_counts]
    exact ih

theorem visitAll_defAt (l : List (InstPtr × BasicBlock × Instruction)) (x : PassState × Bool)
    (q : InstPtr) : (visitAll l x).1.defAt q = x.1.defAt q := by
  unfold PassState.defAt
  rw [(visitAll_defs_uses l x).1]

theorem visitAll_useAt (l : List (InstPtr × BasicBlock × Instruction)) (x : PassState × Bool)
    (q : InstPtr) : (visitAll l x).1.useAt q = x.1.useAt q := by
  unfold PassState.useAt
  rw [(visitAll_defs_uses l x).2.1]

theorem visit_defAt (p : InstPtr) (bb : BasicBlock) (instr : Instruction)
    (x : PassState × Bool) (q : InstPtr) : (visit p bb instr x).1.defAt q = x.1.defAt q := by
  unfold PassState.defAt
  rw [visit_defs]

theorem visit_useAt (p : InstPtr) (bb : BasicBlock) (instr : Instruction)
    (x : PassState × Bool) (q : InstPtr) : (visit p bb instr x).1.useAt q = x.1.useAt q := by
  unfold PassState.useAt
  rw [visit_uses]

theorem visit_liveAt_subset (p : InstPtr) (bb : BasicBlock) (instr : Instruction)
    (x : PassState × Bool) (q : InstPtr) :
    x.1.liveAt q ⊆ (visit p bb instr x).1.liveAt q := by
  rw [visit_liveAt]
  split
  · rename_i hpq
    subst hpq
    exact Finset.subset_union_left
  · exact Finset.Subset.refl _

theorem visitAll_liveAt_subset (l : List (InstPtr × BasicBlock × Instruction))
    (x : PassState × Bool) (q : InstPtr) : x.1.liveAt q ⊆ (visitAll l x).1.liveAt q := by
  induction l with
  | nil => exact Finset.Subset.refl _
  | cons e l ih =>
    rw [visitAll_cons]
    exact Finset.Subset.trans ih (visit_liveAt_subset _ _ _ _ q)

theorem visitAll_liveAt_frame (l : List (InstPtr × BasicBlock × Instruction))
    (x : PassState × Bool) (q : InstPtr) (hq : ∀ e ∈ l, e.1 ≠ q) :
    (visitAll l x).1.liveAt q = x.1.liveAt q := by
  induction l with
  | nil => rfl
  | cons e l ih =>
    rw [visitAll_cons, visit_liveAt, if_neg (hq e (List.mem_cons_self _ _))]
    exact ih (fun e2 he2 => hq e2 (List.mem_cons_of_mem _ he2))

theorem tempAt_def_subset (st : PassState) (p : InstPtr) (bb : BasicBlock)
    (instr : Instruction) : st.defAt p ⊆ st.tempAt p bb instr := by
  unfold PassState.tempAt liveTemp
  exact Finset.subset_union_right

theorem visit_def_subset_live (p : InstPtr) (bb : BasicBlock) (instr : Instruction)
    (x : PassState × Bool) : x.1.defAt p ⊆ (visit p bb instr x).1.liveAt p := by
  rw [visit_liveAt, if_pos rfl]
  exact Finset.Subset.trans (tempAt_def_subset x.1 p bb instr) Finset.subset_union_right

/-- After the visits of `l`, every visited instruction holds its def set in its
live set. -/
theorem visitAll_def_subset_live (l : List (InstPtr × BasicBlock × Instruction))
    (x : PassState × Bool) (e : InstPtr × BasicBlock × Instruction) (he : e ∈ l) :
    x.1.defAt e.1 ⊆ (visitAll l x).1.liveAt e.1 := by
  induction l with
  | nil => exact absurd he (List.not_mem_nil _)
  | cons e0 l ih =>
    rw [visitAll_cons]
    rcases List.mem_cons.mp he with h | h
    · subst h
      rw [← visitAll_defAt l x e.1]
      exact visit_def_subset_live _ _ _ _
    · exact Finset.Subset.trans (ih h) (visit_liveAt_subset _ _ _ _ _)

theorem visit_flag_false (p : InstPtr) (bb : BasicBlock) (instr : Instruction)
    (x : PassState × Bool) (h : x.2 = false) : (visit p bb instr x).2 = false := by
  rw [visit_snd, h]
  split <;> rfl

/-- A pass started with `liveSetChanged` set, in which every visited instruction
has an empty live set when the pass starts, leaves the flag set. -/
theorem visitAll_flag_true (l : List (InstPtr × BasicBlock × Instruction))
    (hnd : (l.map (fun e => e.1)).Nodup) (x : PassState × Bool) (hx : x.2 = true)
    (hlive : ∀ e ∈ l, x.1.liveAt e.1 = ∅) : (visitAll l x).2 = true := by
  induction l with
  | nil => exact hx
  | cons e l ih =>
    rw [List.map_cons, List.nodup_cons] at hnd
    have ih2 := ih hnd.2 (fun e2 he2 => hlive e2 (List.mem_cons_of_mem _ he2))
    have hframe : (visitAll l x).1.liveAt e.1 = ∅ := by
      rw [visitAll_liveAt_frame l x e.1, hlive e (List.mem_cons_self _ _)]
      intro e2 he2 heq
      exact hnd.1 (List.mem_map.mpr ⟨e2, he2, heq⟩)
    rw [visitAll_cons, visit_snd, hframe, Finset.inter_empty, if_pos rfl]
    exact ih2

/-- A pass in which some visited instruction has a non-empty def set that its
live set already holds clears `liveSetChanged`. -/
theorem visitAll_flag_false (l : List (InstPtr × BasicBlock × Instruction))
    (x : PassState × Bool) (hsub : ∀ e ∈ l, x.1.defAt e.1 ⊆ x.1.liveAt e.1)
    (hex : ∃ e ∈ l, x.1.defAt e.1 ≠ ∅) : (visitAll l x).2 = false := by
  induction l with
  | nil =>
    obtain ⟨e, he, -⟩ := hex
    exact absurd he (List.not_mem_nil _)
  | cons e0 l ih =>
    rw [visitAll_cons]
    by_cases hl : ∃ e ∈ l, x.1.defAt e.1 ≠ ∅
    · exact visit_flag_false _ _ _ _
        (ih (fun e2 he2 => hsub e2 (List.mem_cons_of_mem _ he2)) hl)
    · obtain ⟨e, he, hne⟩ := hex
      rcases List.mem_cons.mp he with h | h
      · subst h
        rw [visit_snd, if_neg]
        intro hinter
        apply hne
        rw [← Finset.subset_empty, ← hinter]
        apply Finset.subset_inter
        · rw [← visitAll_defAt l x e.1]
          exact tempAt_def_subset _ _ _ _
        · exact Finset.Subset.trans (hsub e (List.mem_cons_self _ _))
            (visitAll_liveAt_subset l x e.1)
      · exact absurd ⟨e, h, hne⟩ hl

theorem passLoop_two_passes (fn : Nat) (F : Function) (st : PassState)
    (h1 : (fullPass fn F (st, true)).2 = true)
    (h2 : (fullPass fn F (fullPass fn F (st, true))).2 = false) (fuel : Nat) :
    passLoop fn F fuel (st, true) =
      if 2 ≤ fuel then some (fullPass fn F (fullPass fn F (st, true))).1 else none := by
  generalize hy : fullPass fn F (st, true) = y at h1 h2
  obtain ⟨s1, c1⟩ := y
  simp only at h1
  subst h1
  generalize hz : fullPass fn F (s1, true) = z at h2
  obtain ⟨s2, c2⟩ := z
  simp only at h2
  subst h2
  cases fuel with
  | zero => rfl
  | succ n =>
    rw [passLoop, hy]
    cases n with
    | zero => rfl
    | succ m =>
      rw [passLoop, hz, passLoop, if_pos (by omega)]

theorem passLoop_first_pass (fn : Nat) (F : Function) (fuel : Nat) (st s : PassState)
    (h : passLoop fn F fuel (st, true) = some s) :
    ∃ fuel2, passLoop fn F fuel2 (fullPass fn F (st, true)) = some s := by
  cases fuel with
  | zero => simp [passLoop] at h
  | succ n =>
    rw [passLoop] at h
    exact ⟨n, h⟩

theorem successorLoop_snd_subset (p : InstPtr) (succs : List Nat) (live : PtrMap)
    (acc D : Finset String) (hacc : acc ⊆ D) (h : ∀ q, q.fn = p.fn → live.getD q ⊆ D) :
    (successorLoop p succs live acc).2 ⊆ D := by
  induction succs generalizing live acc with
  | nil => exact hacc
  | cons s rest ih =>
    rw [successorLoop]
    apply ih
    · exact Finset.union_subset hacc (h _ rfl)
    · intro q hq
      rw [PtrMap.getD_touch]
      exact h q hq

/-- The set `after(i)` only holds names of stored live sets of the function. -/
theorem afterAt_subset (st : PassState) (p : InstPtr) (bb : BasicBlock) (instr : Instruction)
    (D : Finset String) (h : ∀ q, q.fn = p.fn → st.liveAt q ⊆ D) :
    st.afterAt p bb instr ⊆ D := by
  unfold PassState.afterAt liveAfterCurrentInstruction
  split
  · split
    · exact successorLoop_snd_subset p _ st.live ∅ D (Finset.empty_subset _) h
    · split
      · rename_i j _
        have hj := h ⟨p.fn, p.bb, j⟩ rfl
        unfold PassState.liveAt PtrMap.getD at hj
        split
        · rename_i s hs
          rw [hs] at hj
          exact hj
        · exact Finset.empty_subset _
      · exact Finset.empty_subset _
  · exact Finset.empty_subset _

/-- With no name in any def set of the function and no name in any live set, a
visit stores nothing and leaves `liveSetChanged` alone. -/
theorem visit_nothing (fn : Nat) (F : Function) (e : InstPtr × BasicBlock × Instruction)
    (he : e ∈ visits fn F) (x : PassState × Bool)
    (hx : x.2 = true ∧ (∀ q, q.fn = fn → x.1.liveAt q = ∅) ∧
      ∀ e ∈ visits fn F, x.1.defAt e.1 = ∅) :
    (visit e.1 e.2.1 e.2.2 x).2 = true ∧
      (∀ q, q.fn = fn → (visit e.1 e.2.1 e.2.2 x).1.liveAt q = ∅) ∧
      ∀ e2 ∈ visits fn F, (visit e.1 e.2.1 e.2.2 x).1.defAt e2.1 = ∅ := by
  obtain ⟨h1, h2, h3⟩ := hx
  have hfn := (visits_mem_instrAt fn F e he).2
  have hafter : x.1.afterAt e.1 e.2.1 e.2.2 = ∅ := by
    rw [← Finset.subset_empty]
    apply afterAt_subset
    intro q hq
    rw [h2 q (hq.trans hfn)]
  have htemp : x.1.tempAt e.1 e.2.1 e.2.2 = ∅ := by
    unfold PassState.tempAt liveTemp
    rw [hafter, h3 e he]
    simp
  refine ⟨?_, ?_, ?_⟩
  · rw [visit_snd, htemp, Finset.empty_inter, if_pos rfl]
    exact h1
  · intro q hq
    rw [visit_liveAt, htemp]
    split
    · rw [h2 _ hfn]
      simp
    · exact h2 q hq
  · intro e2 he2
    rw [visit_defAt]
    exact h3 e2 he2

theorem visitAll_nothing (fn : Nat) (F : Function)
    (l : List (InstPtr × BasicBlock × Instruction)) (hl : ∀ e ∈ l, e ∈ visits fn F)
    (x : PassState × Bool)
    (hx : x.2 = true ∧ (∀ q, q.fn = fn → x.1.liveAt q = ∅) ∧
      ∀ e ∈ visits fn F, x.1.defAt e.1 = ∅) :
    (visitAll l x).2 = true ∧ (∀ q, q.fn = fn → (visitAll l x).1.liveAt q = ∅) ∧
      ∀ e ∈ visits fn F, (visitAll l x).1.defAt e.1 = ∅ := by
  induction l with
  | nil => exact hx
  | cons e l ih =>
    rw [visitAll_cons]
    exact visit_nothing fn F e (hl e (List.mem_cons_self _ _)) _
      (ih (fun e2 he2 => hl e2 (List.mem_cons_of_mem _ he2)))

/-- With no name in any def set of the function and no name in any live set, the
loop `while (liveSetChanged)` is still running after any number of passes. -/
theorem passLoop_none (fn : Nat) (F : Function) (fuel : Nat) (x : PassState × Bool)
    (hx : x.2 = true ∧ (∀ q, q.fn = fn → x.1.liveAt q = ∅) ∧
      ∀ e ∈ visits fn F, x.1.defAt e.1 = ∅) :
    passLoop fn F fuel x = none := by
  induction fuel generalizing x with
  | zero =>
    obtain ⟨s, c⟩ := x
    obtain ⟨h1, -, -⟩ := hx
    simp only at h1
    subst h1
    rfl
  | succ n ih =>
    obtain ⟨s, c⟩ := x
    have h1 := hx.1
    simp only at h1
    subst h1
    rw [passLoop]
    apply ih
    rw [fullPass_eq_visitAll]
    exact visitAll_nothing fn F _ (fun e he => he) _ hx

/-! ## The keys of the `live` map -/

theorem PtrMap.find_eq_none_iff (m : PtrMap) (p : InstPtr) : m.find p = none ↔ p ∉ m.keys := by
  induction m with
  | nil => simp [PtrMap.find, PtrMap.keys]
  | cons e m ih =>
    obtain ⟨q, s⟩ := e
    by_cases hq : q = p
    · subst hq
      simp [PtrMap.find, PtrMap.keys]
    · have hq2 : ¬ p = q := fun h => hq h.symm
      simp only [PtrMap.find, if_neg hq, ih]
      simp [PtrMap.keys, hq2]

theorem PtrMap.keys_set (m : PtrMap) (p : InstPtr) (s : Finset String) :
    (m.set p s).keys = addKey m.keys p := by
  induction m with
  | nil => simp [PtrMap.set, PtrMap.keys, addKey]
  | cons e m ih =>
    obtain ⟨q, t⟩ := e
    by_cases hq : q = p
    · subst hq
      simp [PtrMap.set, PtrMap.keys, addKey]
    · have hq2 : ¬ p = q := fun h => hq h.symm
      unfold PtrMap.keys addKey at ih ⊢
      simp only [PtrMap.set, if_neg hq, List.map_cons, ih, List.mem_cons, hq2, false_or]
      split <;> simp

theorem PtrMap.keys_touch (m : PtrMap) (p : InstPtr) : (m.touch p).keys = addKey m.keys p := by
  unfold PtrMap.touch
  cases h : m.find p with
  | none =>
    exact PtrMap.keys_set m p ∅
  | some s =>
    have hmem : p ∈ m.keys := by
      by_contra hn
      rw [(PtrMap.find_eq_none_iff m p).mpr hn] at h
      exact Option.noConfusion h
    simp [addKey, hmem]

theorem PtrMap.find_of_mem (m : PtrMap) (h : m.keys.Nodup) (e : InstPtr × Finset String)
    (he : e ∈ m) : m.find e.1 = some e.2 := by
  induction m with
  | nil => exact absurd he (List.not_mem_nil _)
  | cons e0 m ih =>
    obtain ⟨q, t⟩ := e0
    have hnd : q ∉ PtrMap.keys m ∧ (PtrMap.keys m).Nodup := List.nodup_cons.mp h
    rcases List.mem_cons.mp he with h1 | h1
    · rw [h1]
      simp [PtrMap.find]
    · have hne : q ≠ e.1 := by
        intro hq
        apply hnd.1
        rw [hq]
        exact List.mem_map.mpr ⟨e, h1, rfl⟩
      simp only [PtrMap.find, if_neg hne]
      exact ih hnd.2 h1

theorem mem_addKey (ks : List InstPtr) (p q : InstPtr) : q ∈ addKey ks p ↔ q ∈ ks ∨ q = p := by
  unfold addKey
  split
  · rename_i h
    constructor
    · exact Or.inl
    · rintro (h1 | h1)
      · exact h1
      · rw [h1]
        exact h
  · simp

theorem addKey_nodup (ks : List InstPtr) (p : InstPtr) (h : ks.Nodup) : (addKey ks p).Nodup := by
  unfold addKey
  split
  · exact h
  · rename_i hp
    rw [List.nodup_append]
    refine ⟨h, List.nodup_singleton p, ?_⟩
    intro a ha hb
    rw [List.mem_singleton] at hb
    apply hp
    rw [← hb]
    exact ha

theorem addKey_of_mem (ks : List InstPtr) (p : InstPtr) (h : p ∈ ks) : addKey ks p = ks := by
  unfold addKey
  rw [if_pos h]

theorem foldl_addKey_nodup (l ks : List InstPtr) (h : ks.Nodup) :
    (l.foldl addKey ks).Nodup := by
  induction l generalizing ks with
  | nil => exact h
  | cons p l ih => exact ih _ (addKey_nodup ks p h)

theorem mem_foldl_addKey (l ks : List InstPtr) (q : InstPtr) :
    q ∈ l.foldl addKey ks ↔ q ∈ ks ∨ q ∈ l := by
  induction l generalizing ks with
  | nil => simp
  | cons p l ih =>
    rw [List.foldl_cons, ih, mem_addKey, List.mem_cons]
    tauto

theorem foldl_addKey_of_mem (l ks : List InstPtr) (h : ∀ q ∈ l, q ∈ ks) :
    l.foldl addKey ks = ks := by
  induction l with
  | nil => rfl
  | cons p l ih =>
    rw [List.foldl_cons, addKey_of_mem ks p (h p (List.mem_cons_self _ _))]
    exact ih (fun q hq => h q (List.mem_cons_of_mem _ hq))

theorem foldl_addKey_new (l ks : List InstPtr) (hnd : l.Nodup) (h : ∀ q ∈ l, q ∉ ks) :
    l.foldl addKey ks = ks ++ l := by
  induction l generalizing ks with
  | nil => simp
  | cons p l ih =>
    obtain ⟨hp, hl⟩ := List.nodup_cons.mp hnd
    have hpk : p ∉ ks := h p (List.mem_cons_self _ _)
    rw [List.foldl_cons]
    have e : addKey ks p = ks ++ [p] := by
      unfold addKey
      rw [if_neg hpk]
    rw [e, ih (ks ++ [p]) hl, List.append_assoc]
    · rfl
    · intro q hq hmem
      rcases List.mem_append.mp hmem with h1 | h1
      · exact h q (List.mem_cons_of_mem _ hq) h1
      · rw [List.mem_singleton] at h1
        rw [h1] at hq
        exact hp hq

theorem analyzeBlock_keys (fn bi : Nat) (bb : BasicBlock) (rest : List Instruction) (k : Nat)
    (st : PassState) :
    (analyzeBlock fn bi k rest st).live.keys =
        ((blockVisits fn bi bb k rest).map (fun e => e.1)).foldl addKey st.live.keys ∧
      (analyzeBlock fn bi k rest st).counts = st.counts := by
  induction rest generalizing k st with
  | nil => exact ⟨rfl, rfl⟩
  | cons instr rest ih =>
    rw [analyzeBlock, blockVisits, List.map_cons, List.foldl_cons]
    obtain ⟨h1, h2⟩ := ih (k + 1)
      (analyzeInstruction ⟨fn, bi, k⟩ instr { st with live := st.live.set ⟨fn, bi, k⟩ ∅ })
    rw [h1, h2, (analyzeInstruction_live _ _ _).1, (analyzeInstruction_live _ _ _).2,
      PtrMap.keys_set]
    exact ⟨rfl, rfl⟩

theorem analyzeBlocks_keys (fn : Nat) (rest : List BasicBlock) (b : Nat) (st : PassState) :
    (analyzeBlocks fn b rest st).live.keys =
        ((blocksVisits fn b rest).map (fun e => e.1)).foldl addKey st.live.keys ∧
      (analyzeBlocks fn b rest st).counts = st.counts := by
  induction rest generalizing b st with
  | nil => exact ⟨rfl, rfl⟩
  | cons bb rest ih =>
    rw [analyzeBlocks, blocksVisits, List.map_append, List.foldl_append]
    obtain ⟨h1, h2⟩ := ih (b + 1) (analyzeBlock fn b 0 bb st)
    obtain ⟨h3, h4⟩ := analyzeBlock_keys fn b bb bb 0 st
    rw [h1, h2, h3, h4]
    exact ⟨rfl, rfl⟩

theorem analyzeFunction_keys (fn : Nat) (F : Function) (st : PassState) :
    (analyzeFunction fn F st).live.keys = (instrPtrs fn F).foldl addKey st.live.keys ∧
      (analyzeFunction fn F st).counts = st.counts :=
  analyzeBlocks_keys fn F 0 st

theorem successorLoop_keys (p : InstPtr) (succs : List Nat) (live : PtrMap)
    (acc : Finset String) :
    (successorLoop p succs live acc).1.keys =
      (succs.map (successorFront p)).foldl addKey live.keys := by
  induction succs generalizing live acc with
  | nil => rfl
  | cons s rest ih =>
    rw [successorLoop, ih, PtrMap.keys_touch]
    rfl

/-- The keys a visit may add to the `live` map: the visited instruction and, for a
terminator, the first instruction of each successor block. -/
theorem visit_keys (p : InstPtr) (bb : BasicBlock) (instr : Instruction)
    (x : PassState × Bool) :
    ∃ l : List InstPtr,
      (∀ q ∈ l, q = p ∨ ∃ s ∈ instr.successors, q = successorFront p s) ∧
      (visit p bb instr x).1.live.keys = l.foldl addKey x.1.live.keys := by
  have hafter : ∃ l1 : List InstPtr, (∀ q ∈ l1, ∃ s ∈ instr.successors, q = successorFront p s) ∧
      (liveAfterCurrentInstruction p bb instr x.1.live).1.keys = l1.foldl addKey x.1.live.keys := by
    unfold liveAfterCurrentInstruction
    split
    · split
      · refine ⟨instr.successors.map (successorFront p), ?_, successorLoop_keys _ _ _ _⟩
        intro q hq
        obtain ⟨s, hs, rfl⟩ := List.mem_map.mp hq
        exact ⟨s, hs, rfl⟩
      · split
        · split <;> exact ⟨[], fun q hq => absurd hq (List.not_mem_nil _), rfl⟩
        · exact ⟨[], fun q hq => absurd hq (List.not_mem_nil _), rfl⟩
    · exact ⟨[], fun q hq => absurd hq (List.not_mem_nil _), rfl⟩
  obtain ⟨l1, hl1, hk1⟩ := hafter
  rw [visit_fst]
  simp only
  unfold storeLoop
  split
  · exact ⟨l1, fun q hq => Or.inr (hl1 q hq), hk1⟩
  · refine ⟨l1 ++ [p], ?_, ?_⟩
    · intro q hq
      rcases List.mem_append.mp hq with h | h
      · exact Or.inr (hl1 q h)
      · exact Or.inl (List.mem_singleton.mp h)
    · simp only
      rw [PtrMap.keys_set, hk1, List.foldl_append]
      rfl

theorem visit_keys_nodup (p : InstPtr) (bb : BasicBlock) (instr : Instruction)
    (x : PassState × Bool) (h : x.1.live.keys.Nodup) : (visit p bb instr x).1.live.keys.Nodup := by
  obtain ⟨l, -, hk⟩ := visit_keys p bb instr x
  rw [hk]
  exact foldl_addKey_nodup l _ h

theorem visit_keys_fn (p : InstPtr) (bb : BasicBlock) (instr : Instruction)
    (x : PassState × Bool) (h : ∀ q ∈ x.1.live.keys, q.fn = p.fn) :
    ∀ q ∈ (visit p bb instr x).1.live.keys, q.fn = p.fn := by
  obtain ⟨l, hl, hk⟩ := visit_keys p bb instr x
  rw [hk]
  intro q hq
  rcases (mem_foldl_addKey l _ q).mp hq with h1 | h1
  · exact h q h1
  · rcases hl q h1 with h2 | ⟨s, -, h2⟩
    · rw [h2]
    · rw [h2]
      rfl

/-! ## The names a live set can hold -/

theorem visit_live_subset (p : InstPtr) (bb : BasicBlock) (instr : Instruction)
    (x : PassState × Bool) (D : Finset String) (hdef : x.1.defAt p ⊆ D)
    (hlive : ∀ q, q.fn = p.fn → x.1.liveAt q ⊆ D) :
    ∀ q, q.fn = p.fn → (visit p bb instr x).1.liveAt q ⊆ D := by
  intro q hq
  rw [visit_liveAt]
  split
  · apply Finset.union_subset (hlive p rfl)
    unfold PassState.tempAt liveTemp
    apply Finset.union_subset _ hdef
    exact Finset.Subset.trans Finset.sdiff_subset (afterAt_subset x.1 p bb instr D hlive)
  · exact hlive q hq

theorem passLoop_live_subset (fn : Nat) (F : Function) (fuel : Nat) (x : PassState × Bool)
    (s : PassState) (D : Finset String)
    (hdef : ∀ p instr, instrAt fn F p = some instr → x.1.defAt p ⊆ D)
    (hlive : ∀ q, q.fn = fn → x.1.liveAt q ⊆ D) (h : passLoop fn F fuel x = some s) :
    ∀ q, q.fn = fn → s.liveAt q ⊆ D := by
  have hinv := passLoop_invariant
    (fun t => (∀ q, q.fn = fn → t.liveAt q ⊆ D) ∧ t.defs = x.1.defs) fn F ?_ fuel x s
    ⟨hlive, rfl⟩ h
  · exact hinv.1
  · intro b bb k instr y hb hk hy
    refine ⟨?_, ?_⟩
    · apply visit_live_subset ⟨fn, b, k⟩ bb instr y D _ hy.1
      unfold PassState.defAt
      rw [hy.2]
      exact hdef _ instr (instrAt_of_get fn F b k bb instr hb hk)
    · rw [visit_defs]
      exact hy.2

theorem defAt_subset_defNames (fn : Nat) (F : Function) (st : PassState) (p : InstPtr)
    (instr : Instruction) (h : instrAt fn F p = some instr) : st.defAt p ⊆ defNames fn F st := by
  unfold defNames
  apply Finset.subset_biUnion_of_mem st.defAt
  rw [List.mem_toFinset]
  exact (mem_instrPtrs fn F p).mpr ⟨instr, h⟩

theorem defNames_card (fn : Nat) (F : Function) (st : PassState)
    (h : ∀ p ∈ instrPtrs fn F, (st.defAt p).card ≤ 1) :
    (defNames fn F st).card ≤ instrCount F := by
  unfold defNames
  calc ((instrPtrs fn F).toFinset.biUnion st.defAt).card
      ≤ ∑ p ∈ (instrPtrs fn F).toFinset, (st.defAt p).card := Finset.card_biUnion_le
    _ ≤ ∑ _p ∈ (instrPtrs fn F).toFinset, 1 :=
        Finset.sum_le_sum (fun p hp => h p (List.mem_toFinset.mp hp))
    _ = (instrPtrs fn F).toFinset.card := by simp
    _ ≤ (instrPtrs fn F).length := List.toFinset_card_le _
    _ = instrCount F := instrPtrs_length fn F

/-- The live sets the solver stores for the addresses of `F` hold at most as many
names as `F` has instructions. -/
theorem passLoop_live_card (fn : Nat) (F : Function) (fuel : Nat) (st0 s : PassState)
    (ha : ∀ p, (st0.defAt p).card ≤ 1)
    (hb : ∀ q, q.fn = fn → instrAt fn F q = none → st0.liveAt q = ∅)
    (h : passLoop fn F fuel (analyzeFunction fn F st0, true) = some s) :
    ∀ q, q.fn = fn → (s.liveAt q).card ≤ instrCount F := by
  intro q hq
  have hsub := passLoop_live_subset fn F fuel (analyzeFunction fn F st0, true) s
    (defNames fn F (analyzeFunction fn F st0))
    (fun p instr hp => defAt_subset_defNames fn F (analyzeFunction fn F st0) p instr hp) ?_ h q hq
  · exact le_trans (Finset.card_le_card hsub)
      (defNames_card fn F _ (fun p _ => analyzeFunction_defAt_card fn F st0 ha p))
  · intro q2 hq2
    show (analyzeFunction fn F st0).liveAt q2 ⊆ _
    rw [analyzeFunction_liveAt]
    cases hi : instrAt fn F q2 with
    | none =>
      simp only
      rw [hb q2 hq2 hi]
      exact Finset.empty_subset _
    | some i => exact Finset.empty_subset _

/-! ## The length of the histogram -/

theorem resize_length (counts : List Nat) (n : Nat) : (resize counts n).length = n := by
  unfold resize
  rw [List.length_append, List.length_take, List.length_replicate]
  omega

theorem increment_length_le (counts : List Nat) (c : Nat) :
    (increment counts c).length ≤ max counts.length (c + 1) := by
  unfold increment
  simp only [List.length_set]
  split
  · rw [resize_length]
    have : wrapUnsigned (c + 1) ≤ c + 1 := Nat.mod_le _ _
    omega
  · omega

theorem foldl_increment_length_le (cs : List Nat) (counts : List Nat) (N : Nat)
    (h : ∀ c ∈ cs, c ≤ N) : (cs.foldl increment counts).length ≤ max counts.length (N + 1) := by
  induction cs generalizing counts with
  | nil => exact le_max_left _ _
  | cons c cs ih =>
    rw [List.foldl_cons]
    have h1 := ih (increment counts c) (fun c2 hc2 => h c2 (List.mem_cons_of_mem _ hc2))
    have h2 := increment_length_le counts c
    have h3 := h c (List.mem_cons_self _ _)
    omega

theorem countLive_eq_foldl (live : PtrMap) (counts : List Nat) :
    countLive live counts =
      (live.map (fun e => wrapUnsigned e.2.card)).foldl increment counts := by
  unfold countLive
  rw [List.foldl_map]

theorem passLoop_counts (fn : Nat) (F : Function) (fuel : Nat) (x : PassState × Bool)
    (s : PassState) (h : passLoop fn F fuel x = some s) : s.counts = x.1.counts := by
  apply passLoop_invariant (fun t => t.counts = x.1.counts) fn F _ fuel x s rfl h
  intro b bb k instr y _ _ hy
  rw [visit_counts]
  exact hy

theorem passLoop_keys_nodup (fn : Nat) (F : Function) (fuel : Nat) (x : PassState × Bool)
    (s : PassState) (hx : x.1.live.keys.Nodup) (h : passLoop fn F fuel x = some s) :
    s.live.keys.Nodup := by
  apply passLoop_invariant (fun t => t.live.keys.Nodup) fn F _ fuel x s hx h
  intro b bb k instr y _ _ hy
  exact visit_keys_nodup _ _ _ _ hy

theorem passLoop_keys_fn (fn : Nat) (F : Function) (fuel : Nat) (x : PassState × Bool)
    (s : PassState) (hx : ∀ q ∈ x.1.live.keys, q.fn = fn) (h : passLoop fn F fuel x = some s) :
    ∀ q ∈ s.live.keys, q.fn = fn := by
  apply passLoop_invariant (fun t => ∀ q ∈ t.live.keys, q.fn = fn) fn F _ fuel x s hx h
  intro b bb k instr y _ _ hy
  exact visit_keys_fn ⟨fn, b, k⟩ bb instr y hy

/-! ## Functions that only branch forward -/

theorem forwardFrom_spec (rest : List BasicBlock) (b : Nat) (h : forwardFrom b rest = true)
    (j : Nat) (bb : BasicBlock) (k : Nat) (instr : Instruction) (hj : rest.get? j = some bb)
    (hk : bb.get? k = some instr) (ht : instr.isTerminator = true) :
    ∀ s ∈ instr.successors, b + j < s := by
  induction rest generalizing b j with
  | nil => exact Option.noConfusion hj
  | cons bb0 rest ih =>
    rw [forwardFrom, Bool.and_eq_true] at h
    cases j with
    | zero =>
      have e : bb0 = bb := by
        have hj2 : some bb0 = some bb := hj
        injection hj2
      subst e
      have hmem : instr ∈ bb0 := List.get?_mem hk
      have := List.all_eq_true.mp h.1 instr hmem
      rw [ht] at this
      simp only [Bool.not_true, Bool.false_or] at this
      intro s hs
      have := List.all_eq_true.mp this s hs
      simpa using this
    | succ j =>
      intro s hs
      have := ih (b + 1) h.2 j hj s hs
      omega

theorem forwardOnly_spec (F : Function) (h : forwardOnly F = true) (b : Nat) (bb : BasicBlock)
    (k : Nat) (instr : Instruction) (hb : F.get? b = some bb) (hk : bb.get? k = some instr)
    (ht : instr.isTerminator = true) : ∀ s ∈ instr.successors, b < s := by
  intro s hs
  have := forwardFrom_spec F 0 h b bb k instr hb hk ht s hs
  omega

theorem firstNonDebug_ge (l : List Instruction) (k j : Nat) (h : firstNonDebug k l = some j) :
    k ≤ j := by
  induction l generalizing k with
  | nil => exact Option.noConfusion h
  | cons i l ih =>
    rw [firstNonDebug] at h
    split at h
    · have := ih (k + 1) h
      omega
    · injection h with h
      omega

theorem successorLoop_snd_congr_on (p : InstPtr) (succs : List Nat) (l1 l2 : PtrMap)
    (acc : Finset String)
    (h : ∀ s ∈ succs, l1.getD (successorFront p s) = l2.getD (successorFront p s)) :
    (successorLoop p succs l1 acc).2 = (successorLoop p succs l2 acc).2 := by
  induction succs generalizing l1 l2 acc with
  | nil => rfl
  | cons s rest ih =>
    show (successorLoop p rest (l1.touch _) (acc ∪ l1.getD _)).2
      = (successorLoop p rest (l2.touch _) (acc ∪ l2.getD _)).2
    rw [h s (List.mem_cons_self _ _)]
    apply ih
    intro s2 hs2
    rw [PtrMap.getD_touch, PtrMap.getD_touch]
    exact h s2 (List.mem_cons_of_mem _ hs2)

/-- The set `after(i)` of an instruction whose successors are later blocks only
depends on the live sets stored for later addresses. -/
theorem afterAt_congr_later (s t : PassState) (p : InstPtr) (bb : BasicBlock)
    (instr : Instruction)
    (hfw : instr.isTerminator = true → ∀ s ∈ instr.successors, p.bb < s)
    (h : ∀ q, p.before q = true → s.liveAt q = t.liveAt q) :
    s.afterAt p bb instr = t.afterAt p bb instr := by
  unfold PassState.afterAt liveAfterCurrentInstruction
  split
  · split
    · rename_i ht
      apply successorLoop_snd_congr_on
      intro s2 hs2
      apply h
      have := hfw ht s2 hs2
      simp [InstPtr.before, successorFront, this]
    · cases hn : getNextNonDebugInstruction bb p.idx with
      | none => rfl
      | some j =>
        simp only
        have hj : p.idx + 1 ≤ j := firstNonDebug_ge _ _ _ hn
        have hq := h ⟨p.fn, p.bb, j⟩ (by simp [InstPtr.before]; omega)
        unfold PassState.liveAt at hq
        rw [← PtrMap.getD_eq_match s.live, ← PtrMap.getD_eq_match t.live] at hq
        revert hq
        cases s.live.find ⟨p.fn, p.bb, j⟩ <;> cases t.live.find ⟨p.fn, p.bb, j⟩ <;> exact id
  · rfl

theorem tempAt_congr_later (s t : PassState) (p : InstPtr) (bb : BasicBlock)
    (instr : Instruction)
    (hfw : instr.isTerminator = true → ∀ s ∈ instr.successors, p.bb < s)
    (hd : s.defAt p = t.defAt p) (hu : s.useAt p = t.useAt p)
    (h : ∀ q, p.before q = true → s.liveAt q = t.liveAt q) :
    s.tempAt p bb instr = t.tempAt p bb instr := by
  unfold PassState.tempAt
  rw [afterAt_congr_later s t p bb instr hfw h, hd, hu]

/-- A visit of the instruction at `p0` leaves the set `liveTemp` of every
instruction at or before `p0` as it was, when the function only branches
forward. -/
theorem tempAt_visit (p0 : InstPtr) (bb0 : BasicBlock) (i0 : Instruction)
    (y : PassState × Bool) (p : InstPtr) (bb : BasicBlock) (instr : Instruction)
    (hfw : instr.isTerminator = true → ∀ s ∈ instr.successors, p.bb < s)
    (hp : p.before p0 = false) :
    (visit p0 bb0 i0 y).1.tempAt p bb instr = y.1.tempAt p bb instr := by
  apply tempAt_congr_later _ _ p bb instr hfw (visit_defAt _ _ _ _ _) (visit_useAt _ _ _ _ _)
  intro q hq
  rw [visit_liveAt, if_neg]
  intro e
  rw [e, hq] at hp
  exact Bool.noConfusion hp

/-- One pass over a function that only branches forward, started with empty live
sets, leaves every instruction with `live = (after \ use) ∪ def`. -/
theorem visitAll_solved (fn : Nat) (F : Function) (hfw : forwardOnly F = true)
    (l : List (InstPtr × BasicBlock × Instruction)) (hl : ∀ e ∈ l, e ∈ visits fn F)
    (hpw : l.Pairwise (fun e1 e2 => e1.1.before e2.1 = true)) (x : PassState × Bool)
    (hx : ∀ e ∈ l, x.1.liveAt e.1 = ∅) :
    ∀ e ∈ l, (visitAll l x).1.liveAt e.1 = (visitAll l x).1.tempAt e.1 e.2.1 e.2.2 := by
  induction l with
  | nil => intro e he; exact absurd he (List.not_mem_nil _)
  | cons e0 l ih =>
    obtain ⟨h0, hpw2⟩ := List.pairwise_cons.mp hpw
    have ih2 := ih (fun e he => hl e (List.mem_cons_of_mem _ he)) hpw2
      (fun e he => hx e (List.mem_cons_of_mem _ he))
    have hfwd : ∀ e ∈ e0 :: l,
        e.2.2.isTerminator = true → ∀ s ∈ e.2.2.successors, e.1.bb < s := by
      intro e he ht
      obtain ⟨b, bb, k, instr, hb, hk, rfl⟩ := (visits_mem fn F e).mp (hl e he)
      exact forwardOnly_spec F hfw b bb k instr hb hk ht
    intro e he
    rw [visitAll_cons]
    rcases List.mem_cons.mp he with h | h
    · subst h
      rw [tempAt_visit _ _ _ _ _ _ _ (hfwd e (List.mem_cons_self _ _))
        (InstPtr.before_irrefl e.1), visit_liveAt, if_pos rfl,
        visitAll_liveAt_frame l x e.1 (fun e2 he2 => (InstPtr.ne_of_before _ _ (h0 e2 he2)).symm),
        hx e (List.mem_cons_self _ _), Finset.empty_union]
    · have hb := h0 e h
      rw [tempAt_visit _ _ _ _ _ _ _ (hfwd e he) (InstPtr.before_asymm _ _ hb), visit_liveAt,
        if_neg (InstPtr.ne_of_before _ _ hb)]
      exact ih2 e h

/-- Visits in a state where every visited instruction already has
`live = (after \ use) ∪ def` leave every stored set as it is. -/
theorem visitAll_fixed (l : List (InstPtr × BasicBlock × Instruction)) (x : PassState × Bool)
    (hx : ∀ e ∈ l, x.1.liveAt e.1 = x.1.tempAt e.1 e.2.1 e.2.2) :
    SameSets (visitAll l x).1 x.1 := by
  induction l with
  | nil => intro q; rfl
  | cons e0 l ih =>
    have ih2 := ih (fun e he => hx e (List.mem_cons_of_mem _ he))
    intro q
    rw [visitAll_cons]
    unfold PassState.setsAt
    rw [visit_defAt, visit_useAt, visit_liveAt, ih2.defAt, ih2.useAt, ih2.liveAt,
      ih2.tempAt, ih2.liveAt]
    split
    · rename_i hq
      subst hq
      rw [← hx e0 (List.mem_cons_self _ _), Finset.union_self]
    · rfl

theorem passLoop_fixed (fn : Nat) (F : Function) (fuel : Nat) (x : PassState × Bool)
    (s : PassState)
    (hx : ∀ e ∈ visits fn F, x.1.liveAt e.1 = x.1.tempAt e.1 e.2.1 e.2.2)
    (h : passLoop fn F fuel x = some s) : SameSets s x.1 := by
  induction fuel generalizing x with
  | zero =>
    obtain ⟨st, c⟩ := x
    cases c with
    | false =>
      rw [passLoop] at h
      injection h with h
      subst h
      intro q
      rfl
    | true => simp [passLoop] at h
  | succ n ih =>
    obtain ⟨st, c⟩ := x
    cases c with
    | false =>
      rw [passLoop] at h
      injection h with h
      subst h
      intro q
      rfl
    | true =>
      rw [passLoop] at h
      have hs : SameSets (fullPass fn F (st, true)).1 st := by
        rw [fullPass_eq_visitAll]
        exact visitAll_fixed _ _ hx
      have := ih (fullPass fn F (st, true)) ?_ h
      · intro q
        rw [this q, hs q]
      · intro e he
        rw [hs.liveAt, hs.tempAt]
        exact hx e he

/-- The solver run after `analyzeFunction` when some instruction has a non-empty
def set: the first pass leaves `liveSetChanged` set, the second clears it. -/
theorem passLoop_analyzed (fn : Nat) (F : Function) (st0 : PassState)
    (hdef : ∃ p instr, instrAt fn F p = some instr ∧ (analyzeFunction fn F st0).defAt p ≠ ∅) :
    (fullPass fn F (analyzeFunction fn F st0, true)).2 = true ∧
      (fullPass fn F (fullPass fn F (analyzeFunction fn F st0, true))).2 = false ∧
      ∀ fuel, passLoop fn F fuel (analyzeFunction fn F st0, true) =
        if 2 ≤ fuel then
          some (fullPass fn F (fullPass fn F (analyzeFunction fn F st0, true))).1
        else none := by
  have hlive : ∀ e ∈ visits fn F, (analyzeFunction fn F st0).liveAt e.1 = ∅ := by
    intro e he
    rw [analyzeFunction_liveAt, (visits_mem_instrAt fn F e he).1]
  obtain ⟨p, instr, hp, hne⟩ := hdef
  obtain ⟨bb, hmem⟩ := instrAt_mem_visits fn F p instr hp
  have h1 : (fullPass fn F (analyzeFunction fn F st0, true)).2 = true := by
    rw [fullPass_eq_visitAll]
    exact visitAll_flag_true _ (instrPtrs_nodup fn F) _ rfl hlive
  have h2 : (fullPass fn F (fullPass fn F (analyzeFunction fn F st0, true))).2 = false := by
    rw [fullPass_eq_visitAll fn F (fullPass fn F _), fullPass_eq_visitAll]
    apply visitAll_flag_false
    · intro e he
      rw [visitAll_defAt]
      exact visitAll_def_subset_live _ _ e he
    · refine ⟨_, hmem, ?_⟩
      rw [visitAll_defAt]
      exact hne
  exact ⟨h1, h2, passLoop_two_passes fn F _ h1 h2⟩

/-! ## The `live` map of a well-formed function -/

theorem wellFormed_successor (fn : Nat) (F : Function) (h : wellFormed F = true) (b : Nat)
    (bb : BasicBlock) (k : Nat) (instr : Instruction) (hb : F.get? b = some bb)
    (hk : bb.get? k = some instr) (s : Nat) (hs : s ∈ instr.successors) :
    ∃ i2, instrAt fn F ⟨fn, s, 0⟩ = some i2 := by
  unfold wellFormed at h
  rw [Bool.and_eq_true] at h
  have hall := List.all_eq_true.mp h.2
  have hlt : s < F.length := by
    have h1 := hall bb (List.get?_mem hb)
    cases hl : bb.getLast? with
    | none =>
      rw [hl] at h1
      exact Bool.noConfusion h1
    | some t =>
      rw [hl] at h1
      simp only [Bool.and_eq_true] at h1
      have h2 := List.all_eq_true.mp h1.2 instr (List.get?_mem hk)
      have h3 := List.all_eq_true.mp h2 s hs
      simpa using h3
  obtain ⟨bb2, hbb2⟩ : ∃ bb2, F.get? s = some bb2 := ⟨F.get ⟨s, hlt⟩, List.get?_eq_get hlt⟩
  have h1 := hall bb2 (List.get?_mem hbb2)
  cases bb2 with
  | nil => simp at h1
  | cons i2 rest =>
    exact ⟨i2, instrAt_of_get fn F s 0 (i2 :: rest) i2 hbb2 rfl⟩

/-- The solver creates no entry in `live` when the function is well formed and
every instruction has one. -/
theorem passLoop_keys_eq (fn : Nat) (F : Function) (hwf : wellFormed F = true) (fuel : Nat)
    (x : PassState × Bool) (s : PassState) (hsub : ∀ p ∈ instrPtrs fn F, p ∈ x.1.live.keys)
    (h : passLoop fn F fuel x = some s) : s.live.keys = x.1.live.keys := by
  apply passLoop_invariant (fun t => t.live.keys = x.1.live.keys) fn F _ fuel x s rfl h
  intro b bb k instr y hb hk hy
  obtain ⟨l, hl, hkeys⟩ := visit_keys ⟨fn, b, k⟩ bb instr y
  rw [hkeys, hy]
  apply foldl_addKey_of_mem
  intro q hq
  apply hsub
  rw [mem_instrPtrs]
  rcases hl q hq with h1 | ⟨s2, hs2, h1⟩
  · rw [h1]
    exact ⟨instr, instrAt_of_get fn F b k bb instr hb hk⟩
  · rw [h1]
    exact wellFormed_successor fn F hwf b bb k instr hb hk s2 hs2

theorem PtrMap.map_entries (m : PtrMap) (h : m.keys.Nodup) (f : Finset String → Nat) :
    m.map (fun e => f e.2) = m.keys.map (fun p => f (m.getD p)) := by
  unfold PtrMap.keys
  rw [List.map_map]
  apply List.map_congr_left
  intro e he
  have := PtrMap.find_of_mem m h e he
  simp only [Function.comp, PtrMap.getD, this, Option.getD_some]

theorem PtrMap.getD_of_not_mem (m : PtrMap) (p : InstPtr) (h : p ∉ m.keys) : m.getD p = ∅ := by
  unfold PtrMap.getD
  rw [(PtrMap.find_eq_none_iff m p).mpr h]
  rfl

theorem instrAt_fn (fn : Nat) (F : Function) (p : InstPtr) (instr : Instruction)
    (h : instrAt fn F p = some instr) : p.fn = fn := by
  unfold instrAt at h
  by_contra hn
  rw [if_neg hn] at h
  exact Option.noConfusion h

theorem instrAt_none_of_fn (fn : Nat) (F : Function) (p : InstPtr) (h : p.fn ≠ fn) :
    instrAt fn F p = none := by
  unfold instrAt
  rw [if_neg h]

/-- One function of the module: `analyzeFunction` then `livenessAnalysis` on a well-formed
function whose instructions have no entry in `live` yet.  The entries of the
instructions are appended to the map, the histogram receives one increment per
entry of the whole map, and the sets stored for other functions stay. -/
theorem livenessAnalysis_step (fuel fn : Nat) (F : Function) (st0 st : PassState)
    (hwf : wellFormed F = true) (hnd0 : st0.live.keys.Nodup)
    (hk0 : ∀ p ∈ st0.live.keys, p.fn ≠ fn)
    (h : livenessAnalysis fuel fn F (analyzeFunction fn F st0) = some st) :
    st.live.keys = st0.live.keys ++ instrPtrs fn F ∧
      (st0.live.keys ++ instrPtrs fn F).Nodup ∧
      st.counts = ((st0.live.keys ++ instrPtrs fn F).map
        (fun p => wrapUnsigned (st.liveAt p).card)).foldl increment st0.counts ∧
      (∀ p, p.fn ≠ fn → st.liveAt p = st0.liveAt p ∧ st.defAt p = st0.defAt p) ∧
      ((∀ p, (st0.defAt p).card ≤ 1) →
        (∀ p, p.fn = fn → (st.liveAt p).card ≤ instrCount F) ∧
          ∀ p, (st.defAt p).card ≤ 1) := by
  obtain ⟨s1, hloop, hst⟩ := livenessAnalysis_eq_some fuel fn F _ st h
  have hnew : ∀ q ∈ instrPtrs fn F, q ∉ st0.live.keys := by
    intro q hq hmem
    obtain ⟨i, hi⟩ := (mem_instrPtrs fn F q).mp hq
    exact hk0 q hmem (instrAt_fn fn F q i hi)
  have hkeysA : (analyzeFunction fn F st0).live.keys = st0.live.keys ++ instrPtrs fn F := by
    rw [(analyzeFunction_keys fn F st0).1]
    exact foldl_addKey_new _ _ (instrPtrs_nodup fn F) hnew
  have hndA : (st0.live.keys ++ instrPtrs fn F).Nodup := by
    rw [← hkeysA, (analyzeFunction_keys fn F st0).1]
    exact foldl_addKey_nodup _ _ hnd0
  have hkeys1 : s1.live.keys = st0.live.keys ++ instrPtrs fn F := by
    rw [← hkeysA]
    apply passLoop_keys_eq fn F hwf fuel (analyzeFunction fn F st0, true) s1 _ hloop
    intro p hp
    show p ∈ (analyzeFunction fn F st0).live.keys
    rw [hkeysA]
    exact List.mem_append_right _ hp
  have hlive : st.live = s1.live := by rw [hst]
  have hliveAt : ∀ p, st.liveAt p = s1.liveAt p := by
    intro p
    unfold PassState.liveAt
    rw [hlive]
  have hdefAt : ∀ p, st.defAt p = (analyzeFunction fn F st0).defAt p := by
    intro p
    have : st.defs = s1.defs := by rw [hst]
    unfold PassState.defAt
    rw [this, (passLoop_defs_uses fn F fuel _ s1 hloop).1]
  refine ⟨by rw [hlive, hkeys1], hndA, ?_, ?_, ?_⟩
  · have hc : st.counts = countLive s1.live s1.counts := by rw [hst]
    have hc1 : s1.counts = st0.counts := by
      rw [passLoop_counts fn F fuel _ s1 hloop]
      exact (analyzeFunction_keys fn F st0).2
    rw [hc, hc1, countLive_eq_foldl,
      PtrMap.map_entries s1.live (by rw [hkeys1]; exact hndA) (fun s => wrapUnsigned s.card),
      hkeys1]
    congr 1
    apply List.map_congr_left
    intro p _
    rw [hliveAt]
    rfl
  · intro p hp
    have hnone := instrAt_none_of_fn fn F p hp
    refine ⟨?_, ?_⟩
    · rw [hliveAt, passLoop_liveAt_outside fn F fuel _ s1 hloop p hnone]
      show (analyzeFunction fn F st0).liveAt p = _
      rw [analyzeFunction_liveAt, hnone]
    · rw [hdefAt, analyzeFunction_defAt, hnone]
  · intro ha
    refine ⟨?_, ?_⟩
    · intro p hp
      rw [hliveAt]
      apply passLoop_live_card fn F fuel st0 s1 ha _ hloop p hp
      intro q hq _
      apply PtrMap.getD_of_not_mem
      intro hmem
      exact hk0 q hmem hq
    · intro p
      rw [hdefAt]
      exact analyzeFunction_defAt_card fn F st0 ha p

/-! ## The histogram of a module -/

theorem count_map_eq_countP (l : List InstPtr) (f : InstPtr → Nat) (k : Nat) :
    (l.map f).count k = l.countP (fun p => decide (f p = k)) := by
  induction l with
  | nil => rfl
  | cons p l ih =>
    rw [List.map_cons, List.count_cons, List.countP_cons, ih]
    by_cases h : f p = k
    · simp [h]
    · simp [h]

theorem runFunctions_counts (fuel : Nat) (rest : List Function) (fn : Nat) (st0 st : PassState)
    (hwf : ∀ F ∈ rest, wellFormed F = true)
    (hnd0 : st0.live.keys.Nodup) (hk0 : ∀ p ∈ st0.live.keys, p.fn < fn)
    (ha : ∀ p, (st0.defAt p).card ≤ 1)
    (hc0 : ∀ p ∈ st0.live.keys, (st0.liveAt p).card < 4294967295)
    (hN : st0.counts.sum + rest.length * st0.live.keys.length + expectedSum rest < 4294967295)
    (h : runFunctions fuel fn rest st0 = some st) :
    (∀ p, p.fn < fn → st.liveAt p = st0.liveAt p) ∧
      st.counts.sum = st0.counts.sum + rest.length * st0.live.keys.length + expectedSum rest ∧
      ∀ k, st.counts.getD k 0 = st0.counts.getD k 0 +
        rest.length * st0.live.keys.countP (fun p => decide ((st.liveAt p).card = k)) +
        expectedBucket st k fn rest := by
  induction rest generalizing fn st0 with
  | nil =>
    rw [runFunctions] at h
    injection h with h
    subst h
    refine ⟨fun _ _ => rfl, ?_, ?_⟩
    · simp [expectedSum]
    · intro k
      simp [expectedBucket]
  | cons F rest ih =>
    rw [runFunctions] at h
    cases hLA : livenessAnalysis fuel fn F (analyzeFunction fn F st0) with
    | none =>
      rw [hLA] at h
      exact Option.noConfusion h
    | some st1 =>
      rw [hLA] at h
      simp only at h
      obtain ⟨hkeys1, hnd1, hcounts1, hframe1, hcard1⟩ := livenessAnalysis_step fuel fn F st0 st1
        (hwf F (List.mem_cons_self _ _)) hnd0
        (fun p hp => Nat.ne_of_lt (hk0 p hp)) hLA
      obtain ⟨hcardF, ha1⟩ := hcard1 ha
      have hptrs_fn : ∀ p ∈ instrPtrs fn F, p.fn = fn := by
        intro p hp
        obtain ⟨i, hi⟩ := (mem_instrPtrs fn F p).mp hp
        exact instrAt_fn fn F p i hi
      have hlenF : (instrPtrs fn F).length = instrCount F := instrPtrs_length fn F
      have hEF : instrCount F ≤ expectedSum (F :: rest) := by
        rw [expectedSum, Nat.add_mul, Nat.one_mul]
        omega
      have hbound : ∀ p ∈ st0.live.keys ++ instrPtrs fn F, (st1.liveAt p).card < 4294967295 := by
        intro p hp
        rcases List.mem_append.mp hp with h1 | h1
        · rw [(hframe1 p (Nat.ne_of_lt (hk0 p h1))).1]
          exact hc0 p h1
        · have := hcardF p (hptrs_fn p h1)
          omega
      have hwrap : ∀ p ∈ st0.live.keys ++ instrPtrs fn F,
          wrapUnsigned (st1.liveAt p).card = (st1.liveAt p).card := by
        intro p hp
        apply wrapUnsigned_of_lt
        have := hbound p hp
        omega
      have hlen1 : st1.live.keys.length = st0.live.keys.length + instrCount F := by
        rw [hkeys1, List.length_append, hlenF]
      have hN2 : st0.counts.sum + (rest.length + 1) * st0.live.keys.length +
          ((rest.length + 1) * instrCount F + expectedSum rest) < 4294967295 := by
        simpa [expectedSum] using hN
      rw [Nat.add_mul, Nat.add_mul, Nat.one_mul, Nat.one_mul] at hN2
      have hbump : st1.counts = ((st0.live.keys ++ instrPtrs fn F).map
          (fun p => wrapUnsigned (st1.liveAt p).card)).foldl bump st0.counts := by
        rw [hcounts1]
        apply foldl_increment_eq_bump
        · intro i hi
          obtain ⟨p, hp, rfl⟩ := List.mem_map.mp hi
          rw [hwrap p hp]
          exact hbound p hp
        · rw [List.length_map, List.length_append, hlenF]
          omega
      have hsum1 : st1.counts.sum = st0.counts.sum + (st0.live.keys.length + instrCount F) := by
        rw [hbump, foldl_bump_sum, List.length_map, List.length_append, hlenF]
      obtain ⟨hframe, hsum, hbucket⟩ := ih (fn + 1) st1
        (fun G hG => hwf G (List.mem_cons_of_mem _ hG)) (by rw [hkeys1]; exact hnd1)
        (by
          intro p hp
          rw [hkeys1] at hp
          rcases List.mem_append.mp hp with h1 | h1
          · exact Nat.lt_succ_of_lt (hk0 p h1)
          · rw [hptrs_fn p h1]
            exact Nat.lt_succ_self _)
        ha1
        (by
          intro p hp
          rw [hkeys1] at hp
          exact hbound p hp)
        (by
          rw [hsum1, hlen1, Nat.mul_add]
          omega)
        h
      refine ⟨?_, ?_, ?_⟩
      · intro p hp
        rw [hframe p (Nat.lt_succ_of_lt hp), (hframe1 p (Nat.ne_of_lt hp)).1]
      · rw [hsum, hsum1, hlen1, expectedSum, List.length_cons, Nat.mul_add, Nat.add_mul,
          Nat.add_mul, Nat.one_mul, Nat.one_mul]
        omega
      · intro k
        have hcount : st1.counts.getD k 0 = st0.counts.getD k 0 +
            (st0.live.keys.countP (fun p => decide ((st.liveAt p).card = k)) +
              (instrPtrs fn F).countP (fun p => decide ((st.liveAt p).card = k))) := by
          rw [hbump, foldl_bump_getD, count_map_eq_countP, ← List.countP_append]
          congr 1
          apply List.countP_congr
          intro p hp
          have hfn : p.fn < fn + 1 := by
            rcases List.mem_append.mp hp with h1 | h1
            · exact Nat.lt_succ_of_lt (hk0 p h1)
            · rw [hptrs_fn p h1]
              exact Nat.lt_succ_self _
          rw [hwrap p hp, hframe p hfn]
        rw [hbucket k, hcount, hkeys1, List.countP_append, expectedBucket, List.length_cons,
          Nat.mul_add, Nat.add_mul, Nat.add_mul, Nat.one_mul, Nat.one_mul]
        omega

/-! ## The successor relation of the symbolic solver -/

theorem successorLoop_snd_eq (p : InstPtr) (succs : List Nat) (live : PtrMap)
    (acc : Finset String) :
    (successorLoop p succs live acc).2 =
      acc ∪ (succs.map (successorFront p)).toFinset.biUnion live.getD := by
  induction succs generalizing live acc with
  | nil => simp [successorLoop]
  | cons s rest ih =>
    have htouch : (live.touch (successorFront p s)).getD = live.getD :=
      funext (fun q => PtrMap.getD_touch live _ q)
    rw [successorLoop, ih, htouch, List.map_cons, List.toFinset_cons, Finset.biUnion_insert,
      Finset.union_assoc]

/-- The set `after(i)` is the union of the live sets stored for the successors of
the instruction. -/
theorem afterAt_eq_biUnion (st : PassState) (p : InstPtr) (bb : BasicBlock)
    (instr : Instruction) :
    st.afterAt p bb instr = (successorPtrs p bb instr).toFinset.biUnion st.liveAt := by
  unfold PassState.afterAt liveAfterCurrentInstruction successorPtrs
  split
  · split
    · rw [successorLoop_snd_eq, Finset.empty_union]
      rfl
    · cases hn : getNextNonDebugInstruction bb p.idx with
      | none => simp
      | some j =>
        simp only [List.toFinset_cons, List.toFinset_nil, insert_emptyc_eq,
          Finset.singleton_biUnion]
        unfold PassState.liveAt PtrMap.getD
        cases st.live.find ⟨p.fn, p.bb, j⟩ <;> rfl
  · simp

/-! ## The solution of a function that only branches forward -/

/-- C1: on the straight-line function the pass returns after two passes with
`live(I2) = {y}` although `after(I2) = ∅`, `def(I2) = {y}` and `use(I2) = {x}`,
so the returned state violates `live(i) = (after(i) \ def(i)) ∪ use(i)`. -/
theorem fixpoint_law_violated_straightLine :
    ∃ st, livenessAnalysis 2 0 straightLine (analyzeFunction 0 straightLine PassState.fresh) = some st ∧
      st.liveAt ⟨0, 0, 1⟩ = {"y"} ∧ st.liveAt ⟨0, 0, 2⟩ = ∅ ∧
      st.defAt ⟨0, 0, 1⟩ = {"y"} ∧ st.useAt ⟨0, 0, 1⟩ = {"x"} ∧
      ¬ FixpointLaw 0 straightLine st := by
  refine ⟨_, rfl, by decide, by decide, by decide, by decide, ?_⟩
  intro h
  have h1 := h 0 _ 1 _ rfl rfl
  revert h1
  decide

/-- C2: on the well-formed function with two back edges in a row the pass loop exits after
its second pass although that pass changed the live set of the branch of block
2, and one more full pass from the returned state still changes the stored
live set of the branch of block 3 (it gains `x`). -/
theorem convergence_violated_backEdges :
    wellFormed backEdges = true ∧
    ∃ st, passLoop 0 backEdges 2 (analyzeFunction 0 backEdges PassState.fresh, true) = some st ∧
      (fullPass 0 backEdges (analyzeFunction 0 backEdges PassState.fresh, true)).1.liveAt ⟨0, 2, 0⟩
        ≠ st.liveAt ⟨0, 2, 0⟩ ∧
      st.liveAt ⟨0, 3, 0⟩ = {""} ∧
      (fullPass 0 backEdges (st, true)).1.liveAt ⟨0, 3, 0⟩ = {"", "x"} := by
  refine ⟨by decide, _, rfl, by decide, by decide, by decide⟩

/-- The pass state after `analyzeFunction` on `retOnly` is left as it is by a
full pass, and `liveSetChanged` stays set. -/
theorem fullPass_retOnly :
    fullPass 0 retOnly (analyzeFunction 0 retOnly PassState.fresh, true) =
      (analyzeFunction 0 retOnly PassState.fresh, true) := by
  rfl

/-- C3: on `define void @f() { ret void }`, a well-formed function, the pass
loop never exits: whatever the number of passes allowed, `livenessAnalysis`
has not returned. -/
theorem termination_violated_retOnly :
    wellFormed retOnly = true ∧
    ∀ fuel, livenessAnalysis fuel 0 retOnly (analyzeFunction 0 retOnly PassState.fresh) = none := by
  refine ⟨by decide, ?_⟩
  intro fuel
  have h : passLoop 0 retOnly fuel (analyzeFunction 0 retOnly PassState.fresh, true) = none := by
    induction fuel with
    | zero => rfl
    | succ n ih =>
      show passLoop 0 retOnly n
        (fullPass 0 retOnly (analyzeFunction 0 retOnly PassState.fresh, true)) = none
      rw [fullPass_retOnly]
      exact ih
  simp [livenessAnalysis, h]

/-- C4: on the straight-line function the pass returns with `use(I2) = {x}` and
`live(I2) = {y}`: the used name `x` is not in the stored live set. -/
theorem use_subset_violated_straightLine :
    ∃ st, livenessAnalysis 2 0 straightLine (analyzeFunction 0 straightLine PassState.fresh) = some st ∧
      "x" ∈ st.useAt ⟨0, 0, 1⟩ ∧ "x" ∉ st.liveAt ⟨0, 0, 1⟩ := by
  refine ⟨_, rfl, by decide, by decide⟩

/-- C5: on a module of two functions with two instructions each, `run` from a
fresh state returns the histogram `[3, 3]`, whose sum is 6, while the module
has 4 instructions. -/
theorem histogram_conservation_violated_twoFunctions :
    ∃ st, run 2 twoFunctions PassState.fresh = some st ∧
      st.counts = [3, 3] ∧ st.counts.sum = 6 ∧ moduleInstrCount twoFunctions = 4 := by
  refine ⟨_, rfl, by decide, by decide, by decide⟩

/-- C7: visiting the conditional branch on `c` whose successors have the stored
live sets `{a}` and `{b}`: `analyzeInstruction` recorded `use = {c}` and no
def, and the visit stores `{a, b}`, without `c`. -/
theorem branch_example_condBranch :
    condBranchState.useAt ⟨0, 0, 0⟩ = {"c"} ∧ condBranchState.defAt ⟨0, 0, 0⟩ = ∅ ∧
      condBranchState.liveAt ⟨0, 1, 0⟩ = {"a"} ∧ condBranchState.liveAt ⟨0, 2, 0⟩ = {"b"} ∧
      condBranchState.liveAt ⟨0, 0, 0⟩ = ∅ ∧
      (visit ⟨0, 0, 0⟩ [condBranch] condBranch (condBranchState, true)).1.liveAt ⟨0, 0, 0⟩
        = {"a", "b"} ∧
      (visit ⟨0, 0, 0⟩ [condBranch] condBranch (condBranchState, true)).1.liveAt ⟨0, 0, 0⟩
        ≠ {"a", "b", "c"} := by
  refine ⟨by decide, by decide, by decide, by decide, by decide, by decide, by decide⟩

/-! ## General properties of the solver -/

/-- C8: return law.  Start from any pass state that records no def set for the
return instructions of `F` (a fresh state, or the state left by the analysis
of other functions).  When `analyzeFunction` followed by `livenessAnalysis`
returns, the live set stored for every return instruction of `F` is empty,
whatever its operands and whatever else the function holds. -/
theorem return_law (fuel fn : Nat) (F : Function) (st0 st : PassState)
    (h0 : ∀ p instr, instrAt fn F p = some instr → instr.isRet = true → st0.defAt p = ∅)
    (h : livenessAnalysis fuel fn F (analyzeFunction fn F st0) = some st)
    (p : InstPtr) (instr : Instruction) (hp : instrAt fn F p = some instr)
    (hr : instr.isRet = true) : st.liveAt p = ∅ := by
  have hA := analyzeFunction_setsAt fn F st0 p
  rw [hp] at hA
  simp only [analyzedSets, PassState.setsAt, instrDefEffect, hr, Bool.or_true, if_true,
    Prod.mk.injEq] at hA
  obtain ⟨hlive, hdef, -⟩ := hA
  rw [h0 p instr hp hr] at hdef
  unfold livenessAnalysis at h
  cases hloop : passLoop fn F fuel (analyzeFunction fn F st0, true) with
  | none => simp [hloop] at h
  | some s1 =>
    rw [hloop] at h
    injection h with h
    have hinv : s1.liveAt p = ∅ ∧ s1.defAt p = ∅ := by
      apply passLoop_invariant (fun s => s.liveAt p = ∅ ∧ s.defAt p = ∅) fn F _ fuel _ s1
        ⟨hlive, hdef⟩ hloop
      intro b bb k i x hb hk hx
      refine ⟨?_, ?_⟩
      · rw [visit_liveAt]
        split
        · rename_i hpq
          have hi : instrAt fn F p = some i := by
            rw [← hpq]
            exact instrAt_of_get fn F b k bb i hb hk
          rw [hp] at hi
          injection hi with hi
          subst hi
          rw [hpq]
          simp [PassState.tempAt, PassState.afterAt, liveAfterCurrentInstruction_ret _ _ _ _ hr,
            liveTemp, hx.1, hx.2]
        · exact hx.1
      · show (visit ⟨fn, b, k⟩ bb i x).1.defs.getD p = ∅
        rw [visit_defs]
        exact hx.2
    rw [← h]
    exact hinv.1

/-- The return law at the straight-line function, analysed from a fresh state:
the analysis returns and the live set of its `ret` is empty. -/
theorem return_law_witness :
    (∃ st, livenessAnalysis 2 0 straightLine (analyzeFunction 0 straightLine PassState.fresh)
        = some st ∧ st.liveAt ⟨0, 0, 2⟩ = ∅) :=
  ⟨_, rfl, return_law 2 0 straightLine PassState.fresh _ (fun _ _ _ _ => rfl) rfl ⟨0, 0, 2⟩
    ⟨.ret, "", [⟨2, .instruction, "y"⟩], []⟩ rfl rfl⟩

/-- C9: a solver step never removes a name: for every state the solver can be
in, every instruction visit `visit p bb instr` and every instruction `q`, the
live set stored for `q` after the visit contains the one stored before it. -/
theorem visit_monotone (p : InstPtr) (bb : BasicBlock) (instr : Instruction)
    (x : PassState × Bool) (q : InstPtr) :
    x.1.liveAt q ⊆ (visit p bb instr x).1.liveAt q := by
  rw [visit_liveAt]
  split
  · rename_i hpq
    subst hpq
    exact Finset.subset_union_left
  · exact Finset.Subset.refl _

/-- C10: idempotence.  Let the analysis of `F` (`analyzeFunction` followed by
`livenessAnalysis`) return the state `st1`.  Then analysing the unmodified
`F` a second time, from `st1`, returns as well, and whenever it returns, every
instruction has the same stored live set, def set and use set as after the
first analysis. -/
theorem analysis_idempotent (fuel fn : Nat) (F : Function) (st0 st1 : PassState)
    (h1 : livenessAnalysis fuel fn F (analyzeFunction fn F st0) = some st1) :
    (∃ st2, livenessAnalysis fuel fn F (analyzeFunction fn F st1) = some st2) ∧
      ∀ fuel2 st2, livenessAnalysis fuel2 fn F (analyzeFunction fn F st1) = some st2 →
        ∀ p, st2.liveAt p = st1.liveAt p ∧ st2.defAt p = st1.defAt p ∧
          st2.useAt p = st1.useAt p := by
  obtain ⟨s1, hloop, hst1⟩ := livenessAnalysis_eq_some fuel fn F _ st1 h1
  have hsame1 : SameSets st1 s1 := by
    intro q
    rw [hst1]
    rfl
  have hstart := analyzeFunction_again fn F fuel st0 s1 st1 hloop hsame1
  obtain ⟨t, ht, hst⟩ := passLoop_congr fn F fuel (analyzeFunction fn F st0, true)
    (analyzeFunction fn F st1, true) ⟨hstart, rfl⟩ s1 hloop
  refine ⟨⟨_, by rw [livenessAnalysis, ht]; rfl⟩, ?_⟩
  intro fuel2 st2 h2 p
  obtain ⟨t2, hloop2, hst2⟩ := livenessAnalysis_eq_some fuel2 fn F _ st2 h2
  have ht2 : t2 = t := passLoop_fuel_unique fn F fuel2 fuel _ t2 t hloop2 ht
  subst ht2
  have hsame2 : SameSets st2 t2 := by
    intro q
    rw [hst2]
    rfl
  refine ⟨?_, ?_, ?_⟩
  · rw [hsame2.liveAt, hsame1.liveAt, hst.liveAt]
  · rw [hsame2.defAt, hsame1.defAt, hst.defAt]
  · rw [hsame2.useAt, hsame1.useAt, hst.useAt]

/-- Idempotence at the straight-line function, analysed from a fresh state: the
first analysis returns, the second returns as well and reproduces its sets. -/
theorem analysis_idempotent_witness :
    ∃ st1, livenessAnalysis 2 0 straightLine (analyzeFunction 0 straightLine PassState.fresh)
        = some st1 ∧
      (∃ st2, livenessAnalysis 2 0 straightLine (analyzeFunction 0 straightLine st1) = some st2) ∧
      ∀ fuel2 st2, livenessAnalysis fuel2 0 straightLine (analyzeFunction 0 straightLine st1)
          = some st2 →
        ∀ p, st2.liveAt p = st1.liveAt p ∧ st2.defAt p = st1.defAt p ∧
          st2.useAt p = st1.useAt p :=
  ⟨_, rfl, analysis_idempotent 2 0 straightLine PassState.fresh _ rfl⟩

/-! ## The extraction rules of `analyzeInstruction` -/

/-- C11: for the unconditional branch `br label %b3`, for the conditional branch
on a constant and for `unreachable`, `analyzeInstruction` from a fresh state
leaves the use set empty but records the def set `{""}`, the one-element set
of the empty name, not the empty set. -/
theorem terminator_rule_violated :
    (analyzeInstruction ⟨0, 0, 0⟩ uncondBranch PassState.fresh).useAt ⟨0, 0, 0⟩ = ∅ ∧
      (analyzeInstruction ⟨0, 0, 0⟩ uncondBranch PassState.fresh).defAt ⟨0, 0, 0⟩ = {""} ∧
      (analyzeInstruction ⟨0, 0, 0⟩ uncondBranch PassState.fresh).defAt ⟨0, 0, 0⟩ ≠ ∅ ∧
      (analyzeInstruction ⟨0, 0, 0⟩ brOnConstant PassState.fresh).defAt ⟨0, 0, 0⟩ = {""} ∧
      (analyzeInstruction ⟨0, 0, 0⟩ unreachableInstr PassState.fresh).defAt ⟨0, 0, 0⟩ = {""} := by
  refine ⟨by decide, by decide, by decide, by decide, by decide⟩

/-- C12, as stated, fails: for `call void @f()`, an instruction without a result
name, `analyzeInstruction` records the def set `{""}`, which is not empty. -/
theorem generic_def_rule_counterexample :
    callVoid.isAlloca = false ∧ callVoid.isRet = false ∧ callVoid.isStore = false ∧
      callVoid.isBranch = false ∧ callVoid.name = "" ∧
      (analyzeInstruction ⟨0, 0, 0⟩ callVoid PassState.fresh).defAt ⟨0, 0, 0⟩ = {""} ∧
      (analyzeInstruction ⟨0, 0, 0⟩ callVoid PassState.fresh).defAt ⟨0, 0, 0⟩ ≠ ∅ := by
  refine ⟨rfl, rfl, rfl, rfl, rfl, by decide, by decide⟩

/-- C12, amended: for every instruction that is not an allocation, return, store
or branch, `analyzeInstruction` records the def set `{instr.getName()}`,
whatever was recorded before; for an instruction without a result name that
is the one-element set of the empty name. -/
theorem generic_def_rule (p : InstPtr) (instr : Instruction) (st : PassState)
    (ha : instr.isAlloca = false) (hr : instr.isRet = false) (hs : instr.isStore = false)
    (hb : instr.isBranch = false) :
    (analyzeInstruction p instr st).defAt p = {instr.name} := by
  rw [(analyzeInstruction_at p instr st).1]
  unfold instrDefEffect
  simp only [ha, hr, Bool.or_self, Bool.false_eq_true, ↓reduceIte]
  exact defEffect_generic instr hb hs _ _

/-- The amended def rule at `%y = add %x, 1` and at `call void @f()`. -/
theorem generic_def_rule_witness :
    (analyzeInstruction ⟨0, 0, 0⟩ addXOne PassState.fresh).defAt ⟨0, 0, 0⟩ = {"y"} ∧
      (analyzeInstruction ⟨0, 0, 0⟩ callVoid PassState.fresh).defAt ⟨0, 0, 0⟩ = {""} :=
  ⟨generic_def_rule ⟨0, 0, 0⟩ addXOne PassState.fresh rfl rfl rfl rfl,
    generic_def_rule ⟨0, 0, 0⟩ callVoid PassState.fresh rfl rfl rfl rfl⟩

/-- C13: for every instruction that is not an allocation, return, store or
branch, `analyzeInstruction` adds to the use set of the instruction exactly
the names of its operands that are instruction results or function
arguments, so the recorded use set is exactly that set of names when none was
recorded before.  For an instruction of any class, a name enters a use set
only as the name of such an operand: constants and other operands never
contribute, and the use sets of the other instructions are left alone. -/
theorem generic_use_rule (p : InstPtr) (instr : Instruction) (st : PassState)
    (ha : instr.isAlloca = false) (hr : instr.isRet = false) (hs : instr.isStore = false)
    (hb : instr.isBranch = false) :
    (analyzeInstruction p instr st).useAt p = st.useAt p ∪ trackedNames instr.operands ∧
      (st.useAt p = ∅ →
        (analyzeInstruction p instr st).useAt p = trackedNames instr.operands) ∧
      (∀ (i : Instruction) (q : InstPtr) (name : String),
        name ∈ (analyzeInstruction p i st).useAt q → name ∉ st.useAt q →
          q = p ∧ ∃ v ∈ i.operands, v.isInstOrArg = true ∧ v.isConstant = false ∧
            v.name = name) := by
  have hmain : (analyzeInstruction p instr st).useAt p
      = st.useAt p ∪ trackedNames instr.operands := by
    rw [(analyzeInstruction_at p instr st).2]
    unfold instrUseEffect
    simp only [ha, hr, Bool.or_self, Bool.false_eq_true, ↓reduceIte]
    exact useEffect_generic instr hb hs _ _
  refine ⟨hmain, ?_, ?_⟩
  · intro hu
    rw [hmain, hu, Finset.empty_union]
  · intro i q name hin hnot
    have hsets := (analyzeInstruction_sets p i st q).2
    by_cases hpq : p = q
    · subst hpq
      rw [if_pos rfl] at hsets
      rw [hsets] at hin
      refine ⟨rfl, ?_⟩
      unfold instrUseEffect at hin
      split at hin
      · exact absurd hin hnot
      · have := useEffect_subset i i.operands _ hin
        rw [Finset.mem_union] at this
        rcases this with h | h
        · exact absurd h hnot
        · unfold trackedNames at h
          simp only [List.mem_toFinset, List.mem_map, List.mem_filter] at h
          obtain ⟨v, ⟨hv, htr⟩, hname⟩ := h
          exact ⟨v, hv, htr, Value.not_constant_of_isInstOrArg v htr, hname⟩
    · rw [if_neg hpq] at hsets
      rw [hsets] at hin
      exact absurd hin hnot

/-- The use rule at `%y = add %x, 1`, analysed from a fresh state: the use set is
`{x}`; the constant operand contributes nothing. -/
theorem generic_use_rule_witness :
    (analyzeInstruction ⟨0, 0, 0⟩ addXOne PassState.fresh).useAt ⟨0, 0, 0⟩ = {"x"} := by
  have h := (generic_use_rule ⟨0, 0, 0⟩ addXOne PassState.fresh rfl rfl rfl rfl).2.1 rfl
  rw [h]
  decide

/-- C14: for every conditional branch whose first operand, the condition, is an
instruction result or a function argument, `analyzeInstruction` records the
use set `{name of the condition}` whatever the operands after it (the
successor targets are not looked at), and records no def: the def map is left
as it was, so the def set is empty when none was recorded before. -/
theorem conditional_branch_rule (p : InstPtr) (instr : Instruction) (st : PassState)
    (cond : Value) (targets : List Value) (hk : instr.kind = InstKind.br true)
    (hops : instr.operands = cond :: targets) (hc : cond.isInstOrArg = true) :
    (analyzeInstruction p instr st).useAt p = {cond.name} ∧
      (analyzeInstruction p instr st).defs = st.defs ∧
      (st.defAt p = ∅ → (analyzeInstruction p instr st).defAt p = ∅) := by
  have ha : instr.isAlloca = false := by simp [Instruction.isAlloca, hk]
  have hr : instr.isRet = false := by simp [Instruction.isRet, hk]
  have hb : instr.isBranch = true := by simp [Instruction.isBranch, hk]
  have hcond : instr.isConditional = true := by simp [Instruction.isConditional, hk]
  have e : analyzeInstruction p instr st = { st with uses := st.uses.set p {cond.name} } := by
    unfold analyzeInstruction
    simp only [ha, hr, Bool.or_self, Bool.false_eq_true, ↓reduceIte, hops]
    rw [analyzeOperands]
    simp only [hc, hb, hcond, ↓reduceIte]
  rw [e]
  refine ⟨?_, rfl, fun h => h⟩
  simp [PassState.useAt, PtrMap.getD_set]

/-- The conditional-branch rule at `br %c, label %then, label %else`, analysed
from a fresh state. -/
theorem conditional_branch_rule_witness :
    (analyzeInstruction ⟨0, 0, 0⟩ condBranch PassState.fresh).useAt ⟨0, 0, 0⟩ = {"c"} ∧
      (analyzeInstruction ⟨0, 0, 0⟩ condBranch PassState.fresh).defAt ⟨0, 0, 0⟩ = ∅ :=
  have h := conditional_branch_rule ⟨0, 0, 0⟩ condBranch PassState.fresh
    ⟨1, .instruction, "c"⟩ [⟨12, .basicBlock, "else"⟩, ⟨11, .basicBlock, "then"⟩] rfl rfl rfl
  ⟨h.1, h.2.2 rfl⟩

/-- C15: for every store whose operand 1, the storage target, is an instruction
result or a function argument, `analyzeInstruction` records the def set
`{name of the target}`, whatever the stored value `v` is: a constant, another
tracked value, or the target itself (a `Value *` equal to the target's has the
target's name). -/
theorem store_rule (p : InstPtr) (instr : Instruction) (st : PassState) (v t : Value)
    (hk : instr.kind = InstKind.store) (hops : instr.operands = [v, t])
    (ht : t.isInstOrArg = true) (hid : v.addr = t.addr → v.name = t.name) :
    (analyzeInstruction p instr st).defAt p = {t.name} := by
  have ha : instr.isAlloca = false := by simp [Instruction.isAlloca, hk]
  have hr : instr.isRet = false := by simp [Instruction.isRet, hk]
  have hb : instr.isBranch = false := by simp [Instruction.isBranch, hk]
  have hs : instr.isStore = true := by simp [Instruction.isStore, hk]
  have hget : instr.operands.get? 1 = some t := by rw [hops]; rfl
  rw [(analyzeInstruction_at p instr st).1]
  unfold instrDefEffect
  simp only [ha, hr, Bool.or_self, Bool.false_eq_true, ↓reduceIte]
  have ht2 : defEffect instr [t] (st.defAt p) = {t.name} := by
    rw [defEffect]
    simp only [ht, hb, hs, hget, Option.any_some, decide_True, Bool.and_self,
      Bool.false_eq_true, ↓reduceIte]
  rw [hops, defEffect]
  cases hv : v.isInstOrArg with
  | false => simpa only [Bool.false_eq_true, ↓reduceIte] using ht2
  | true =>
    simp only [hb, hs, hget, Option.any_some, Bool.true_and, Bool.false_eq_true, ↓reduceIte]
    by_cases hsame : v.addr = t.addr
    · simp only [hsame, decide_True, ↓reduceIte, hid hsame]
    · simp only [hsame, decide_False, Bool.false_eq_true, ↓reduceIte]
      exact ht2

/-- The store rule at `store %v, %p`, analysed from a fresh state. -/
theorem store_rule_witness :
    (analyzeInstruction ⟨0, 0, 0⟩ storeVP PassState.fresh).defAt ⟨0, 0, 0⟩ = {"p"} :=
  store_rule ⟨0, 0, 0⟩ storeVP PassState.fresh ⟨1, .instruction, "v"⟩ ⟨2, .argument, "p"⟩
    rfl rfl rfl (fun h => absurd h (by decide))

/-- C16: for every allocation and every return, whatever its operands,
`analyzeInstruction` leaves the pass state as it is.  So when no def and no
use was recorded for the instruction before, none is recorded after, both
sets are empty, and the solver, which reads them as empty, computes
`liveTemp = after` at the instruction. -/
theorem alloca_ret_rule (p : InstPtr) (instr : Instruction) (st : PassState)
    (h : instr.isAlloca = true ∨ instr.isRet = true) :
    analyzeInstruction p instr st = st ∧
      (st.defs.find p = none → st.uses.find p = none →
        (analyzeInstruction p instr st).defs.find p = none ∧
        (analyzeInstruction p instr st).uses.find p = none ∧
        (analyzeInstruction p instr st).defAt p = ∅ ∧
        (analyzeInstruction p instr st).useAt p = ∅ ∧
        ∀ bb, (analyzeInstruction p instr st).tempAt p bb instr
          = (analyzeInstruction p instr st).afterAt p bb instr) := by
  have e : analyzeInstruction p instr st = st := by
    unfold analyzeInstruction
    rcases h with h | h <;> simp [h]
  refine ⟨e, ?_⟩
  intro hd hu
  rw [e]
  have hd2 : st.defAt p = ∅ := by simp [PassState.defAt, PtrMap.getD, hd]
  have hu2 : st.useAt p = ∅ := by simp [PassState.useAt, PtrMap.getD, hu]
  refine ⟨hd, hu, hd2, hu2, ?_⟩
  intro bb
  simp [PassState.tempAt, liveTemp, hd2, hu2]

/-- The allocation/return rule at `%a = alloca i32` and at `ret %y`, analysed from
a fresh state: no def and no use is recorded. -/
theorem alloca_ret_rule_witness :
    (analyzeInstruction ⟨0, 0, 0⟩ allocaA PassState.fresh).defs.find ⟨0, 0, 0⟩ = none ∧
      (analyzeInstruction ⟨0, 0, 0⟩ allocaA PassState.fresh).uses.find ⟨0, 0, 0⟩ = none ∧
      (analyzeInstruction ⟨0, 0, 2⟩ ⟨.ret, "", [⟨2, .instruction, "y"⟩], []⟩
        PassState.fresh).useAt ⟨0, 0, 2⟩ = ∅ :=
  have h1 := (alloca_ret_rule ⟨0, 0, 0⟩ allocaA PassState.fresh (Or.inl rfl)).2 rfl rfl
  have h2 := (alloca_ret_rule ⟨0, 0, 2⟩ ⟨.ret, "", [⟨2, .instruction, "y"⟩], []⟩
    PassState.fresh (Or.inr rfl)).2 rfl rfl
  ⟨h1.1, h1.2.1, h2.2.2.2.1⟩

/-! ## The histogram: `increment` and `printHistogram` -/

/-- C22, as stated, fails at the ends of the `unsigned` range: incrementing a
bucket that holds `2 ^ 32 - 1` leaves 0 in it, and `increment(2 ^ 32 - 1)` on
an empty histogram computes the new size `c + 1` as 0 and leaves the vector
empty. -/
theorem increment_counterexample :
    increment [4294967295] 0 = [0] ∧ increment [] 4294967295 = [] := by
  refine ⟨by decide, by decide⟩

/-- C22, amended: for every histogram, every index `c < 2 ^ 32 - 1` whose bucket
holds less than `2 ^ 32 - 1`, `increment(c)` adds exactly 1 to bucket `c`,
leaves the value of every other bucket (a missing bucket reads 0, so the
newly created ones other than `c` hold 0) and makes the length
`max(old length, c + 1)`.  Hence after any sequence of fewer than `2 ^ 32`
increments with indices below `2 ^ 32 - 1` from the empty histogram, bucket
`k` holds the number of increments with index `k`, every index seen is below
the length, and the length is 1 + one of the indices seen (so 1 + the
maximum), 0 when there was none. -/
theorem increment_spec (counts : List Nat) (c : Nat) (hc : c < 4294967295)
    (hb : counts.getD c 0 < 4294967295) :
    (increment counts c).getD c 0 = counts.getD c 0 + 1 ∧
      (∀ k, k ≠ c → (increment counts c).getD k 0 = counts.getD k 0) ∧
      (increment counts c).length = max counts.length (c + 1) ∧
      (∀ cs : List Nat, (∀ i ∈ cs, i < 4294967295) → cs.length < 4294967296 →
        (∀ k, (cs.foldl increment []).getD k 0 = cs.count k) ∧
        (∀ i ∈ cs, i < (cs.foldl increment []).length) ∧
        (cs ≠ [] → ∃ i ∈ cs, (cs.foldl increment []).length = i + 1) ∧
        (cs = [] → (cs.foldl increment []).length = 0)) := by
  rw [increment_eq_bump counts c hc hb]
  refine ⟨?_, ?_, bump_length counts c, ?_⟩
  · rw [bump_getD, if_pos rfl]
  · intro k hk
    rw [bump_getD, if_neg hk, Nat.add_zero]
  · intro cs hcs hlen
    rw [foldl_increment_eq_bump cs [] hcs (by simpa using hlen)]
    obtain ⟨h1, -, h3⟩ := foldl_bump_length cs []
    refine ⟨?_, h1, ?_, ?_⟩
    · intro k
      rw [foldl_bump_getD]
      simp
    · intro hne
      rcases h3 with h3 | h3
      · cases cs with
        | nil => exact absurd rfl hne
        | cons i cs =>
          have := h1 i (List.mem_cons_self _ _)
          rw [h3] at this
          simp at this
      · exact h3
    · intro he
      subst he
      rfl

/-- The amended `increment` rule on the histogram `[1, 1]` with index 3, and on the
sequence of increments 1, 0, 1 from the empty histogram, which gives
`[1, 2]`. -/
theorem increment_spec_witness :
    (increment [1, 1] 3).getD 3 0 = 1 ∧ (increment [1, 1] 3).length = 4 ∧
      (([1, 0, 1] : List Nat).foldl increment []).getD 1 0 = 2 :=
  have h := increment_spec [1, 1] 3 (by decide) (by decide)
  ⟨h.1, h.2.2.1, (h.2.2.2 [1, 0, 1] (by decide) (by decide)).1 1⟩

theorem printFrom_eq (counts : List Nat) (k i : Nat) (out : List String) :
    printFrom counts i k out = out ++ (List.range' i k).map (histogramLine counts) := by
  induction k generalizing i out with
  | zero => simp [printFrom]
  | succ k ih =>
    rw [printFrom, ih, List.range'_succ, List.map_cons, List.append_assoc]
    rfl

/-- C23: for every histogram vector of length `n` (below `2 ^ 32`, as every
vector `increment` builds is), `printHistogram` writes exactly `n` lines, for
the indices 0 to `n - 1` in increasing order, line `i` being the decimal
index `i`, then `": "`, then the decimal count of bucket `i` and a newline,
whether the count is 0 or not; for an empty histogram it writes nothing. -/
theorem printHistogram_spec (counts : List Nat) (h : counts.length < 4294967296) :
    printHistogram counts = (List.range counts.length).map
        (fun i => toString i ++ ": " ++ toString (counts.getD i 0) ++ "\n") ∧
      (printHistogram counts).length = counts.length ∧
      (∀ i, i < counts.length → (printHistogram counts).get? i
        = some (toString i ++ ": " ++ toString (counts.getD i 0) ++ "\n")) ∧
      printHistogram [] = [] := by
  have e : printHistogram counts = (List.range counts.length).map (histogramLine counts) := by
    unfold printHistogram
    rw [printFrom_eq, wrapUnsigned_of_lt _ h, List.nil_append, List.range_eq_range']
  refine ⟨e, ?_, ?_, rfl⟩
  · rw [e, List.length_map, List.length_range]
  · intro i hi
    rw [e, List.get?_map, List.get?_range hi]
    rfl

/-- The rendering of the histogram `[1, 0, 2]`: three lines, the empty bucket
included. -/
theorem printHistogram_spec_witness :
    printHistogram [1, 0, 2] = ["0: 1\n", "1: 0\n", "2: 2\n"] := by
  rw [(printHistogram_spec [1, 0, 2] (by decide)).1]
  decide

/-! ## Invariants of the recorded and stored sets -/

/-- C24: after `analyzeFunction`, started from a pass state whose def sets hold at
most one name each (a fresh state holds none), the def set recorded for every
instruction, of whatever class, holds at most one name. -/
theorem single_name_def (fn : Nat) (F : Function) (st0 : PassState)
    (h0 : ∀ p, (st0.defAt p).card ≤ 1) (p : InstPtr) :
    ((analyzeFunction fn F st0).defAt p).card ≤ 1 :=
  analyzeFunction_defAt_card fn F st0 h0 p

/-- The single-name invariant at the straight-line function, analysed from a fresh
state, for its instruction `I2`. -/
theorem single_name_def_witness :
    ((analyzeFunction 0 straightLine PassState.fresh).defAt ⟨0, 0, 1⟩).card ≤ 1 :=
  single_name_def 0 straightLine PassState.fresh (fun _ => Nat.zero_le _) ⟨0, 0, 1⟩

/-- C26: when the solver visits an instruction that is not a terminator (so not a
return) and the instruction that follows it has no entry in `live`, the visit
is carried out with the following live set taken as empty: `after` is `∅`,
the set stored for the visited instruction is its old set with its `def` set
added, and the stored sets and `liveSetChanged` are those of the same visit
in the state where the following instruction has the recorded live set `∅`. -/
theorem missing_entry_defaults (p : InstPtr) (bb : BasicBlock) (instr : Instruction)
    (st : PassState) (c : Bool) (j : Nat) (ht : instr.isTerminator = false)
    (hn : getNextNonDebugInstruction bb p.idx = some j)
    (hmiss : st.live.find ⟨p.fn, p.bb, j⟩ = none) :
    st.afterAt p bb instr = ∅ ∧
      (visit p bb instr (st, c)).1.liveAt p = st.liveAt p ∪ st.defAt p ∧
      (∀ q, (visit p bb instr (st, c)).1.liveAt q =
        (visit p bb instr ({ st with live := st.live.set ⟨p.fn, p.bb, j⟩ ∅ }, c)).1.liveAt q) ∧
      (visit p bb instr (st, c)).2 =
        (visit p bb instr ({ st with live := st.live.set ⟨p.fn, p.bb, j⟩ ∅ }, c)).2 := by
  have hempty : st.liveAt ⟨p.fn, p.bb, j⟩ = ∅ := by
    simp [PassState.liveAt, PtrMap.getD, hmiss]
  have hafter : st.afterAt p bb instr = ∅ := by
    rw [afterAt_of_next st p bb instr j ht hn, hempty]
  have hsame : SameSets st { st with live := st.live.set ⟨p.fn, p.bb, j⟩ ∅ } := by
    intro q
    simp only [PassState.setsAt, PassState.liveAt, PassState.defAt, PassState.useAt,
      PtrMap.getD_set]
    by_cases hq : (⟨p.fn, p.bb, j⟩ : InstPtr) = q
    · subst hq
      rw [if_pos rfl]
      simp [PtrMap.getD, hmiss]
    · rw [if_neg hq]
  have hcongr := visit_congr p bb instr (st, c)
    ({ st with live := st.live.set ⟨p.fn, p.bb, j⟩ ∅ }, c) ⟨hsame, rfl⟩
  refine ⟨hafter, ?_, fun q => hcongr.1.liveAt q, hcongr.2⟩
  rw [visit_liveAt, if_pos rfl]
  simp [PassState.tempAt, liveTemp, hafter]

/-- The default at the first instruction of the straight-line block in a fresh
state, where no live set is recorded: its visit stores its def set. -/
theorem missing_entry_defaults_witness :
    (visit ⟨0, 0, 0⟩ [addXOne, callVoid] addXOne
        (analyzeInstruction ⟨0, 0, 0⟩ addXOne PassState.fresh, true)).1.liveAt ⟨0, 0, 0⟩
      = {"y"} := by
  rw [(missing_entry_defaults ⟨0, 0, 0⟩ [addXOne, callVoid] addXOne
    (analyzeInstruction ⟨0, 0, 0⟩ addXOne PassState.fresh) true 1 rfl rfl rfl).2.1]
  decide

/-! ## Termination and content of the stored sets -/

/-- C27: exact termination condition.  Let `F` have at least one block and let the
pass loop run on the state `analyzeFunction` left.  If some instruction of `F`
has a non-empty recorded def set, the first pass leaves `liveSetChanged` set,
the second clears it, and the loop returns the state after exactly two passes
as soon as the fuel allows two passes (with less it is still running),
whatever the control-flow graph.  If no instruction of `F` has one (and no
live set is stored for an address of `F` that is not an instruction, as in a
fresh state), the loop is still running after any number of passes. -/
theorem exact_termination (fn : Nat) (F : Function) (st0 : PassState) (_hF : F ≠ []) :
    ((∃ p instr, instrAt fn F p = some instr ∧ (analyzeFunction fn F st0).defAt p ≠ ∅) →
      (fullPass fn F (analyzeFunction fn F st0, true)).2 = true ∧
      (fullPass fn F (fullPass fn F (analyzeFunction fn F st0, true))).2 = false ∧
      ∀ fuel, passLoop fn F fuel (analyzeFunction fn F st0, true) =
        if 2 ≤ fuel then
          some (fullPass fn F (fullPass fn F (analyzeFunction fn F st0, true))).1
        else none) ∧
    ((∀ q, q.fn = fn → instrAt fn F q = none → st0.liveAt q = ∅) →
      (¬ ∃ p instr, instrAt fn F p = some instr ∧ (analyzeFunction fn F st0).defAt p ≠ ∅) →
      ∀ fuel, passLoop fn F fuel (analyzeFunction fn F st0, true) = none) := by
  refine ⟨passLoop_analyzed fn F st0, ?_⟩
  · intro h0 hno fuel
    apply passLoop_none
    refine ⟨rfl, ?_, ?_⟩
    · intro q hq
      show (analyzeFunction fn F st0).liveAt q = ∅
      rw [analyzeFunction_liveAt]
      cases hi : instrAt fn F q with
      | none => exact h0 q hq hi
      | some i => rfl
    · intro e he
      by_contra hne
      exact hno ⟨e.1, e.2.2, (visits_mem_instrAt fn F e he).1, hne⟩

/-- The termination condition at the straight-line function, analysed from a fresh
state (two passes, then the loop returns) and at `ret void`, which has no def
set (the loop is still running after 5 passes). -/
theorem exact_termination_witness :
    (∀ fuel, passLoop 0 straightLine fuel (analyzeFunction 0 straightLine PassState.fresh, true) =
        if 2 ≤ fuel then
          some (fullPass 0 straightLine
            (fullPass 0 straightLine (analyzeFunction 0 straightLine PassState.fresh, true))).1
        else none) ∧
      passLoop 0 retOnly 5 (analyzeFunction 0 retOnly PassState.fresh, true) = none :=
  ⟨((exact_termination 0 straightLine PassState.fresh (by decide)).1
      ⟨⟨0, 0, 0⟩, _, rfl, by decide⟩).2.2,
    (exact_termination 0 retOnly PassState.fresh (by decide)).2 (fun _ _ _ => rfl)
      (by
        rintro ⟨p, instr, hp, hne⟩
        apply hne
        rw [analyzeFunction_defAt, hp]
        obtain ⟨bb, -, hb, hk⟩ := instrAt_get 0 retOnly p instr hp
        have hr : instr.isRet = true := by
          have hmem : instr ∈ (⟨.ret, "", [], []⟩ :: [] : List Instruction) := by
            have hbb : bb ∈ retOnly := List.get?_mem hb
            have hi : instr ∈ bb := List.get?_mem hk
            simp only [retOnly, List.mem_singleton] at hbb
            rw [hbb] at hi
            exact hi
          rw [List.mem_singleton] at hmem
          rw [hmem]
          rfl
        simp [instrDefEffect, hr]
        rfl) 5⟩

/-- C28: what the stored sets contain.  When `analyzeFunction` followed by
`livenessAnalysis` returns, every instruction of the function has its def set
inside its live set, and every name that is in both its live set and its use
set is in its def set; and each visit of an instruction adds exactly
`(after \ use) ∪ def` to its stored live set: the recorded use set is what is
subtracted, the recorded def set is what is added. -/
theorem stored_sets_content (fuel fn : Nat) (F : Function) (st0 st : PassState)
    (h : livenessAnalysis fuel fn F (analyzeFunction fn F st0) = some st) :
    (∀ p instr, instrAt fn F p = some instr →
      st.defAt p ⊆ st.liveAt p ∧
        ∀ name, name ∈ st.liveAt p → name ∈ st.useAt p → name ∈ st.defAt p) ∧
    ∀ (x : PassState × Bool) (p : InstPtr) (bb : BasicBlock) (instr : Instruction),
      (visit p bb instr x).1.liveAt p =
        x.1.liveAt p ∪ ((x.1.afterAt p bb instr \ x.1.useAt p) ∪ x.1.defAt p) := by
  obtain ⟨s1, hloop, hst⟩ := livenessAnalysis_eq_some fuel fn F _ st h
  refine ⟨?_, ?_⟩
  · intro p instr hp
    have hl : st.liveAt p = s1.liveAt p := by rw [hst]; rfl
    have hd : st.defAt p = s1.defAt p := by rw [hst]; rfl
    have hu : st.useAt p = s1.useAt p := by rw [hst]; rfl
    rw [hl, hd, hu]
    refine ⟨?_, ?_⟩
    · obtain ⟨fuel2, hloop2⟩ := passLoop_first_pass fn F fuel _ s1 hloop
      obtain ⟨bb, hmem⟩ := instrAt_mem_visits fn F p instr hp
      apply passLoop_invariant (fun t => t.defAt p ⊆ t.liveAt p) fn F _ fuel2 _ s1 _ hloop2
      · intro b bb2 k i x _ _ hx
        rw [visit_defAt]
        exact Finset.Subset.trans hx (visit_liveAt_subset _ _ _ _ _)
      · show (fullPass fn F (analyzeFunction fn F st0, true)).1.defAt p ⊆
          (fullPass fn F (analyzeFunction fn F st0, true)).1.liveAt p
        rw [fullPass_eq_visitAll, visitAll_defAt]
        exact visitAll_def_subset_live _ _ _ hmem
    · apply passLoop_invariant
        (fun t => ∀ name, name ∈ t.liveAt p → name ∈ t.useAt p → name ∈ t.defAt p)
        fn F _ fuel _ s1 _ hloop
      · intro b bb2 k i x _ _ hx name hn hu
        rw [visit_useAt] at hu
        rw [visit_defAt]
        rw [visit_liveAt] at hn
        split at hn
        · rename_i hpq
          subst hpq
          simp only [PassState.tempAt, liveTemp, Finset.mem_union, Finset.mem_sdiff] at hn
          rcases hn with hn | hn | hn
          · exact hx name hn hu
          · exact absurd hu hn.2
          · exact hn
        · exact hx name hn hu
      · intro name hn
        have he : (analyzeFunction fn F st0).liveAt p = ∅ := by
          rw [analyzeFunction_liveAt, hp]
        rw [show ((analyzeFunction fn F st0, true) : PassState × Bool).1.liveAt p = ∅ from he]
          at hn
        exact absurd hn (Finset.not_mem_empty _)
  · intro x p bb instr
    rw [visit_liveAt, if_pos rfl]
    rfl

/-- The content of the stored sets at the straight-line function, analysed from a
fresh state, for its instruction `I2`, whose use set `{x}` and live set `{y}`
are disjoint. -/
theorem stored_sets_content_witness :
    ∃ st, livenessAnalysis 2 0 straightLine (analyzeFunction 0 straightLine PassState.fresh)
        = some st ∧
      st.defAt ⟨0, 0, 1⟩ ⊆ st.liveAt ⟨0, 0, 1⟩ ∧
      ∀ name, name ∈ st.liveAt ⟨0, 0, 1⟩ → name ∈ st.useAt ⟨0, 0, 1⟩ →
        name ∈ st.defAt ⟨0, 0, 1⟩ :=
  ⟨_, rfl, (stored_sets_content 2 0 straightLine PassState.fresh _ rfl).1 ⟨0, 0, 1⟩
    ⟨.generic, "y", [⟨1, .instruction, "x"⟩, ⟨100, .constant, ""⟩], []⟩ rfl⟩

/-- C25: bounded name universe.  Start from a pass state whose def sets hold at most
one name each and that stores no live set for an address of `F` that is not
an instruction (a fresh state, or the state left by the analysis of other
functions).  When `analyzeFunction` followed by `livenessAnalysis` returns on
the function `F` of `N` instructions, every live set stored for `F` holds at
most `N` names; and when the start state is the fresh one, the histogram has
at most `N + 1` buckets. -/
theorem bounded_name_universe (fuel fn : Nat) (F : Function) (st0 st : PassState)
    (ha : ∀ p, (st0.defAt p).card ≤ 1)
    (hb : ∀ q, q.fn = fn → instrAt fn F q = none → st0.liveAt q = ∅)
    (h : livenessAnalysis fuel fn F (analyzeFunction fn F st0) = some st) :
    (∀ p, p.fn = fn → (st.liveAt p).card ≤ instrCount F) ∧
      (st0 = PassState.fresh → st.counts.length ≤ instrCount F + 1) := by
  obtain ⟨s1, hloop, hst⟩ := livenessAnalysis_eq_some fuel fn F _ st h
  have hcard := passLoop_live_card fn F fuel st0 s1 ha hb hloop
  refine ⟨?_, ?_⟩
  · intro p hp
    have hl : st.liveAt p = s1.liveAt p := by rw [hst]; rfl
    rw [hl]
    exact hcard p hp
  · intro hfresh
    subst hfresh
    have hkeys := (analyzeFunction_keys fn F PassState.fresh).1
    have hnd : s1.live.keys.Nodup := by
      apply passLoop_keys_nodup fn F fuel (analyzeFunction fn F PassState.fresh, true) s1 _ hloop
      show (analyzeFunction fn F PassState.fresh).live.keys.Nodup
      rw [hkeys]
      exact foldl_addKey_nodup _ _ List.nodup_nil
    have hfn : ∀ q ∈ s1.live.keys, q.fn = fn := by
      apply passLoop_keys_fn fn F fuel (analyzeFunction fn F PassState.fresh, true) s1 _ hloop
      show ∀ q ∈ (analyzeFunction fn F PassState.fresh).live.keys, q.fn = fn
      rw [hkeys]
      intro q hq
      rcases (mem_foldl_addKey _ _ q).mp hq with h1 | h1
      · exact absurd h1 (List.not_mem_nil _)
      · obtain ⟨e, he, rfl⟩ := List.mem_map.mp h1
        exact (visits_mem_instrAt fn F e he).2
    have hcounts : s1.counts = [] := by
      rw [passLoop_counts fn F fuel _ s1 hloop]
      exact (analyzeFunction_keys fn F PassState.fresh).2
    have hc : st.counts = countLive s1.live s1.counts := by rw [hst]
    rw [hc, hcounts, countLive_eq_foldl]
    have hle := foldl_increment_length_le (s1.live.map (fun e => wrapUnsigned e.2.card)) []
      (instrCount F) ?_
    · simpa using hle
    · intro c hc2
      obtain ⟨e, he, rfl⟩ := List.mem_map.mp hc2
      have hk : e.1 ∈ s1.live.keys := List.mem_map.mpr ⟨e, he, rfl⟩
      have hfind := PtrMap.find_of_mem s1.live hnd e he
      have hset : s1.liveAt e.1 = e.2 := by
        unfold PassState.liveAt PtrMap.getD
        rw [hfind]
        rfl
      have := hcard e.1 (hfn e.1 hk)
      rw [hset] at this
      exact le_trans (Nat.mod_le _ _) this

/-- The bound at the straight-line function of three instructions, analysed from a
fresh state: every live set holds at most 3 names and the histogram has at
most 4 buckets. -/
theorem bounded_name_universe_witness :
    ∃ st, livenessAnalysis 2 0 straightLine (analyzeFunction 0 straightLine PassState.fresh)
        = some st ∧
      (∀ p, p.fn = 0 → (st.liveAt p).card ≤ instrCount straightLine) ∧
      st.counts.length ≤ instrCount straightLine + 1 :=
  have h := bounded_name_universe 2 0 straightLine PassState.fresh _ (fun _ => Nat.zero_le _)
    (fun _ _ _ => rfl) rfl
  ⟨_, rfl, h.1, h.2 rfl⟩

/-- C30: forward-only graphs are solved exactly.  Let every successor of every
terminator of `F` be a block strictly later than the terminator's own block,
and let some instruction have a non-empty def set after `analyzeFunction`.
Then `livenessAnalysis` returns (two passes are enough), and whenever it
returns, every instruction satisfies `live(i) = (after(i) \ use(i)) ∪ def(i)`,
the equation the code iterates, with `after(i)` computed from the final live
sets (`∅` for a return, the union over the first instructions of the
successor blocks for another terminator, the set of the next instruction
otherwise), and a further pass changes no stored live set. -/
theorem forward_only_exact (fn : Nat) (F : Function) (st0 : PassState)
    (hfw : forwardOnly F = true)
    (hdef : ∃ p instr, instrAt fn F p = some instr ∧ (analyzeFunction fn F st0).defAt p ≠ ∅) :
    (∃ st, livenessAnalysis 2 fn F (analyzeFunction fn F st0) = some st) ∧
    ∀ fuel st, livenessAnalysis fuel fn F (analyzeFunction fn F st0) = some st →
      (∀ b bb k instr, F.get? b = some bb → bb.get? k = some instr →
        st.liveAt ⟨fn, b, k⟩ =
          (st.afterAt ⟨fn, b, k⟩ bb instr \ st.useAt ⟨fn, b, k⟩) ∪ st.defAt ⟨fn, b, k⟩) ∧
      ∀ c q, (fullPass fn F (st, c)).1.liveAt q = st.liveAt q := by
  refine ⟨?_, ?_⟩
  · have h := (passLoop_analyzed fn F st0 hdef).2.2 2
    rw [if_pos (le_refl 2)] at h
    exact ⟨_, by rw [livenessAnalysis, h]; rfl⟩
  · intro fuel st h
    obtain ⟨s1, hloop, hst⟩ := livenessAnalysis_eq_some fuel fn F _ st h
    obtain ⟨fuel2, hloop2⟩ := passLoop_first_pass fn F fuel _ s1 hloop
    have hsolved1 : ∀ e ∈ visits fn F,
        (fullPass fn F (analyzeFunction fn F st0, true)).1.liveAt e.1 =
          (fullPass fn F (analyzeFunction fn F st0, true)).1.tempAt e.1 e.2.1 e.2.2 := by
      rw [fullPass_eq_visitAll]
      apply visitAll_solved fn F hfw _ (fun e he => he) (visits_pairwise fn F)
      intro e he
      show (analyzeFunction fn F st0).liveAt e.1 = ∅
      rw [analyzeFunction_liveAt, (visits_mem_instrAt fn F e he).1]
    have hsame1 : SameSets s1 (fullPass fn F (analyzeFunction fn F st0, true)).1 :=
      passLoop_fixed fn F fuel2 _ s1 hsolved1 hloop2
    have hsame : SameSets st s1 := by
      intro q
      rw [hst]
      rfl
    have hsolved : ∀ e ∈ visits fn F, st.liveAt e.1 = st.tempAt e.1 e.2.1 e.2.2 := by
      intro e he
      rw [hsame.liveAt, hsame.tempAt, hsame1.liveAt, hsame1.tempAt]
      exact hsolved1 e he
    refine ⟨?_, ?_⟩
    · intro b bb k instr hb hk
      exact hsolved (⟨fn, b, k⟩, bb, instr) ((visits_mem fn F _).mpr ⟨b, bb, k, instr, hb, hk, rfl⟩)
    · intro c q
      rw [fullPass_eq_visitAll]
      exact (visitAll_fixed (visits fn F) (st, c) hsolved).liveAt q

/-- The exact solution at the diamond, analysed from a fresh state: the analysis
returns after two passes, the equation holds at every instruction and a
further pass changes nothing. -/
theorem forward_only_exact_witness :
    ∃ st, livenessAnalysis 2 0 diamond (analyzeFunction 0 diamond PassState.fresh) = some st ∧
      (∀ b bb k instr, diamond.get? b = some bb → bb.get? k = some instr →
        st.liveAt ⟨0, b, k⟩ =
          (st.afterAt ⟨0, b, k⟩ bb instr \ st.useAt ⟨0, b, k⟩) ∪ st.defAt ⟨0, b, k⟩) ∧
      ∀ c q, (fullPass 0 diamond (st, c)).1.liveAt q = st.liveAt q :=
  ⟨_, rfl, (forward_only_exact 0 diamond PassState.fresh (by decide)
    ⟨⟨0, 0, 0⟩, ⟨.generic, "c", [⟨1, .argument, "a"⟩, ⟨100, .constant, ""⟩], []⟩, rfl,
      by decide⟩).2 2 _ rfl⟩

/-! ## The content of the histogram -/

/-- C17: histogram content.  Let `F` be well formed (every block non-empty and
ended by its only terminator, every successor a block of `F`) with fewer than
`2 ^ 32 - 1` instructions.  When `analyzeFunction` followed by
`livenessAnalysis` returns from a fresh pass state, bucket `k` of the
histogram (0 beyond the end of the vector) is, for every `k`, the number of
instructions of `F` whose final stored live set has exactly `k` names; the
instructions are enumerated once each by `instrPtrs`. -/
theorem histogram_content (fuel fn : Nat) (F : Function) (st : PassState)
    (hwf : wellFormed F = true) (hN : instrCount F < 4294967295)
    (h : livenessAnalysis fuel fn F (analyzeFunction fn F PassState.fresh) = some st) :
    (∀ k, st.counts.getD k 0 =
        (instrPtrs fn F).countP (fun p => decide ((st.liveAt p).card = k))) ∧
      (instrPtrs fn F).Nodup ∧
      ∀ p, p ∈ instrPtrs fn F ↔ ∃ instr, instrAt fn F p = some instr := by
  refine ⟨?_, instrPtrs_nodup fn F, mem_instrPtrs fn F⟩
  intro k
  obtain ⟨-, -, hcounts, -, hcard⟩ := livenessAnalysis_step fuel fn F PassState.fresh st hwf
    List.nodup_nil (fun p hp => absurd hp (List.not_mem_nil _)) h
  obtain ⟨hcardF, -⟩ := hcard (fun _ => Nat.zero_le _)
  have hfn : ∀ p ∈ instrPtrs fn F, p.fn = fn := by
    intro p hp
    obtain ⟨i, hi⟩ := (mem_instrPtrs fn F p).mp hp
    exact instrAt_fn fn F p i hi
  have hkeys : PassState.fresh.live.keys ++ instrPtrs fn F = instrPtrs fn F := rfl
  rw [hkeys] at hcounts
  have hwrap : ∀ p ∈ instrPtrs fn F, wrapUnsigned (st.liveAt p).card = (st.liveAt p).card := by
    intro p hp
    apply wrapUnsigned_of_lt
    have := hcardF p (hfn p hp)
    omega
  rw [hcounts, foldl_increment_eq_bump, foldl_bump_getD, count_map_eq_countP]
  · have : PassState.fresh.counts.getD k 0 = 0 := rfl
    rw [this, Nat.zero_add]
    apply List.countP_congr
    intro p hp
    rw [hwrap p hp]
  · intro i hi
    obtain ⟨p, hp, rfl⟩ := List.mem_map.mp hi
    rw [hwrap p hp]
    have := hcardF p (hfn p hp)
    omega
  · rw [List.length_map, instrPtrs_length]
    have : PassState.fresh.counts.sum = 0 := rfl
    omega

/-- The histogram of the straight-line function, analysed from a fresh state:
bucket `k` counts the instructions whose live set has `k` names. -/
theorem histogram_content_witness :
    ∃ st, livenessAnalysis 2 0 straightLine (analyzeFunction 0 straightLine PassState.fresh)
        = some st ∧
      ∀ k, st.counts.getD k 0 =
        (instrPtrs 0 straightLine).countP (fun p => decide ((st.liveAt p).card = k)) :=
  ⟨_, rfl, (histogram_content 2 0 straightLine _ (by decide) (by decide) rfl).1⟩

/-- C29: module-level count multiplicity.  Let every function of the module be
well formed and let the expected number of increments stay below
`2 ^ 32 - 1`.  When `run` returns from a fresh pass state on the functions
`F1..Fn`, bucket `k` of the histogram holds, for every function `Fj`,
`n - j + 1` times the number of instructions of `Fj` whose final live set has
`k` names (every instruction of `Fj` is counted by the `livenessAnalysis` of
`Fj` and again by that of every later function, each time with its own final
live set), so the sum of the buckets is the sum of `(n - j + 1) * |Fj|`. -/
theorem module_count_multiplicity (fuel : Nat) (M : Module) (st : PassState)
    (hwf : ∀ F ∈ M, wellFormed F = true) (hN : expectedSum M < 4294967295)
    (h : run fuel M PassState.fresh = some st) :
    (∀ k, st.counts.getD k 0 = expectedBucket st k 0 M) ∧ st.counts.sum = expectedSum M := by
  obtain ⟨-, hsum, hbucket⟩ := runFunctions_counts fuel M 0 PassState.fresh st hwf List.nodup_nil
    (fun p hp => absurd hp (List.not_mem_nil _)) (fun _ => Nat.zero_le _)
    (fun p hp => absurd hp (List.not_mem_nil _))
    (by
      have h1 : PassState.fresh.counts.sum = 0 := rfl
      have h2 : PassState.fresh.live.keys.length = 0 := rfl
      rw [h1, h2, Nat.mul_zero]
      omega)
    h
  have h1 : PassState.fresh.counts.sum = 0 := rfl
  have h2 : PassState.fresh.live.keys = [] := rfl
  refine ⟨?_, ?_⟩
  · intro k
    have h3 : PassState.fresh.counts.getD k 0 = 0 := rfl
    rw [hbucket k, h2, h3]
    simp
  · rw [hsum, h1, h2]
    simp

/-- The multiplicity on the module of two functions `%x = add 1, 2; ret %x`: the
instructions of the first are counted twice, those of the second once, so the
buckets sum to `2 * 2 + 1 * 2 = 6`. -/
theorem module_count_multiplicity_witness :
    ∃ st, run 2 twoFunctions PassState.fresh = some st ∧
      (∀ k, st.counts.getD k 0 = expectedBucket st k 0 twoFunctions) ∧ st.counts.sum = 6 :=
  ⟨_, rfl, module_count_multiplicity 2 twoFunctions _ (by decide) (by decide) rfl⟩

/-- C31: live names come only from def sets.  Start from a pass state that stores
no live set for an address of `F` that is not an instruction (a fresh state,
or the state left by the analysis of other functions).  When
`analyzeFunction` followed by `livenessAnalysis` returns, every name of every
live set stored for `F` is in the def set recorded for some instruction of
`F`; so a name that is in no def set of `F` (an argument, or a value that is
only used) is in no live set of `F`. -/
theorem live_names_from_defs (fuel fn : Nat) (F : Function) (st0 st : PassState)
    (hb : ∀ q, q.fn = fn → instrAt fn F q = none → st0.liveAt q = ∅)
    (h : livenessAnalysis fuel fn F (analyzeFunction fn F st0) = some st) :
    (∀ p name, p.fn = fn → name ∈ st.liveAt p →
      ∃ j instr, instrAt fn F j = some instr ∧ name ∈ st.defAt j) ∧
    ∀ name, (∀ j instr, instrAt fn F j = some instr → name ∉ st.defAt j) →
      ∀ p, p.fn = fn → name ∉ st.liveAt p := by
  obtain ⟨s1, hloop, hst⟩ := livenessAnalysis_eq_some fuel fn F _ st h
  have hl : ∀ p, st.liveAt p = s1.liveAt p := by
    intro p
    rw [hst]
    rfl
  have hd : ∀ p, st.defAt p = (analyzeFunction fn F st0).defAt p := by
    intro p
    have : st.defs = s1.defs := by rw [hst]
    unfold PassState.defAt
    rw [this, (passLoop_defs_uses fn F fuel _ s1 hloop).1]
  have hsub := passLoop_live_subset fn F fuel (analyzeFunction fn F st0, true) s1
    (defNames fn F (analyzeFunction fn F st0))
    (fun p instr hp => defAt_subset_defNames fn F (analyzeFunction fn F st0) p instr hp)
    (by
      intro q hq
      show (analyzeFunction fn F st0).liveAt q ⊆ _
      rw [analyzeFunction_liveAt]
      cases hi : instrAt fn F q with
      | none =>
        simp only
        rw [hb q hq hi]
        exact Finset.empty_subset _
      | some i => exact Finset.empty_subset _)
    hloop
  have hfirst : ∀ p name, p.fn = fn → name ∈ st.liveAt p →
      ∃ j instr, instrAt fn F j = some instr ∧ name ∈ st.defAt j := by
    intro p name hp hn
    rw [hl] at hn
    have hmem := hsub p hp hn
    unfold defNames at hmem
    rw [Finset.mem_biUnion] at hmem
    obtain ⟨j, hj, hname⟩ := hmem
    obtain ⟨instr, hinstr⟩ := (mem_instrPtrs fn F j).mp (List.mem_toFinset.mp hj)
    exact ⟨j, instr, hinstr, by rw [hd]; exact hname⟩
  refine ⟨hfirst, ?_⟩
  intro name hno p hp hn
  obtain ⟨j, instr, hj, hname⟩ := hfirst p name hp hn
  exact hno j instr hj hname

/-- The origin of the live names at the straight-line function, analysed from a
fresh state: every live name is in a def set, and a name that is in no def
set is in no live set. -/
theorem live_names_from_defs_witness :
    ∃ st, livenessAnalysis 2 0 straightLine (analyzeFunction 0 straightLine PassState.fresh)
        = some st ∧
      (∀ p name, p.fn = 0 → name ∈ st.liveAt p →
        ∃ j instr, instrAt 0 straightLine j = some instr ∧ name ∈ st.defAt j) ∧
      ∀ name, (∀ j instr, instrAt 0 straightLine j = some instr → name ∉ st.defAt j) →
        ∀ p, p.fn = 0 → name ∉ st.liveAt p :=
  ⟨_, rfl, live_names_from_defs 2 0 straightLine PassState.fresh _ (fun _ _ _ => rfl) rfl⟩

end LivenessAnalysis

namespace X86LivenessAnalysis

open LivenessAnalysis (InstPtr PtrMap PassState liveTemp storeLoop increment wrapUnsigned)

/-! ## The machine-register pass: extraction -/

theorem analyzeOperand_sets (p : InstPtr) (st : PassState) (o : MachineOperand) :
    (analyzeOperand p st o).defAt p = st.defAt p ∪ defRegNames [o] ∧
      (analyzeOperand p st o).useAt p = st.useAt p ∪ useRegNames [o] := by
  unfold analyzeOperand defRegNames useRegNames MachineOperand.isUse
  cases h1 : o.isReg <;> cases h2 : o.isPhysicalRegister <;> cases h3 : o.isDef <;>
    simp [List.filter, h1, h2, h3, PassState.defAt, PassState.useAt,
      LivenessAnalysis.PtrMap.getD_set, Finset.insert_eq, Finset.union_comm]

theorem defRegNames_cons (o : MachineOperand) (rest : List MachineOperand) :
    defRegNames (o :: rest) = defRegNames [o] ∪ defRegNames rest := by
  unfold defRegNames
  cases h : (o.isReg && o.isPhysicalRegister && o.isDef) <;>
    simp [List.filter, h, Finset.insert_eq]

theorem useRegNames_cons (o : MachineOperand) (rest : List MachineOperand) :
    useRegNames (o :: rest) = useRegNames [o] ∪ useRegNames rest := by
  unfold useRegNames
  cases h : (o.isReg && o.isPhysicalRegister && o.isUse) <;>
    simp [List.filter, h, Finset.insert_eq]

theorem foldl_analyzeOperand_sets (p : InstPtr) (ops : List MachineOperand) (st : PassState) :
    (ops.foldl (analyzeOperand p) st).defAt p = st.defAt p ∪ defRegNames ops ∧
      (ops.foldl (analyzeOperand p) st).useAt p = st.useAt p ∪ useRegNames ops := by
  induction ops generalizing st with
  | nil => simp [defRegNames, useRegNames]
  | cons o rest ih =>
    rw [List.foldl_cons, (ih _).1, (ih _).2, (analyzeOperand_sets p st o).1,
      (analyzeOperand_sets p st o).2, defRegNames_cons o rest, useRegNames_cons o rest,
      Finset.union_assoc, Finset.union_assoc]
    exact ⟨rfl, rfl⟩

theorem defRegNames_perm (l1 l2 : List MachineOperand) (h : l1.Perm l2) :
    defRegNames l1 = defRegNames l2 := by
  unfold defRegNames
  exact List.toFinset_eq_of_perm _ _ ((h.filter _).map _)

theorem useRegNames_perm (l1 l2 : List MachineOperand) (h : l1.Perm l2) :
    useRegNames l1 = useRegNames l2 := by
  unfold useRegNames
  exact List.toFinset_eq_of_perm _ _ ((h.filter _).map _)

/-- C20: for every machine instruction that is not a return, `analyzeInstruction`
adds to the def set of the instruction exactly the names of its operands that
are physical registers tagged def, and to its use set exactly the names of
those tagged use.  Called as `analyzeFunction` calls it, on the sets it has
just emptied, it records exactly these two sets.  An operand that is not a
register, or is a virtual register, leaves the state as it is, and an
instruction with the same operands in another order gets the same sets. -/
theorem machine_extraction (p : InstPtr) (instr : MachineInstr) (st : PassState)
    (hr : instr.isReturn = false) :
    ((analyzeInstruction p instr st).defAt p = st.defAt p ∪ defRegNames instr.operands ∧
      (analyzeInstruction p instr st).useAt p = st.useAt p ∪ useRegNames instr.operands) ∧
    ((analyzeInstruction p instr
        { st with live := st.live.set p ∅, uses := st.uses.set p ∅,
                  defs := st.defs.set p ∅ }).defAt p = defRegNames instr.operands ∧
      (analyzeInstruction p instr
        { st with live := st.live.set p ∅, uses := st.uses.set p ∅,
                  defs := st.defs.set p ∅ }).useAt p = useRegNames instr.operands) ∧
    (∀ o : MachineOperand, o.isReg = false ∨ o.isPhysicalRegister = false →
      analyzeOperand p st o = st) ∧
    (∀ instr2 : MachineInstr, instr2.isReturn = false → instr2.operands.Perm instr.operands →
      (analyzeInstruction p instr2 st).defAt p = (analyzeInstruction p instr st).defAt p ∧
      (analyzeInstruction p instr2 st).useAt p = (analyzeInstruction p instr st).useAt p) := by
  have hgen : ∀ (i : MachineInstr) (s : PassState), i.isReturn = false →
      (analyzeInstruction p i s).defAt p = s.defAt p ∪ defRegNames i.operands ∧
      (analyzeInstruction p i s).useAt p = s.useAt p ∪ useRegNames i.operands := by
    intro i s hi
    unfold analyzeInstruction
    simp only [hi, Bool.false_eq_true, ↓reduceIte]
    exact foldl_analyzeOperand_sets p i.operands s
  refine ⟨hgen instr st hr, ?_, ?_, ?_⟩
  · have h := hgen instr { st with live := st.live.set p ∅, uses := st.uses.set p ∅,
                                    defs := st.defs.set p ∅ } hr
    rw [h.1, h.2]
    simp [PassState.defAt, PassState.useAt, LivenessAnalysis.PtrMap.getD_set]
  · intro o ho
    unfold analyzeOperand
    rcases ho with ho | ho
    · simp [ho]
    · simp [ho]
  · intro instr2 hr2 hperm
    rw [(hgen instr2 st hr2).1, (hgen instr2 st hr2).2, (hgen instr st hr).1,
      (hgen instr st hr).2, defRegNames_perm _ _ hperm, useRegNames_perm _ _ hperm]
    exact ⟨rfl, rfl⟩

/-- The extraction at `$eax = ADD32ri $eax, 1`: def `{eax, eflags}`, use `{eax}`; the
immediate and the virtual register contribute nothing. -/
theorem machine_extraction_witness :
    (analyzeInstruction ⟨0, 0, 0⟩ addEax
        { PassState.fresh with
          live := PassState.fresh.live.set ⟨0, 0, 0⟩ ∅,
          uses := PassState.fresh.uses.set ⟨0, 0, 0⟩ ∅,
          defs := PassState.fresh.defs.set ⟨0, 0, 0⟩ ∅ }).defAt ⟨0, 0, 0⟩ = {"eax", "eflags"} ∧
      (analyzeInstruction ⟨0, 0, 0⟩ addEax
        { PassState.fresh with
          live := PassState.fresh.live.set ⟨0, 0, 0⟩ ∅,
          uses := PassState.fresh.uses.set ⟨0, 0, 0⟩ ∅,
          defs := PassState.fresh.defs.set ⟨0, 0, 0⟩ ∅ }).useAt ⟨0, 0, 0⟩ = {"eax"} := by
  have h := (machine_extraction ⟨0, 0, 0⟩ addEax PassState.fresh rfl).2.1
  rw [h.1, h.2]
  exact ⟨by decide, by decide⟩

/-! ## The machine-register pass: the solver -/

/-- A full pass over the worklist of `retOnlyMF` visits nothing. -/
theorem fullPass_retOnlyMF (x : PassState × Bool) :
    fullPass (worklist 0 retOnlyMF) x = x := by
  rfl

/-- C19: on the machine function of `void f() {}`, one block holding the single
instruction `RET`, the pass loop never exits: `lines` is 0, no pass visits
anything, and whatever the number of passes allowed, `livenessAnalysis` has
not returned. -/
theorem machine_termination_violated_retOnlyMF :
    (worklist 0 retOnlyMF).length = 1 ∧
    ∀ fuel, livenessAnalysis fuel 0 retOnlyMF (analyzeFunction 0 retOnlyMF PassState.fresh)
      = none := by
  refine ⟨rfl, ?_⟩
  intro fuel
  have h : ∀ st, passLoop (worklist 0 retOnlyMF) fuel (st, true) = none := by
    induction fuel with
    | zero => intro st; rfl
    | succ n ih =>
      intro st
      show passLoop (worklist 0 retOnlyMF) n (fullPass (worklist 0 retOnlyMF) (st, true)) = none
      rw [fullPass_retOnlyMF]
      exact ih st
  simp [livenessAnalysis, h]

/-! ## The machine-register pass against the symbolic pass -/

theorem machine_visit_fst (p : InstPtr) (instr : MachineInstr) (next : InstPtr)
    (x : PassState × Bool) :
    (visit p instr next x).1 =
      { x.1 with live := (storeLoop p
          (liveTemp (if instr.isReturn then ∅ else x.1.liveAt next) (x.1.useAt p) (x.1.defAt p))
          (if instr.isReturn then x.1.live else x.1.live.touch next) x.2).1 } := by
  cases h : instr.isReturn <;>
    simp only [visit, h, PassState.liveAt, PassState.useAt, PassState.defAt,
      LivenessAnalysis.PtrMap.getD_eq_match, Bool.not_false, Bool.not_true, ↓reduceIte,
      Bool.false_eq_true]

theorem machine_visit_snd (p : InstPtr) (instr : MachineInstr) (next : InstPtr)
    (x : PassState × Bool) :
    (visit p instr next x).2 =
      if liveTemp (if instr.isReturn then ∅ else x.1.liveAt next) (x.1.useAt p) (x.1.defAt p)
          ∩ x.1.liveAt p = ∅ then x.2 else false := by
  cases h : instr.isReturn <;>
    simp only [visit, h, PassState.liveAt, PassState.useAt, PassState.defAt,
      LivenessAnalysis.PtrMap.getD_eq_match, Bool.not_false, Bool.not_true, ↓reduceIte,
      Bool.false_eq_true, LivenessAnalysis.storeLoop_flag, LivenessAnalysis.PtrMap.getD_touch]

theorem machine_visit_liveAt (p : InstPtr) (instr : MachineInstr) (next : InstPtr)
    (x : PassState × Bool) (q : InstPtr) :
    (visit p instr next x).1.liveAt q =
      if p = q then
        x.1.liveAt p ∪
          liveTemp (if instr.isReturn then ∅ else x.1.liveAt next) (x.1.useAt p) (x.1.defAt p)
      else x.1.liveAt q := by
  rw [machine_visit_fst]
  cases h : instr.isReturn <;>
    simp only [PassState.liveAt, LivenessAnalysis.storeLoop_getD,
      LivenessAnalysis.PtrMap.getD_touch, ↓reduceIte, Bool.false_eq_true]

theorem machine_visit_defs_uses (p : InstPtr) (instr : MachineInstr) (next : InstPtr)
    (x : PassState × Bool) :
    (visit p instr next x).1.defs = x.1.defs ∧ (visit p instr next x).1.uses = x.1.uses ∧
      (visit p instr next x).1.counts = x.1.counts := by
  rw [machine_visit_fst]
  exact ⟨rfl, rfl, rfl⟩

/-- C18, as stated, fails.  On a function of three blocks whose first block
branches over the second, with the same def and use sets for every
instruction, both solvers return; the symbolic solver stores the empty set
for the branch (the live set of the first instruction of its successor), the
machine solver stores `{c}` (the live set of the instruction that follows it
in layout order).  And on a block that ends in `unreachable`, for which a def
set is recorded, both solvers return; the symbolic solver stores that def set
for the last instruction, the machine solver, which never visits the last
instruction, stores nothing for it. -/
theorem solvers_differ_branchOver :
    (∃ s, LivenessAnalysis.livenessAnalysis 2 0 branchOver branchOverState = some s ∧
      s.liveAt ⟨0, 0, 0⟩ = ∅) ∧
    (∃ t, livenessAnalysis 2 0 branchOverMF branchOverState = some t ∧
      t.liveAt ⟨0, 0, 0⟩ = {"c"}) ∧
    (∃ s, LivenessAnalysis.livenessAnalysis 2 0 LivenessAnalysis.unreachableEnd
        (LivenessAnalysis.analyzeFunction 0 LivenessAnalysis.unreachableEnd PassState.fresh)
          = some s ∧
      s.liveAt ⟨0, 0, 1⟩ = {""}) ∧
    (∃ t, livenessAnalysis 2 0 unreachableEndMF
        (LivenessAnalysis.analyzeFunction 0 LivenessAnalysis.unreachableEnd PassState.fresh)
          = some t ∧
      t.liveAt ⟨0, 0, 1⟩ = ∅) := by
  refine ⟨⟨_, rfl, by decide⟩, ⟨_, rfl, by decide⟩, ⟨_, rfl, by decide⟩, ⟨_, rfl, by decide⟩⟩

theorem blockWorklist_get (fn bi : Nat) (l : List MachineInstr) (k i : Nat) :
    (blockWorklist fn bi k l).get? i = (l.get? i).map (fun m => (⟨fn, bi, k + i⟩, m)) := by
  induction l generalizing k i with
  | nil => simp [blockWorklist]
  | cons m l ih =>
    cases i with
    | zero => simp [blockWorklist]
    | succ i =>
      rw [blockWorklist, List.get?_cons_succ, List.get?_cons_succ, ih]
      rw [show k + 1 + i = k + (i + 1) by omega]

theorem blockWorklist_length (fn bi : Nat) (l : List MachineInstr) (k : Nat) :
    (blockWorklist fn bi k l).length = l.length := by
  induction l generalizing k with
  | nil => rfl
  | cons m l ih => simp [blockWorklist, ih]

theorem worklist_single (fn : Nat) (mbb : MachineBasicBlock) :
    worklist fn [mbb] = blockWorklist fn 0 0 mbb := by
  simp [worklist, blocksWorklist]

theorem mem_dropLast_of_get {α : Type} (l : List α) (k : Nat) (a : α)
    (hk : k + 1 < l.length) (h : l.get? k = some a) : a ∈ l.dropLast := by
  rw [List.dropLast_eq_take]
  have : (l.take (l.length - 1)).get? k = some a := by
    rw [List.get?_take (by omega)]
    exact h
  exact List.get?_mem this

theorem take_succ_of_get {α : Type} (l : List α) (k : Nat) (a : α)
    (h : l.get? k = some a) : l.take (k + 1) = l.take k ++ [a] := by
  induction l generalizing k with
  | nil => simp at h
  | cons b l ih =>
    cases k with
    | zero =>
      simp only [List.get?_cons_zero, Option.some.injEq] at h
      simp [h]
    | succ k =>
      rw [List.get?_cons_succ] at h
      simp [ih k h]

theorem exists_get_of_lt {α : Type} (l : List α) (k : Nat) (h : k < l.length) :
    ∃ a, l.get? k = some a := by
  cases hk : l.get? k with
  | none => rw [List.get?_eq_none] at hk; omega
  | some a => exact ⟨a, rfl⟩

theorem lines_of_length (wl : List (InstPtr × MachineInstr)) (h1 : 0 < wl.length)
    (h2 : wl.length ≤ 4294967296) : lines wl = wl.length - 1 := by
  unfold lines wrapUnsigned
  cases h : wl.length with
  | zero => omega
  | succ n =>
    simp only
    omega

theorem symbolic_fullPass_defs (fn : Nat) (F : LivenessAnalysis.Function)
    (x : PassState × Bool) :
    (LivenessAnalysis.fullPass fn F x).1.defs = x.1.defs := by
  apply LivenessAnalysis.fullPass_invariant (fun y => y.1.defs = x.1.defs) fn F _ x rfl
  intro b bb k instr y _ _ hy
  rw [LivenessAnalysis.visit_defs]
  exact hy

theorem countWorklist_sets (wl : List (InstPtr × MachineInstr)) (st : PassState) :
    LivenessAnalysis.SameSets (countWorklist wl st) st := by
  induction wl generalizing st with
  | nil => intro q; rfl
  | cons item rest ih =>
    intro q
    rw [countWorklist, ih _ q]
    simp only [PassState.setsAt, PassState.liveAt, PassState.defAt, PassState.useAt,
      LivenessAnalysis.PtrMap.getD_touch]

/-! ## The machine-register pass: the histogram -/

theorem analyzeOperand_inv (regs : Finset String) (p : InstPtr) (st : PassState)
    (o : MachineOperand) (ho : defRegNames [o] ⊆ regs) (h : ∀ q, st.defAt q ⊆ regs) :
    (∀ q, (analyzeOperand p st o).defAt q ⊆ regs) ∧ (analyzeOperand p st o).live = st.live ∧
      (analyzeOperand p st o).counts = st.counts := by
  unfold analyzeOperand
  split
  · split
    · split
      · rename_i h1 h2 h3
        refine ⟨?_, rfl, rfl⟩
        intro q
        have hname : o.regAsmName ∈ regs := by
          apply ho
          simp [defRegNames, List.filter, h1, h2, h3]
        show (st.defs.set p (insert o.regAsmName (st.defs.getD p))).getD q ⊆ regs
        rw [LivenessAnalysis.PtrMap.getD_set]
        split
        · exact Finset.insert_subset hname (h p)
        · exact h q
      · split
        · exact ⟨h, rfl, rfl⟩
        · exact ⟨h, rfl, rfl⟩
    · exact ⟨h, rfl, rfl⟩
  · exact ⟨h, rfl, rfl⟩

theorem foldl_analyzeOperand_inv (regs : Finset String) (p : InstPtr)
    (ops : List MachineOperand) (st : PassState) (ho : defRegNames ops ⊆ regs)
    (h : ∀ q, st.defAt q ⊆ regs) :
    (∀ q, (ops.foldl (analyzeOperand p) st).defAt q ⊆ regs) ∧
      (ops.foldl (analyzeOperand p) st).live = st.live ∧
      (ops.foldl (analyzeOperand p) st).counts = st.counts := by
  induction ops generalizing st with
  | nil => exact ⟨h, rfl, rfl⟩
  | cons o rest ih =>
    rw [defRegNames_cons] at ho
    obtain ⟨h1, h2, h3⟩ := analyzeOperand_inv regs p st o
      (Finset.Subset.trans Finset.subset_union_left ho) h
    obtain ⟨h4, h5, h6⟩ := ih (analyzeOperand p st o)
      (Finset.Subset.trans Finset.subset_union_right ho) h1
    rw [List.foldl_cons]
    exact ⟨h4, h5.trans h2, h6.trans h3⟩

theorem analyzeInstruction_inv (regs : Finset String) (p : InstPtr) (instr : MachineInstr)
    (st : PassState) (ho : defRegNames instr.operands ⊆ regs) (h : ∀ q, st.defAt q ⊆ regs) :
    (∀ q, (analyzeInstruction p instr st).defAt q ⊆ regs) ∧
      (analyzeInstruction p instr st).live = st.live ∧
      (analyzeInstruction p instr st).counts = st.counts := by
  unfold analyzeInstruction
  split
  · exact ⟨h, rfl, rfl⟩
  · exact foldl_analyzeOperand_inv regs p _ st ho h

theorem analyzeBlock_inv (regs : Finset String) (fn bi : Nat) (rest : List MachineInstr)
    (k : Nat) (st : PassState) (ho : ∀ instr ∈ rest, defRegNames instr.operands ⊆ regs)
    (h : (∀ q, st.defAt q ⊆ regs) ∧ ∀ q, st.liveAt q ⊆ regs) :
    ((∀ q, (analyzeBlock fn bi k rest st).defAt q ⊆ regs) ∧
        ∀ q, (analyzeBlock fn bi k rest st).liveAt q ⊆ regs) ∧
      (analyzeBlock fn bi k rest st).counts = st.counts := by
  induction rest generalizing k st with
  | nil => exact ⟨h, rfl⟩
  | cons instr rest ih =>
    rw [analyzeBlock]
    obtain ⟨h1, h2, h3⟩ := analyzeInstruction_inv regs ⟨fn, bi, k⟩ instr
      { st with
        live := st.live.set ⟨fn, bi, k⟩ ∅
        uses := st.uses.set ⟨fn, bi, k⟩ ∅
        defs := st.defs.set ⟨fn, bi, k⟩ ∅ }
      (ho instr (List.mem_cons_self _ _))
      (by
        intro q
        show (st.defs.set ⟨fn, bi, k⟩ ∅).getD q ⊆ regs
        rw [LivenessAnalysis.PtrMap.getD_set]
        split
        · exact Finset.empty_subset _
        · exact h.1 q)
    obtain ⟨h4, h5⟩ := ih (k + 1) _ (fun i hi => ho i (List.mem_cons_of_mem _ hi))
      ⟨h1, by
        intro q
        unfold PassState.liveAt
        rw [h2]
        show (st.live.set ⟨fn, bi, k⟩ ∅).getD q ⊆ regs
        rw [LivenessAnalysis.PtrMap.getD_set]
        split
        · exact Finset.empty_subset _
        · exact h.2 q⟩
    exact ⟨h4, h5.trans h3⟩

theorem analyzeBlocks_inv (regs : Finset String) (fn : Nat) (rest : List MachineBasicBlock)
    (b : Nat) (st : PassState)
    (ho : ∀ mbb ∈ rest, ∀ instr ∈ mbb, defRegNames instr.operands ⊆ regs)
    (h : (∀ q, st.defAt q ⊆ regs) ∧ ∀ q, st.liveAt q ⊆ regs) :
    ((∀ q, (analyzeBlocks fn b rest st).defAt q ⊆ regs) ∧
        ∀ q, (analyzeBlocks fn b rest st).liveAt q ⊆ regs) ∧
      (analyzeBlocks fn b rest st).counts = st.counts := by
  induction rest generalizing b st with
  | nil => exact ⟨h, rfl⟩
  | cons mbb rest ih =>
    rw [analyzeBlocks]
    obtain ⟨h1, h2⟩ := analyzeBlock_inv regs fn b mbb 0 st (ho mbb (List.mem_cons_self _ _)) h
    obtain ⟨h3, h4⟩ := ih (b + 1) _ (fun m hm => ho m (List.mem_cons_of_mem _ hm)) h1
    exact ⟨h3, h4.trans h2⟩

theorem analyzeOperand_counts (p : InstPtr) (st : PassState) (o : MachineOperand) :
    (analyzeOperand p st o).counts = st.counts := by
  unfold analyzeOperand
  split
  · split
    · split
      · rfl
      · split <;> rfl
    · rfl
  · rfl

theorem analyzeInstruction_counts (p : InstPtr) (instr : MachineInstr) (st : PassState) :
    (analyzeInstruction p instr st).counts = st.counts := by
  unfold analyzeInstruction
  split
  · rfl
  · generalize instr.operands = ops
    induction ops generalizing st with
    | nil => rfl
    | cons o rest ih => rw [List.foldl_cons, ih, analyzeOperand_counts]

theorem analyzeBlock_counts (fn bi : Nat) (rest : List MachineInstr) (k : Nat)
    (st : PassState) : (analyzeBlock fn bi k rest st).counts = st.counts := by
  induction rest generalizing k st with
  | nil => rfl
  | cons instr rest ih => rw [analyzeBlock, ih, analyzeInstruction_counts]

theorem analyzeBlocks_counts (fn : Nat) (rest : List MachineBasicBlock) (b : Nat)
    (st : PassState) : (analyzeBlocks fn b rest st).counts = st.counts := by
  induction rest generalizing b st with
  | nil => rfl
  | cons mbb rest ih => rw [analyzeBlocks, ih, analyzeBlock_counts]

theorem machine_visit_inv (regs : Finset String) (p : InstPtr) (instr : MachineInstr)
    (next : InstPtr) (x : PassState × Bool)
    (h : (∀ q, x.1.defAt q ⊆ regs) ∧ ∀ q, x.1.liveAt q ⊆ regs) :
    ((∀ q, (visit p instr next x).1.defAt q ⊆ regs) ∧
        ∀ q, (visit p instr next x).1.liveAt q ⊆ regs) ∧
      (visit p instr next x).1.counts = x.1.counts := by
  obtain ⟨hd, -, hc⟩ := machine_visit_defs_uses p instr next x
  refine ⟨⟨?_, ?_⟩, hc⟩
  · intro q
    unfold PassState.defAt
    rw [hd]
    exact h.1 q
  · intro q
    rw [machine_visit_liveAt]
    split
    · apply Finset.union_subset (h.2 p)
      unfold liveTemp
      apply Finset.union_subset _ (h.1 p)
      apply Finset.Subset.trans Finset.sdiff_subset
      split
      · exact Finset.empty_subset _
      · exact h.2 next
    · exact h.2 q

theorem passFrom_inv (P : PassState × Bool → Prop)
    (hv : ∀ p instr next x, P x → P (visit p instr next x))
    (wl : List (InstPtr × MachineInstr)) (i : Nat) (x : PassState × Bool) (hx : P x) :
    P (passFrom wl i x) := by
  induction i generalizing x with
  | zero => exact hx
  | succ i ih =>
    rw [passFrom]
    split
    · exact ih _ (hv _ _ _ _ hx)
    · exact hx

theorem machine_passLoop_inv (Q : PassState → Prop)
    (hv : ∀ p instr next (x : PassState × Bool), Q x.1 → Q (visit p instr next x).1)
    (wl : List (InstPtr × MachineInstr)) (fuel : Nat) (x : PassState × Bool) (s : PassState)
    (hx : Q x.1) (h : passLoop wl fuel x = some s) : Q s := by
  induction fuel generalizing x with
  | zero =>
    obtain ⟨st, c⟩ := x
    cases c with
    | false =>
      rw [passLoop] at h
      injection h with h
      rw [← h]
      exact hx
    | true => simp [passLoop] at h
  | succ n ih =>
    obtain ⟨st, c⟩ := x
    cases c with
    | false =>
      rw [passLoop] at h
      injection h with h
      rw [← h]
      exact hx
    | true =>
      rw [passLoop] at h
      exact ih _ (passFrom_inv (fun y => Q y.1) hv wl _ _ hx) h

theorem countWorklist_counts (wl : List (InstPtr × MachineInstr)) (st : PassState) :
    (countWorklist wl st).counts =
      (wl.map (fun e => wrapUnsigned (st.liveAt e.1).card)).foldl increment st.counts := by
  induction wl generalizing st with
  | nil => rfl
  | cons item rest ih =>
    rw [countWorklist, ih, List.map_cons, List.foldl_cons]
    congr 1
    apply List.map_congr_left
    intro e _
    simp only [PassState.liveAt, LivenessAnalysis.PtrMap.getD_touch]

theorem blocksWorklist_length (fn : Nat) (rest : List MachineBasicBlock) (b : Nat) :
    (blocksWorklist fn b rest).length = machineInstrCount rest := by
  induction rest generalizing b with
  | nil => rfl
  | cons mbb rest ih =>
    rw [blocksWorklist, List.length_append, blockWorklist_length, ih]
    simp [machineInstrCount]

/-- One call of `runOnMachineFunction`: the histogram receives one increment per
instruction of the worklist, with the size of its final live set. -/
theorem runOnMachineFunction_counts (fuel fn : Nat) (MF : MachineFunction)
    (st0 st1 : PassState) (h : runOnMachineFunction fuel fn MF st0 = some st1) :
    (worklist fn MF).length = machineInstrCount MF ∧
      st1.counts = ((worklist fn MF).map
        (fun e => wrapUnsigned (st1.liveAt e.1).card)).foldl increment st0.counts := by
  refine ⟨blocksWorklist_length fn MF 0, ?_⟩
  unfold runOnMachineFunction livenessAnalysis at h
  cases hloop : passLoop (worklist fn MF) fuel (analyzeFunction fn MF st0, true) with
  | none =>
    rw [hloop] at h
    exact Option.noConfusion h
  | some s1 =>
    rw [hloop] at h
    injection h with h
    have hc1 : s1.counts = st0.counts := by
      have := machine_passLoop_inv (fun t => t.counts = (analyzeFunction fn MF st0).counts)
        (fun p instr next x hx => (machine_visit_defs_uses p instr next x).2.2.trans hx)
        (worklist fn MF) fuel (analyzeFunction fn MF st0, true) s1 rfl hloop
      rw [this]
      exact analyzeBlocks_counts fn MF 0 st0
    rw [← h, countWorklist_counts, hc1]
    congr 1
    apply List.map_congr_left
    intro e _
    rw [(countWorklist_sets (worklist fn MF) s1).liveAt]

theorem runOnMachineFunction_inv (regs : Finset String) (fuel fn : Nat) (MF : MachineFunction)
    (st0 st1 : PassState) (ho : ∀ mbb ∈ MF, ∀ instr ∈ mbb, defRegNames instr.operands ⊆ regs)
    (h0 : (∀ q, st0.defAt q ⊆ regs) ∧ ∀ q, st0.liveAt q ⊆ regs)
    (h : runOnMachineFunction fuel fn MF st0 = some st1) :
    (∀ q, st1.defAt q ⊆ regs) ∧ ∀ q, st1.liveAt q ⊆ regs := by
  unfold runOnMachineFunction livenessAnalysis at h
  cases hloop : passLoop (worklist fn MF) fuel (analyzeFunction fn MF st0, true) with
  | none =>
    rw [hloop] at h
    exact Option.noConfusion h
  | some s1 =>
    rw [hloop] at h
    injection h with h
    have hA := (analyzeBlocks_inv regs fn MF 0 st0 ho h0).1
    have hs1 := machine_passLoop_inv
      (fun t => (∀ q, t.defAt q ⊆ regs) ∧ ∀ q, t.liveAt q ⊆ regs)
      (fun p instr next x hx => (machine_visit_inv regs p instr next x hx).1)
      (worklist fn MF) fuel (analyzeFunction fn MF st0, true) s1 hA hloop
    have hsame := countWorklist_sets (worklist fn MF) s1
    rw [← h]
    refine ⟨?_, ?_⟩
    · intro q
      rw [hsame.defAt]
      exact hs1.1 q
    · intro q
      rw [hsame.liveAt]
      exact hs1.2 q

theorem runOnMachineFunctions_sum (regs : Finset String) (hregs : regs.card < 4294967295)
    (fuel : Nat) (MFs : List MachineFunction) (fn : Nat) (st0 st : PassState)
    (ho : ∀ MF ∈ MFs, ∀ mbb ∈ MF, ∀ instr ∈ mbb, defRegNames instr.operands ⊆ regs)
    (h0 : (∀ q, st0.defAt q ⊆ regs) ∧ ∀ q, st0.liveAt q ⊆ regs)
    (hN : st0.counts.sum + totalMachineInstrCount MFs < 4294967296)
    (h : runOnMachineFunctions fuel fn MFs st0 = some st) :
    st.counts.sum = st0.counts.sum + totalMachineInstrCount MFs := by
  induction MFs generalizing fn st0 with
  | nil =>
    rw [runOnMachineFunctions] at h
    injection h with h
    rw [← h]
    rfl
  | cons MF rest ih =>
    rw [runOnMachineFunctions] at h
    cases hrun : runOnMachineFunction fuel fn MF st0 with
    | none =>
      rw [hrun] at h
      exact Option.noConfusion h
    | some st1 =>
      rw [hrun] at h
      simp only at h
      have htot : totalMachineInstrCount (MF :: rest) =
          machineInstrCount MF + totalMachineInstrCount rest := by
        simp [totalMachineInstrCount]
      rw [htot] at hN ⊢
      have hinv := runOnMachineFunction_inv regs fuel fn MF st0 st1
        (ho MF (List.mem_cons_self _ _)) h0 hrun
      obtain ⟨hlen, hcounts⟩ := runOnMachineFunction_counts fuel fn MF st0 st1 hrun
      have hbump : st1.counts = ((worklist fn MF).map
          (fun e => wrapUnsigned (st1.liveAt e.1).card)).foldl LivenessAnalysis.bump
            st0.counts := by
        rw [hcounts]
        apply LivenessAnalysis.foldl_increment_eq_bump
        · intro i hi
          obtain ⟨e, -, rfl⟩ := List.mem_map.mp hi
          have h1 : wrapUnsigned (st1.liveAt e.1).card ≤ (st1.liveAt e.1).card :=
            Nat.mod_le _ _
          have h2 := Finset.card_le_card (hinv.2 e.1)
          omega
        · rw [List.length_map, hlen]
          omega
      have hsum1 : st1.counts.sum = st0.counts.sum + machineInstrCount MF := by
        rw [hbump, LivenessAnalysis.foldl_bump_sum, List.length_map, hlen]
      rw [ih (fn + 1) st1 (fun G hG => ho G (List.mem_cons_of_mem _ hG)) hinv
        (by rw [hsum1]; omega) h, hsum1]
      omega

/-- C21: histogram conservation of the machine-register pass.  Let the register
names of the target form a set of fewer than `2 ^ 32 - 1` names and let the
functions hold fewer than `2 ^ 32` instructions in all.  When the calls of
`runOnMachineFunction` on a fresh pass instance have returned for the machine
functions `MFs`, the buckets of the histogram sum to the number of machine
instructions of `MFs`; and every call adds one increment per instruction of
its function, in the bucket of the size of that instruction's final live
set. -/
theorem machine_histogram_conservation (fuel : Nat) (regs : Finset String)
    (MFs : List MachineFunction) (st : PassState) (hregs : regs.card < 4294967295)
    (hnames : ∀ MF ∈ MFs, ∀ mbb ∈ MF, ∀ instr ∈ mbb, defRegNames instr.operands ⊆ regs)
    (hN : totalMachineInstrCount MFs < 4294967296)
    (h : runOnMachineFunctions fuel 0 MFs PassState.fresh = some st) :
    st.counts.sum = totalMachineInstrCount MFs ∧
      ∀ fn MF st0 st1, runOnMachineFunction fuel fn MF st0 = some st1 →
        (worklist fn MF).length = machineInstrCount MF ∧
        st1.counts = ((worklist fn MF).map
          (fun e => wrapUnsigned (st1.liveAt e.1).card)).foldl increment st0.counts := by
  refine ⟨?_, fun fn MF st0 st1 h1 => runOnMachineFunction_counts fuel fn MF st0 st1 h1⟩
  have h0 : (∀ q, PassState.fresh.defAt q ⊆ regs) ∧ ∀ q, PassState.fresh.liveAt q ⊆ regs :=
    ⟨fun _ => Finset.empty_subset _, fun _ => Finset.empty_subset _⟩
  have hs : PassState.fresh.counts.sum = 0 := rfl
  rw [runOnMachineFunctions_sum regs hregs fuel MFs 0 PassState.fresh st hnames h0
    (by rw [hs]; omega) h, hs, Nat.zero_add]

/-- The conservation on two machine functions of three instructions each, with
the register names `x` and `y`: the calls return and the buckets sum to 6. -/
theorem machine_histogram_conservation_witness :
    ∃ st, runOnMachineFunctions 2 0 [straightLineMF, straightLineMF] PassState.fresh = some st ∧
      st.counts.sum = 6 :=
  ⟨_, rfl, (machine_histogram_conservation 2 {"x", "y"} [straightLineMF, straightLineMF] _
    (by decide) (by decide) (by decide) rfl).1⟩

/-! ## The machine-register pass: what the solver reaches -/

theorem analyzeOperand_live (p : InstPtr) (st : PassState) (o : MachineOperand) :
    (analyzeOperand p st o).live = st.live := by
  unfold analyzeOperand
  split
  · split
    · split
      · rfl
      · split <;> rfl
    · rfl
  · rfl

theorem machine_analyzeInstruction_live (p : InstPtr) (instr : MachineInstr) (st : PassState) :
    (analyzeInstruction p instr st).live = st.live := by
  unfold analyzeInstruction
  split
  · rfl
  · generalize instr.operands = ops
    induction ops generalizing st with
    | nil => rfl
    | cons o rest ih => rw [List.foldl_cons, ih, analyzeOperand_live]

theorem analyzeBlock_liveAt_empty (fn bi : Nat) (rest : List MachineInstr) (k : Nat)
    (st : PassState) (q : InstPtr)
    (h : st.liveAt q = ∅ ∨ ∃ e ∈ blockWorklist fn bi k rest, e.1 = q) :
    (analyzeBlock fn bi k rest st).liveAt q = ∅ := by
  induction rest generalizing k st with
  | nil =>
    rcases h with h | ⟨e, he, -⟩
    · exact h
    · exact absurd he (List.not_mem_nil _)
  | cons instr rest ih =>
    rw [analyzeBlock]
    apply ih
    by_cases hq : (⟨fn, bi, k⟩ : InstPtr) = q
    · left
      unfold PassState.liveAt
      rw [machine_analyzeInstruction_live]
      show (st.live.set ⟨fn, bi, k⟩ ∅).getD q = ∅
      rw [LivenessAnalysis.PtrMap.getD_set, if_pos hq]
    · rcases h with h | ⟨e, he, heq⟩
      · left
        unfold PassState.liveAt
        rw [machine_analyzeInstruction_live]
        show (st.live.set ⟨fn, bi, k⟩ ∅).getD q = ∅
        rw [LivenessAnalysis.PtrMap.getD_set, if_neg hq]
        exact h
      · rw [blockWorklist, List.mem_cons] at he
        rcases he with he | he
        · rw [he] at heq
          exact absurd heq hq
        · exact Or.inr ⟨e, he, heq⟩

theorem analyzeBlocks_liveAt_empty (fn : Nat) (rest : List MachineBasicBlock) (b : Nat)
    (st : PassState) (q : InstPtr)
    (h : st.liveAt q = ∅ ∨ ∃ e ∈ blocksWorklist fn b rest, e.1 = q) :
    (analyzeBlocks fn b rest st).liveAt q = ∅ := by
  induction rest generalizing b st with
  | nil =>
    rcases h with h | ⟨e, he, -⟩
    · exact h
    · exact absurd he (List.not_mem_nil _)
  | cons mbb rest ih =>
    rw [analyzeBlocks]
    apply ih
    rcases h with h | ⟨e, he, heq⟩
    · exact Or.inl (analyzeBlock_liveAt_empty fn b mbb 0 st q (Or.inl h))
    · rw [blocksWorklist, List.mem_append] at he
      rcases he with he | he
      · exact Or.inl (analyzeBlock_liveAt_empty fn b mbb 0 st q (Or.inr ⟨e, he, heq⟩))
      · exact Or.inr ⟨e, he, heq⟩

theorem blockWorklist_mem (fn bi : Nat) (rest : List MachineInstr) (k : Nat)
    (e : InstPtr × MachineInstr) (he : e ∈ blockWorklist fn bi k rest) :
    e.1.bb = bi ∧ k ≤ e.1.idx := by
  induction rest generalizing k with
  | nil => exact absurd he (List.not_mem_nil _)
  | cons i rest ih =>
    rw [blockWorklist, List.mem_cons] at he
    rcases he with he | he
    · rw [he]
      exact ⟨rfl, le_refl _⟩
    · have := ih (k + 1) he
      exact ⟨this.1, by omega⟩

theorem blocksWorklist_mem (fn : Nat) (rest : List MachineBasicBlock) (b : Nat)
    (e : InstPtr × MachineInstr) (he : e ∈ blocksWorklist fn b rest) : b ≤ e.1.bb := by
  induction rest generalizing b with
  | nil => exact absurd he (List.not_mem_nil _)
  | cons mbb rest ih =>
    rw [blocksWorklist, List.mem_append] at he
    rcases he with he | he
    · rw [(blockWorklist_mem fn b mbb 0 e he).1]
    · have := ih (b + 1) he
      omega

theorem blockWorklist_pairwise (fn bi : Nat) (rest : List MachineInstr) (k : Nat) :
    (blockWorklist fn bi k rest).Pairwise (fun e1 e2 => e1.1 ≠ e2.1) := by
  induction rest generalizing k with
  | nil => exact List.Pairwise.nil
  | cons i rest ih =>
    rw [blockWorklist, List.pairwise_cons]
    refine ⟨?_, ih (k + 1)⟩
    intro e he heq
    have := (blockWorklist_mem fn bi rest (k + 1) e he).2
    rw [← heq] at this
    simp at this

theorem blocksWorklist_pairwise (fn : Nat) (rest : List MachineBasicBlock) (b : Nat) :
    (blocksWorklist fn b rest).Pairwise (fun e1 e2 => e1.1 ≠ e2.1) := by
  induction rest generalizing b with
  | nil => exact List.Pairwise.nil
  | cons mbb rest ih =>
    rw [blocksWorklist, List.pairwise_append]
    refine ⟨blockWorklist_pairwise fn b mbb 0, ih (b + 1), ?_⟩
    intro e1 h1 e2 h2 heq
    have hb1 := (blockWorklist_mem fn b mbb 0 e1 h1).1
    have hb2 := blocksWorklist_mem fn rest (b + 1) e2 h2
    rw [← heq, hb1] at hb2
    omega

/-- The instruction a pass visits is never the last one of the worklist: a
property of the state that every visit of an instruction with a successor in
the worklist keeps is kept by the pass. -/
theorem passFrom_inv_index (P : PassState × Bool → Prop)
    (wl : List (InstPtr × MachineInstr))
    (hv : ∀ j e nxt x, wl.get? j = some e → wl.get? (j + 1) = some nxt → P x →
      P (visit e.1 e.2 nxt.1 x))
    (i : Nat) (x : PassState × Bool) (hx : P x) : P (passFrom wl i x) := by
  induction i generalizing x with
  | zero => exact hx
  | succ i ih =>
    rw [passFrom]
    split
    · rename_i nextInstr instr h1 h2
      exact ih _ (hv i instr nextInstr x h2 h1 hx)
    · exact hx

theorem passLoop_inv_index (Q : PassState → Prop) (wl : List (InstPtr × MachineInstr))
    (hv : ∀ j e nxt (x : PassState × Bool), wl.get? j = some e → wl.get? (j + 1) = some nxt →
      Q x.1 → Q (visit e.1 e.2 nxt.1 x).1)
    (fuel : Nat) (x : PassState × Bool) (s : PassState) (hx : Q x.1)
    (h : passLoop wl fuel x = some s) : Q s := by
  induction fuel generalizing x with
  | zero =>
    obtain ⟨st, c⟩ := x
    cases c with
    | false =>
      rw [passLoop] at h
      injection h with h
      rw [← h]
      exact hx
    | true => simp [passLoop] at h
  | succ n ih =>
    obtain ⟨st, c⟩ := x
    cases c with
    | false =>
      rw [passLoop] at h
      injection h with h
      rw [← h]
      exact hx
    | true =>
      rw [passLoop] at h
      exact ih _ (passFrom_inv_index (fun y => Q y.1) wl hv _ _ hx) h

theorem pairwise_get_ne (wl : List (InstPtr × MachineInstr))
    (hpw : wl.Pairwise (fun e1 e2 => e1.1 ≠ e2.1)) (j : Nat) (e nxt last : InstPtr × MachineInstr)
    (he : wl.get? j = some e) (hn : wl.get? (j + 1) = some nxt)
    (hlast : wl.getLast? = some last) : e.1 ≠ last.1 := by
  induction wl generalizing j with
  | nil => simp at he
  | cons a wl ih =>
    obtain ⟨ha, hpw2⟩ := List.pairwise_cons.mp hpw
    cases wl with
    | nil => simp at hn
    | cons b wl2 =>
      have hlast2 : (b :: wl2).getLast? = some last := by
        rw [← hlast, List.getLast?_cons_cons]
      cases j with
      | zero =>
        have : a = e := by
          have h2 : some a = some e := he
          injection h2
        rw [← this]
        exact ha last (List.mem_of_mem_getLast? hlast2)
      | succ j => exact ih hpw2 j he hn hlast2

theorem countWorklist_defs_uses (wl : List (InstPtr × MachineInstr)) (st : PassState) :
    (countWorklist wl st).defs = st.defs ∧ (countWorklist wl st).uses = st.uses := by
  induction wl generalizing st with
  | nil => exact ⟨rfl, rfl⟩
  | cons item rest ih =>
    rw [countWorklist]
    exact ih _

/-- The visits of one pass, in layout order: every instruction but the last, each
with the instruction that follows it in the worklist. -/
theorem passFrom_eq_foldr (wl : List (InstPtr × MachineInstr)) (i : Nat)
    (hi : i + 1 ≤ wl.length) (x : PassState × Bool) :
    passFrom wl i x =
      ((wl.zip wl.tail).take i).foldr (fun e y => visit e.1.1 e.1.2 e.2.1 y) x := by
  induction i generalizing x with
  | zero => rfl
  | succ i ih =>
    obtain ⟨nxt, hn⟩ := exists_get_of_lt wl (i + 1) (by omega)
    obtain ⟨e, he⟩ := exists_get_of_lt wl i (by omega)
    have hz : (wl.zip wl.tail).get? i = some (e, nxt) := by
      rw [List.get?_eq_getElem?, List.getElem?_zip_eq_some]
      refine ⟨by rw [← List.get?_eq_getElem?]; exact he, ?_⟩
      rw [List.getElem?_tail, ← List.get?_eq_getElem?]
      exact hn
    rw [passFrom, hn, he, take_succ_of_get _ i (e, nxt) hz, List.foldr_append]
    simp only [List.foldr_cons, List.foldr_nil]
    exact ih (by omega) _


/-- C32: the last instruction is never solved.  Let the machine function have at
least one instruction and let `last` be the last one in layout order.  When
`runOnMachineFunction` (`analyzeFunction`, then `livenessAnalysis`) returns,
the live set stored for `last` is empty, whatever its def and use sets are,
and the `def` and `use` maps are those `analyzeFunction` left.  A visit of an
instruction adds to its live set `(live(next) \ use) ∪ def`, with `∅` for
`live(next)` at a return, and changes no other live set; and one pass (of a
worklist of at most `2 ^ 32` instructions) is the visits of the instructions
but the last, each with `next` the instruction that follows it in the
worklist, whatever block it is in. -/
theorem last_instruction_unsolved (fuel fn : Nat) (MF : MachineFunction) (st0 st : PassState)
    (last : InstPtr × MachineInstr) (hlast : (worklist fn MF).getLast? = some last)
    (h : runOnMachineFunction fuel fn MF st0 = some st) :
    st.liveAt last.1 = ∅ ∧
      st.defs = (analyzeFunction fn MF st0).defs ∧
      st.uses = (analyzeFunction fn MF st0).uses ∧
      (∀ (x : PassState × Bool) (p : InstPtr) (instr : MachineInstr) (next q : InstPtr),
        (visit p instr next x).1.liveAt q =
          if p = q then
            x.1.liveAt p ∪
              (((if instr.isReturn then ∅ else x.1.liveAt next) \ x.1.useAt p) ∪ x.1.defAt p)
          else x.1.liveAt q) ∧
      ((worklist fn MF).length ≤ 4294967296 →
        ∀ x, fullPass (worklist fn MF) x =
          ((worklist fn MF).zip (worklist fn MF).tail).foldr
            (fun e y => visit e.1.1 e.1.2 e.2.1 y) x) := by
  have hmem : last ∈ worklist fn MF := List.mem_of_mem_getLast? hlast
  have hpos : 0 < (worklist fn MF).length := List.length_pos_of_mem hmem
  unfold runOnMachineFunction livenessAnalysis at h
  cases hloop : passLoop (worklist fn MF) fuel (analyzeFunction fn MF st0, true) with
  | none =>
    rw [hloop] at h
    exact Option.noConfusion h
  | some s1 =>
    rw [hloop] at h
    injection h with h
    refine ⟨?_, ?_, ?_, ?_, ?_⟩
    · rw [← h, (countWorklist_sets (worklist fn MF) s1).liveAt]
      apply passLoop_inv_index (fun t => t.liveAt last.1 = ∅) (worklist fn MF) _ fuel
        (analyzeFunction fn MF st0, true) s1 _ hloop
      · intro j e nxt x he hn hx
        rw [machine_visit_liveAt, if_neg]
        · exact hx
        · exact pairwise_get_ne (worklist fn MF) (blocksWorklist_pairwise fn MF 0) j e nxt last
            he hn hlast
      · exact analyzeBlocks_liveAt_empty fn MF 0 st0 last.1 (Or.inr ⟨last, hmem, rfl⟩)
    · rw [← h, (countWorklist_defs_uses (worklist fn MF) s1).1]
      exact machine_passLoop_inv (fun t => t.defs = (analyzeFunction fn MF st0).defs)
        (fun p instr next x hx => (machine_visit_defs_uses p instr next x).1.trans hx)
        (worklist fn MF) fuel (analyzeFunction fn MF st0, true) s1 rfl hloop
    · rw [← h, (countWorklist_defs_uses (worklist fn MF) s1).2]
      exact machine_passLoop_inv (fun t => t.uses = (analyzeFunction fn MF st0).uses)
        (fun p instr next x hx => (machine_visit_defs_uses p instr next x).2.1.trans hx)
        (worklist fn MF) fuel (analyzeFunction fn MF st0, true) s1 rfl hloop
    · intro x p instr next q
      rw [machine_visit_liveAt]
      rfl
    · intro hle x
      unfold fullPass
      rw [lines_of_length _ hpos hle, passFrom_eq_foldr _ _ (by omega), List.take_of_length_le]
      rw [List.length_zip, List.length_tail]
      omega

/-- The last instruction of the machine function of three instructions, run from a
fresh state: the call returns and the live set of the final return, at
position 2, is empty. -/
theorem last_instruction_unsolved_witness :
    ∃ st, runOnMachineFunction 2 0 straightLineMF PassState.fresh = some st ∧
      st.liveAt ⟨0, 0, 2⟩ = ∅ ∧
      st.defs = (analyzeFunction 0 straightLineMF PassState.fresh).defs :=
  have h := last_instruction_unsolved 2 0 straightLineMF PassState.fresh _
    (⟨0, 0, 2⟩, ⟨true, []⟩) rfl rfl
  ⟨_, rfl, h.1, h.2.1⟩


/-! ## The machine-register pass against the symbolic pass: the same successors -/

theorem machine_after_eq_biUnion (st : PassState) (m : MachineInstr) (next : InstPtr) :
    (if m.isReturn then ∅ else st.liveAt next) =
      (machineSuccessorPtrs m next).toFinset.biUnion st.liveAt := by
  unfold machineSuccessorPtrs
  split <;> simp

/-- A visit of an instruction that has the same successors for both solvers keeps
the stored sets and the flag of the two solvers equal. -/
theorem sim_step (v : InstPtr × LivenessAnalysis.BasicBlock × LivenessAnalysis.Instruction)
    (w : InstPtr × MachineInstr) (next : InstPtr) (x y : PassState × Bool)
    (hp : v.1 = w.1)
    (hsucc : (LivenessAnalysis.successorPtrs v.1 v.2.1 v.2.2).toFinset =
      (machineSuccessorPtrs w.2 next).toFinset)
    (h : LivenessAnalysis.SameSets x.1 y.1 ∧ x.2 = y.2) :
    LivenessAnalysis.SameSets (LivenessAnalysis.visit v.1 v.2.1 v.2.2 x).1
        (visit w.1 w.2 next y).1 ∧
      (LivenessAnalysis.visit v.1 v.2.1 v.2.2 x).2 = (visit w.1 w.2 next y).2 := by
  obtain ⟨hs, hc⟩ := h
  have hlive : x.1.liveAt = y.1.liveAt := funext hs.liveAt
  have htemp : x.1.tempAt v.1 v.2.1 v.2.2 =
      liveTemp (if w.2.isReturn then ∅ else y.1.liveAt next) (y.1.useAt w.1)
        (y.1.defAt w.1) := by
    unfold PassState.tempAt
    rw [LivenessAnalysis.afterAt_eq_biUnion, hsucc, machine_after_eq_biUnion, hlive,
      hs.useAt, hs.defAt, hp]
  rw [← hp]
  refine ⟨?_, ?_⟩
  · intro q
    have hl : (LivenessAnalysis.visit v.1 v.2.1 v.2.2 x).1.liveAt q
        = (visit v.1 w.2 next y).1.liveAt q := by
      rw [LivenessAnalysis.visit_liveAt, machine_visit_liveAt, htemp, hs.liveAt, hs.liveAt, hp]
    have hdf : (LivenessAnalysis.visit v.1 v.2.1 v.2.2 x).1.defAt q
        = (visit v.1 w.2 next y).1.defAt q := by
      unfold PassState.defAt
      rw [LivenessAnalysis.visit_defs, (machine_visit_defs_uses _ _ _ _).1]
      exact hs.defAt q
    have hu : (LivenessAnalysis.visit v.1 v.2.1 v.2.2 x).1.useAt q
        = (visit v.1 w.2 next y).1.useAt q := by
      unfold PassState.useAt
      rw [LivenessAnalysis.visit_uses, (machine_visit_defs_uses _ _ _ _).2.1]
      exact hs.useAt q
    unfold PassState.setsAt
    rw [hl, hdf, hu]
  · rw [LivenessAnalysis.visit_snd, machine_visit_snd, htemp, hs.liveAt, hc, hp]

/-- The symbolic visit of an instruction without successor and without def stores
nothing and leaves the flag alone. -/
theorem sim_last (v : InstPtr × LivenessAnalysis.BasicBlock × LivenessAnalysis.Instruction)
    (x y : PassState × Bool)
    (hsucc : LivenessAnalysis.successorPtrs v.1 v.2.1 v.2.2 = [])
    (hdef : x.1.defAt v.1 = ∅)
    (h : LivenessAnalysis.SameSets x.1 y.1 ∧ x.2 = y.2) :
    LivenessAnalysis.SameSets (LivenessAnalysis.visit v.1 v.2.1 v.2.2 x).1 y.1 ∧
      (LivenessAnalysis.visit v.1 v.2.1 v.2.2 x).2 = y.2 := by
  obtain ⟨hs, hc⟩ := h
  have htemp : x.1.tempAt v.1 v.2.1 v.2.2 = ∅ := by
    unfold PassState.tempAt liveTemp
    rw [LivenessAnalysis.afterAt_eq_biUnion, hsucc, hdef]
    simp
  refine ⟨?_, ?_⟩
  · intro q
    rw [← hs q]
    unfold PassState.setsAt
    rw [LivenessAnalysis.visit_defAt, LivenessAnalysis.visit_useAt,
      LivenessAnalysis.visit_liveAt, htemp]
    split
    · rename_i hq
      rw [hq, Finset.union_empty]
    · rfl
  · rw [LivenessAnalysis.visit_snd, htemp, Finset.empty_inter, if_pos rfl]
    exact hc

theorem sameLayout_nil_right
    (vs : List (InstPtr × LivenessAnalysis.BasicBlock × LivenessAnalysis.Instruction))
    (h : sameLayout vs [] = true) : vs = [] := by
  cases vs with
  | nil => rfl
  | cons v vs => simp [sameLayout] at h

/-- One pass of the symbolic solver over `vs` and the visits of one pass of the
machine solver over `wl` keep the stored sets and the flag equal. -/
theorem sim_visits
    (vs : List (InstPtr × LivenessAnalysis.BasicBlock × LivenessAnalysis.Instruction))
    (wl : List (InstPtr × MachineInstr)) (h : sameLayout vs wl = true) (x y : PassState × Bool)
    (hdef : ∀ v, vs.getLast? = some v → x.1.defAt v.1 = ∅)
    (hR : LivenessAnalysis.SameSets x.1 y.1 ∧ x.2 = y.2) :
    LivenessAnalysis.SameSets (LivenessAnalysis.visitAll vs x).1
        ((wl.zip wl.tail).foldr (fun e z => visit e.1.1 e.1.2 e.2.1 z) y).1 ∧
      (LivenessAnalysis.visitAll vs x).2 =
        ((wl.zip wl.tail).foldr (fun e z => visit e.1.1 e.1.2 e.2.1 z) y).2 := by
  induction vs generalizing wl with
  | nil =>
    cases wl with
    | nil => exact hR
    | cons w wl => simp [sameLayout] at h
  | cons v vs ih =>
    cases wl with
    | nil => simp [sameLayout] at h
    | cons w wl =>
      rw [sameLayout, Bool.and_eq_true, Bool.and_eq_true, decide_eq_true_eq] at h
      obtain ⟨⟨hp, hsucc⟩, hrest⟩ := h
      rw [LivenessAnalysis.visitAll_cons]
      cases wl with
      | nil =>
        have hvs := sameLayout_nil_right vs hrest
        subst hvs
        simp only [List.head?_nil, List.isEmpty_iff] at hsucc
        exact sim_last v x y hsucc (hdef v rfl) hR
      | cons w1 wl2 =>
        simp only [List.head?_cons, decide_eq_true_eq] at hsucc
        have hne : vs ≠ [] := by
          intro hv
          subst hv
          simp [sameLayout] at hrest
        have ih2 := ih (w1 :: wl2) hrest (by
          intro v2 hv2
          apply hdef v2
          obtain ⟨v1, vs2, hvs⟩ := List.exists_cons_of_ne_nil hne
          rw [hvs, List.getLast?_cons_cons, ← hvs]
          exact hv2)
        exact sim_step v w w1.1 _ _ hp hsucc ih2

theorem passFrom_nil (i : Nat) (x : PassState × Bool) : passFrom [] i x = x := by
  cases i <;> rfl

/-- One pass of the machine solver over a worklist of at most `2 ^ 32` instructions
is the visits of the instructions but the last, each with the one that follows
it. -/
theorem fullPass_eq_foldr (wl : List (InstPtr × MachineInstr))
    (hle : wl.length ≤ 4294967296) (x : PassState × Bool) :
    fullPass wl x = (wl.zip wl.tail).foldr (fun e y => visit e.1.1 e.1.2 e.2.1 y) x := by
  unfold fullPass
  cases hw : wl with
  | nil =>
    rw [passFrom_nil]
    rfl
  | cons w wl2 =>
    rw [← hw]
    have hpos : 0 < wl.length := by
      rw [hw]
      exact Nat.succ_pos _
    rw [lines_of_length _ hpos hle, passFrom_eq_foldr _ _ (by omega), List.take_of_length_le]
    rw [List.length_zip, List.length_tail]
    omega

theorem sim_passLoop (fn : Nat) (F : LivenessAnalysis.Function) (MF : MachineFunction)
    (h : sameLayout (LivenessAnalysis.visits fn F) (worklist fn MF) = true)
    (hle : (worklist fn MF).length ≤ 4294967296) (fuel : Nat) (x y : PassState × Bool)
    (hR : LivenessAnalysis.SameSets x.1 y.1 ∧ x.2 = y.2)
    (hdef : ∀ v, (LivenessAnalysis.visits fn F).getLast? = some v → x.1.defAt v.1 = ∅) :
    (∀ s, LivenessAnalysis.passLoop fn F fuel x = some s →
      ∃ t, passLoop (worklist fn MF) fuel y = some t ∧ LivenessAnalysis.SameSets s t) ∧
    (∀ t, passLoop (worklist fn MF) fuel y = some t →
      ∃ s, LivenessAnalysis.passLoop fn F fuel x = some s ∧ LivenessAnalysis.SameSets s t) := by
  induction fuel generalizing x y with
  | zero =>
    obtain ⟨sx, cx⟩ := x
    obtain ⟨sy, cy⟩ := y
    obtain ⟨h1, h2⟩ := hR
    simp only at h1 h2
    subst h2
    cases cx with
    | false =>
      simp only [LivenessAnalysis.passLoop, passLoop, Option.some.injEq]
      exact ⟨fun s hs => ⟨sy, rfl, hs ▸ h1⟩, fun t ht => ⟨sx, rfl, ht ▸ h1⟩⟩
    | true =>
      simp [LivenessAnalysis.passLoop, passLoop]
  | succ n ih =>
    obtain ⟨sx, cx⟩ := x
    obtain ⟨sy, cy⟩ := y
    obtain ⟨h1, h2⟩ := hR
    simp only at h1 h2
    subst h2
    cases cx with
    | false =>
      simp only [LivenessAnalysis.passLoop, passLoop, Option.some.injEq]
      exact ⟨fun s hs => ⟨sy, rfl, hs ▸ h1⟩, fun t ht => ⟨sx, rfl, ht ▸ h1⟩⟩
    | true =>
      rw [LivenessAnalysis.passLoop, passLoop]
      apply ih (LivenessAnalysis.fullPass fn F (sx, true)) (fullPass (worklist fn MF) (sy, true))
      · rw [LivenessAnalysis.fullPass_eq_visitAll, fullPass_eq_foldr _ hle]
        exact sim_visits _ _ h (sx, true) (sy, true) hdef ⟨h1, rfl⟩
      · intro v hv
        unfold PassState.defAt
        rw [symbolic_fullPass_defs]
        exact hdef v hv


/-- C18, amended: let the symbolic solver and the machine-register solver be given
the same instructions in the same layout order (at most `2 ^ 32`), the same
stored sets and the same successor relation: every instruction but the last
has the same successors for both, where the machine solver's successors of an
instruction are none for a return and the instruction that follows it in
layout order otherwise; the last instruction, which the machine solver never
visits, has no successor and no def recorded.  Then the symbolic solver
returns exactly when the machine-register solver returns, and they store the
same live set for every instruction. -/
theorem solvers_agree_same_successors (fuel fn : Nat) (F : LivenessAnalysis.Function)
    (MF : MachineFunction) (st : PassState)
    (h : sameLayout (LivenessAnalysis.visits fn F) (worklist fn MF) = true)
    (hle : (worklist fn MF).length ≤ 4294967296)
    (hdef : ∀ v, (LivenessAnalysis.visits fn F).getLast? = some v → st.defAt v.1 = ∅) :
    (∀ s, LivenessAnalysis.livenessAnalysis fuel fn F st = some s →
      ∃ t, livenessAnalysis fuel fn MF st = some t ∧ ∀ p, s.liveAt p = t.liveAt p) ∧
    (∀ t, livenessAnalysis fuel fn MF st = some t →
      ∃ s, LivenessAnalysis.livenessAnalysis fuel fn F st = some s ∧
        ∀ p, s.liveAt p = t.liveAt p) := by
  have hsim := sim_passLoop fn F MF h hle fuel (st, true) (st, true) ⟨fun _ => rfl, rfl⟩ hdef
  refine ⟨?_, ?_⟩
  · intro s hs
    obtain ⟨s1, hloop, hs1⟩ := LivenessAnalysis.livenessAnalysis_eq_some fuel fn F st s hs
    obtain ⟨t1, ht1, hsame⟩ := hsim.1 s1 hloop
    refine ⟨countWorklist (worklist fn MF) t1, by rw [livenessAnalysis, ht1]; rfl, ?_⟩
    intro p
    rw [(countWorklist_sets _ t1).liveAt p, ← hsame.liveAt p, hs1]
    rfl
  · intro t ht
    unfold livenessAnalysis at ht
    cases hloop : passLoop (worklist fn MF) fuel (st, true) with
    | none => simp [hloop] at ht
    | some t1 =>
      rw [hloop] at ht
      injection ht with ht
      obtain ⟨s1, hs1, hsame⟩ := hsim.2 t1 hloop
      refine ⟨_, by rw [LivenessAnalysis.livenessAnalysis, hs1]; rfl, ?_⟩
      intro p
      rw [← ht, (countWorklist_sets _ t1).liveAt p, ← hsame.liveAt p]
      rfl

/-- The two solvers on the two-block function whose first block falls through to
the second and on the machine function of its shape, from the state the
symbolic `analyzeFunction` leaves: the symbolic solver returns, and each
returns when the other does, with the same live sets. -/
theorem solvers_agree_same_successors_witness :
    (∃ s, LivenessAnalysis.livenessAnalysis 2 0 LivenessAnalysis.fallThrough
        (LivenessAnalysis.analyzeFunction 0 LivenessAnalysis.fallThrough PassState.fresh)
          = some s) ∧
    ((∀ s, LivenessAnalysis.livenessAnalysis 2 0 LivenessAnalysis.fallThrough
        (LivenessAnalysis.analyzeFunction 0 LivenessAnalysis.fallThrough PassState.fresh)
          = some s →
      ∃ t, livenessAnalysis 2 0 fallThroughMF
        (LivenessAnalysis.analyzeFunction 0 LivenessAnalysis.fallThrough PassState.fresh)
          = some t ∧ ∀ p, s.liveAt p = t.liveAt p) ∧
    (∀ t, livenessAnalysis 2 0 fallThroughMF
        (LivenessAnalysis.analyzeFunction 0 LivenessAnalysis.fallThrough PassState.fresh)
          = some t →
      ∃ s, LivenessAnalysis.livenessAnalysis 2 0 LivenessAnalysis.fallThrough
        (LivenessAnalysis.analyzeFunction 0 LivenessAnalysis.fallThrough PassState.fresh)
          = some s ∧ ∀ p, s.liveAt p = t.liveAt p)) :=
  ⟨⟨_, rfl⟩,
    solvers_agree_same_successors 2 0 LivenessAnalysis.fallThrough fallThroughMF
      (LivenessAnalysis.analyzeFunction 0 LivenessAnalysis.fallThrough PassState.fresh)
      (by decide) (by decide) (by
        intro v hv
        have hv2 : v = (⟨0, 1, 1⟩, _, _) := (Option.some.inj hv).symm
        rw [hv2]
        decide)⟩


end X86LivenessAnalysis

namespace NVVM

/-! ## MMA operand-type inference: builder against parser -/

/-- C33 fails.  `MmaOp::parse` calls `inferOperandMMAType` with the accumulator flag
`index < 2`, which is set for the multiplicands `A` and `B` (and clear for
`C`), while `MmaOp::build` calls it with the flag clear.  So for every element
type the parser infers for `A` and `B` what the inference gives an
accumulator; for `f32` it infers `f32` where the builder infers `tf32`, and
for an integer type it infers `s32` where the builder infers nothing and adds
no attribute. -/
theorem mma_inference_disagrees :
    (∀ t, MmaOp.parseFragElemtype 0 t = MmaOp.inferOperandMMAType t true ∧
      MmaOp.parseFragElemtype 1 t = MmaOp.inferOperandMMAType t true ∧
      MmaOp.parseFragElemtype 2 t = MmaOp.inferOperandMMAType t false) ∧
    MmaOp.parseFragElemtype 0 .f32 = some .f32 ∧
    MmaOp.parseFragElemtype 1 .f32 = some .f32 ∧
    MmaOp.inferOperandMMAType .f32 false = some .tf32 ∧
    MmaOp.parseMultiplicandPtxType 0 .f32 none = .ok .f32 ∧
    MmaOp.buildMultiplicandPtxType .f32 none = some .tf32 ∧
    MmaOp.parseMultiplicandPtxType 1 (.integer 8) none = .ok .s32 ∧
    MmaOp.buildMultiplicandPtxType (.integer 8) none = none :=
  ⟨fun _ => ⟨rfl, rfl, rfl⟩, rfl, rfl, rfl, rfl, rfl, rfl, rfl⟩

end NVVM
